import Mathlib

/-!
Federation query planner (`federation/planner.go`)

A shallow embedding of the planner of the federated GraphQL gateway:
`planObject`, `planUnion`, `plan`, `reversePaths` and `planRoot`.

Modelling conventions.

* Go pointers to schema types (`*graphql.Object`, `*graphql.Union`) are references
  (`Ref`) into a heap carried by the executor, so that schemas may be recursive; a
  reference the heap does not resolve plays the role of a nil pointer, and
  dereferencing it is the runtime panic `Err.nilDereference`.
* Go maps that are only read (`typ.Fields`, `typ.Types`, `e.schema.Fields`,
  `fieldInfo.Services`) are functions; the map that is built and iterated
  (`selectionsByService`) is an association list with unique keys.
* A selection-set pointer the planner dereferences unconditionally (the argument
  of `plan`, the `SelectionSet` of a fragment) is a value; the `SelectionSet` of a
  selection, which the planner tests against nil, is an `Option`.
* `(*Plan, error)` results are `Except Err Plan`; the mutually recursive
  `plan` / `planObject` / `planUnion` take a recursion budget (`fuel`) and
  report `Err.outOfFuel` when it is exhausted.
* The planner only ever mutates Plans it has just created, so the in-place
  updates of `Path`, `After`, `Kind` and `SelectionSet` are functional updates.
-/

namespace Federation

/-! ## Data model -/

/-- The two kinds of path step: `KindType` (iota 0) and `KindField` (iota 1). -/
inductive StepKind where
  | KindType
  | KindField
deriving DecidableEq, Repr

/-- One step of a plan path. -/
structure PathStep where
  Kind : StepKind
  Name : String
deriving DecidableEq, Repr

/-- The request shape `thunderpb.ExecuteRequest_Kind`; `QUERY` is the zero value. -/
inductive ExecuteRequest_Kind where
  | QUERY
  | MUTATION
deriving DecidableEq, Repr

/-- Argument maps (`map[string]interface{}`); the planner only copies them. -/
abbrev Args := List (String × String)

mutual
/-- The type `graphql.RawSelectionSet`. -/
inductive RawSelectionSet where
  | mk (Selections : List RawSelection) (Fragments : List RawFragment)
/-- The type `graphql.RawSelection`; `SelectionSet` is a nilable pointer. -/
inductive RawSelection where
  | mk (Name : String) (Alias : String) (Args : Args) (SelectionSet : Option RawSelectionSet)
/-- The type `graphql.RawFragment`. -/
inductive RawFragment where
  | mk (On : String) (SelectionSet : RawSelectionSet)
end

/-- Field `Selections` of a selection set. -/
def RawSelectionSet.Selections : RawSelectionSet → List RawSelection
  | .mk s _ => s

/-- Field `Fragments` of a selection set. -/
def RawSelectionSet.Fragments : RawSelectionSet → List RawFragment
  | .mk _ f => f

/-- Field `Name` of a selection. -/
def RawSelection.Name : RawSelection → String
  | .mk n _ _ _ => n

/-- Field `Alias` of a selection. -/
def RawSelection.Alias : RawSelection → String
  | .mk _ a _ _ => a

/-- Field `Args` of a selection. -/
def RawSelection.Args : RawSelection → Args
  | .mk _ _ a _ => a

/-- Field `SelectionSet` of a selection (`none` is the nil pointer). -/
def RawSelection.SelectionSet : RawSelection → Option RawSelectionSet
  | .mk _ _ _ s => s

/-- Field `On` of a fragment. -/
def RawFragment.On : RawFragment → String
  | .mk o _ => o

/-- Field `SelectionSet` of a fragment. -/
def RawFragment.SelectionSet : RawFragment → RawSelectionSet
  | .mk _ s => s

/-- A node of the plan tree. `TypeName` is the Go field `Type`. -/
structure Plan where
  Path : List PathStep
  Service : String
  Kind : ExecuteRequest_Kind
  TypeName : String
  SelectionSet : RawSelectionSet
  After : List Plan

/-- A reference to a heap-allocated schema type (a Go pointer). -/
abbrev Ref := Nat

/-- The interface `graphql.Type` as far as `plan` inspects it: the two wrappers,
the two composite kinds (by reference) and every other dynamic type. -/
inductive Typ where
  | NonNull (inner : Typ)
  | List (inner : Typ)
  | Object (ref : Ref)
  | Union (ref : Ref)
  | Other
deriving DecidableEq, Repr

/-- A `*graphql.Field`: `ptr` is the pointer identity (the key of `e.schema.Fields`),
`Typ` the Go field `Type`. -/
structure Field where
  ptr : Nat
  Typ : Typ
deriving DecidableEq, Repr

/-- The pointee of a `*graphql.Object`. -/
structure Object where
  Name : String
  Fields : String → Option Field

/-- The pointee of a `*graphql.Union`; `Types` maps a name to a `*graphql.Object`. -/
structure Union where
  Name : String
  Types : String → Option Ref

/-- An entry of the field-ownership table: the home service and the set of
eligible services (`map[string]bool`). -/
structure FieldInfo where
  Service : String
  Services : String → Bool

/-- The roots `e.schema.Schema.Query` and `e.schema.Schema.Mutation`. -/
structure Schema where
  Query : Typ
  Mutation : Typ

/-- The value `e.schema`: the schema roots and the field-ownership table. -/
structure SchemaWithFederationInfo where
  Schema : Schema
  Fields : Field → Option FieldInfo

/-- The errors the planner returns, in the order of the error table, then the
two ways a run can end without returning: a nil-pointer panic and an exhausted
recursion budget. `PlanningFor` is the wrapper `"planning for %s: %v"`. -/
inductive Err where
  | UnknownField (typ : String) (field : String)
  | UnflattenedQuery
  | UnionSelectionError (name : String)
  | DuplicateFragment (target : String)
  | UnknownFragmentTarget (target : String) (typ : String)
  | UnsupportedType
  | UnknownOperationKind (kind : String)
  | MutationFanoutViolation
  | PlanningFor (name : String) (cause : Err)
  | nilDereference
  | outOfFuel
deriving DecidableEq, Repr

/-- The operation `graphql.Query` as far as `planRoot` reads it. -/
structure Query where
  Kind : String
  SelectionSet : RawSelectionSet

/-- The receiver `e` together with the memory it points into: the schema, the
heap of object and union types, and the flattening collaborator `e.flatten`,
which lives outside this file and is taken as given. -/
structure Executor where
  schema : SchemaWithFederationInfo
  objects : Ref → Option Object
  unions : Ref → Option Union
  flatten : RawSelectionSet → Typ → Except Err RawSelectionSet

/-! ## The planner -/

/-- The wrapping `fmt.Errorf("planning for %s: %v", name, err)` of a returned
error; a panic or an exhausted budget is not a returned error and passes through. -/
def wrapPlanningFor (name : String) : Err → Err
  | .nilDereference => .nilDereference
  | .outOfFuel => .outOfFuel
  | err => .PlanningFor name err

/-- The Go map `selectionsByService`. -/
abbrev Buckets := List (String × List RawSelection)

/-- The read `selectionsByService[service]` (nil when the key is absent). -/
def Buckets.get : Buckets → String → List RawSelection
  | [], _ => []
  | (k, v) :: rest, service => if k = service then v else Buckets.get rest service

/-- The update `selectionsByService[service] = append(selectionsByService[service], selection)`. -/
def Buckets.add : Buckets → String → RawSelection → Buckets
  | [], service, selection => [(service, [selection])]
  | (k, v) :: rest, service, selection =>
    if k = service then (k, v ++ [selection]) :: rest
    else (k, v) :: Buckets.add rest service selection

/-- The keys of the map. -/
def Buckets.keys (b : Buckets) : List String := b.map Prod.fst

/-- The call `sort.Strings`: ascending lexicographic order, compared character by
character (which is the byte order of Go for UTF-8 strings). -/
def sortStrings (l : List String) : List String :=
  l.insertionSort (fun a b => a.toList ≤ b.toList)

/-- The first loop of `planObject` (source lines 56-76): split the selections
into the local ones and the per-home-service buckets. -/
def partitionSelections (e : Executor) (typ : Object) (service : String) :
    List RawSelection → List RawSelection → Buckets →
    Except Err (List RawSelection × Buckets)
  | [], localSelections, selectionsByService => .ok (localSelections, selectionsByService)
  | selection :: rest, localSelections, selectionsByService =>
    if selection.Name = "__typename" then
      partitionSelections e typ service rest (localSelections ++ [selection]) selectionsByService
    else
      match typ.Fields selection.Name with
      | none => .error (.UnknownField typ.Name selection.Name)
      | some field =>
        match e.schema.Fields field with
        | none => .error .nilDereference
        | some fieldInfo =>
          if fieldInfo.Services service then
            partitionSelections e typ service rest (localSelections ++ [selection])
              selectionsByService
          else
            partitionSelections e typ service rest localSelections
              (selectionsByService.add fieldInfo.Service selection)

/-- The update `subPlan.Path = append(subPlan.Path, step)`. -/
def Plan.appendStep (step : PathStep) (subPlan : Plan) : Plan :=
  { subPlan with Path := subPlan.Path ++ [step] }

/-- The second loop of `planObject` (source lines 78-110): rebuild every local
selection, planning its nested selection set on the same service and promoting
the child's `After` entries with one more field step. -/
def planLocalSelections (plan : Typ → RawSelectionSet → String → Except Err Plan)
    (typ : Object) (service : String) :
    List RawSelection → List RawSelection → List Plan →
    Except Err (List RawSelection × List Plan)
  | [], selections, after => .ok (selections, after)
  | selection :: rest, selections, after =>
    match selection.SelectionSet with
    | none =>
      planLocalSelections plan typ service rest
        (selections ++ [RawSelection.mk selection.Name selection.Alias selection.Args none]) after
    | some selectionSet =>
      match typ.Fields selection.Name with
      | none => .error .nilDereference
      | some field =>
        match plan field.Typ selectionSet service with
        | .error err => .error (wrapPlanningFor selection.Name err)
        | .ok childPlan =>
          planLocalSelections plan typ service rest
            (selections ++ [RawSelection.mk selection.Name selection.Alias selection.Args
              (some childPlan.SelectionSet)])
            (after ++ childPlan.After.map
              (Plan.appendStep { Kind := .KindField, Name := selection.Alias }))

/-- The third loop of `planObject` (source lines 120-135): plan the same object
type against every other service, in the order of the sorted keys. -/
def planBuckets (plan : Typ → RawSelectionSet → String → Except Err Plan)
    (typ : Ref) (selectionsByService : Buckets) :
    List String → List Plan → Except Err (List Plan)
  | [], after => .ok after
  | other :: rest, after =>
    match plan (.Object typ) (RawSelectionSet.mk (selectionsByService.get other) []) other with
    | .error err => .error (wrapPlanningFor other err)
    | .ok subPlan => planBuckets plan typ selectionsByService rest (after ++ [subPlan])

/-- The test of source line 140. -/
def isFederationKey (selection : RawSelection) : Bool :=
  selection.Name = "__federation" && selection.Alias = "__federation"

/-- The synthetic key selection of source lines 147-151. -/
def federationKey : RawSelection := RawSelection.mk "__federation" "__federation" [] none

/-- The body of `planObject`, with the recursive calls to `e.plan` abstracted. -/
def planObjectWith (e : Executor) (plan : Typ → RawSelectionSet → String → Except Err Plan)
    (typ : Ref) (selectionSet : RawSelectionSet) (service : String) : Except Err Plan :=
  match e.objects typ with
  | none => .error .nilDereference
  | some obj =>
    if selectionSet.Fragments.length > 0 then .error .UnflattenedQuery
    else
      match partitionSelections e obj service selectionSet.Selections [] [] with
      | .error err => .error err
      | .ok (localSelections, selectionsByService) =>
        match planLocalSelections plan obj service localSelections [] [] with
        | .error err => .error err
        | .ok (selections, promoted) =>
          let otherServices := sortStrings selectionsByService.keys
          match planBuckets plan typ selectionsByService otherServices promoted with
          | .error err => .error err
          | .ok after =>
            let needKey := !otherServices.isEmpty
            let hasKey := selections.any isFederationKey
            .ok { Path := []
                  Service := service
                  Kind := .QUERY
                  TypeName := obj.Name
                  SelectionSet := RawSelectionSet.mk
                    (if needKey && !hasKey then selections ++ [federationKey] else selections) []
                  After := after }

/-- The synthetic selection of source lines 165-169. -/
def typenameSelection : RawSelection := RawSelection.mk "__typename" "__typename" [] none

/-- The first loop of `planUnion` (source lines 174-179). -/
def unionSelections : List RawSelection → List RawSelection → Except Err (List RawSelection)
  | [], selections => .ok selections
  | selection :: rest, selections =>
    if selection.Name ≠ "__typename" then .error (.UnionSelectionError selection.Name)
    else unionSelections rest (selections ++ [selection])

/-- The second loop of `planUnion` (source lines 185-215). The inner `typ`
declared on source line 193 shadows the union; when the lookup fails it is the
nil `*graphql.Object`, and the error message of line 195 reads `typ.Name`
through it. -/
def planFragments (e : Executor) (plan : Typ → RawSelectionSet → String → Except Err Plan)
    (typ : Ref) (service : String) :
    List RawFragment → List String → List RawFragment → List Plan →
    Except Err (List RawFragment × List Plan)
  | [], _, fragments, after => .ok (fragments, after)
  | fragment :: rest, seenFragments, fragments, after =>
    if fragment.On ∈ seenFragments then .error (.DuplicateFragment fragment.On)
    else
      match e.unions typ with
      | none => .error .nilDereference
      | some union =>
        match union.Types fragment.On with
        | none => .error .nilDereference
        | some objRef =>
          match plan (.Object objRef) fragment.SelectionSet service with
          | .error err => .error err
          | .ok concretePlan =>
            match e.objects objRef with
            | none => .error .nilDereference
            | some obj =>
              planFragments e plan typ service rest (fragment.On :: seenFragments)
                (fragments ++ [RawFragment.mk obj.Name concretePlan.SelectionSet])
                (after ++ concretePlan.After.map
                  (Plan.appendStep { Kind := .KindType, Name := obj.Name }))

/-- The body of `planUnion`, with the recursive calls to `e.plan` abstracted. -/
def planUnionWith (e : Executor) (plan : Typ → RawSelectionSet → String → Except Err Plan)
    (typ : Ref) (selectionSet : RawSelectionSet) (service : String) : Except Err Plan :=
  match unionSelections selectionSet.Selections [typenameSelection] with
  | .error err => .error err
  | .ok selections =>
    match planFragments e plan typ service selectionSet.Fragments [] [] [] with
    | .error err => .error err
    | .ok (fragments, after) =>
      .ok { Path := []
            Service := ""
            Kind := .QUERY
            TypeName := ""
            SelectionSet := RawSelectionSet.mk selections fragments
            After := after }

/-- The dispatcher `plan`; `fuel` bounds the depth of the recursion. -/
def plan (e : Executor) : Nat → Typ → RawSelectionSet → String → Except Err Plan
  | 0, _, _, _ => .error .outOfFuel
  | fuel + 1, .NonNull inner, selectionSet, service => plan e fuel inner selectionSet service
  | fuel + 1, .List inner, selectionSet, service => plan e fuel inner selectionSet service
  | fuel + 1, .Object typ, selectionSet, service =>
    planObjectWith e (plan e fuel) typ selectionSet service
  | fuel + 1, .Union typ, selectionSet, service =>
    planUnionWith e (plan e fuel) typ selectionSet service
  | _ + 1, .Other, _, _ => .error .UnsupportedType

/-- The method `planObject`, whose recursive calls have `fuel` left. -/
def planObject (e : Executor) (fuel : Nat) (typ : Ref) (selectionSet : RawSelectionSet)
    (service : String) : Except Err Plan :=
  planObjectWith e (plan e fuel) typ selectionSet service

/-- The method `planUnion`, whose recursive calls have `fuel` left. -/
def planUnion (e : Executor) (fuel : Nat) (typ : Ref) (selectionSet : RawSelectionSet)
    (service : String) : Except Err Plan :=
  planUnionWith e (plan e fuel) typ selectionSet service

/-- One iteration of the loop body of source lines 244-245: exchange the entries
at `i` and `j`. -/
def swapAt (path : List PathStep) (i j : Nat) : List PathStep :=
  match path[i]?, path[j]? with
  | some a, some b => (path.set i b).set j a
  | _, _ => path

/-- The loop of source lines 243-246, with `remaining` iterations to go from index `i`. -/
def swapLoop : Nat → Nat → List PathStep → List PathStep
  | 0, _, path => path
  | remaining + 1, i, path => swapLoop remaining (i + 1) (swapAt path i (path.length - 1 - i))

/-- The reversal of one path by the swap loop over `i = 0 .. len/2 - 1`. -/
def reversePath (path : List PathStep) : List PathStep :=
  swapLoop (path.length / 2) 0 path

mutual
/-- The function `reversePaths`: reverse the path of the plan and of all its subplans. -/
def reversePaths : Plan → Plan
  | ⟨path, service, kind, typeName, selectionSet, after⟩ =>
    ⟨reversePath path, service, kind, typeName, selectionSet, reversePathsAll after⟩
/-- The loop of source lines 247-249 over `p.After`. -/
def reversePathsAll : List Plan → List Plan
  | [] => []
  | p :: rest => reversePaths p :: reversePathsAll rest
end

/-- The update `p.Kind = thunderpb.ExecuteRequest_MUTATION` of source line 278. -/
def Plan.setMutation (p : Plan) : Plan := { p with Kind := .MUTATION }

/-- The method `planRoot`. -/
def planRoot (e : Executor) (fuel : Nat) (query : Query) : Except Err Plan :=
  let root : Option Typ :=
    if query.Kind = "query" then some e.schema.Schema.Query
    else if query.Kind = "mutation" then some e.schema.Schema.Mutation
    else none
  match root with
  | none => .error (.UnknownOperationKind query.Kind)
  | some schema =>
    match e.flatten query.SelectionSet schema with
    | .error err => .error err
    | .ok flattened =>
      match plan e fuel schema flattened "no-such-service" with
      | .error err => .error err
      | .ok p =>
        if query.Kind = "mutation" then
          if p.After.length > 1 then .error .MutationFanoutViolation
          else .ok (reversePaths { p with After := p.After.map Plan.setMutation })
        else .ok (reversePaths p)

/-! ## Notions used to state the properties -/

mutual
/-- All Plans of a plan tree: the root, then the Plans reachable through `After`. -/
def Plan.nodes : Plan → List Plan
  | ⟨path, service, kind, typeName, selectionSet, after⟩ =>
    ⟨path, service, kind, typeName, selectionSet, after⟩ :: Plan.nodesAll after
/-- All Plans of a list of plan trees. -/
def Plan.nodesAll : List Plan → List Plan
  | [] => []
  | p :: rest => p.nodes ++ Plan.nodesAll rest
end

/-- Whether `planObject` keeps a selection on the current service: it is the
meta-field `__typename`, or a field of the object whose ownership entry lists the
service as eligible (source lines 57-71). -/
def isLocal (e : Executor) (typ : Object) (service : String) (selection : RawSelection) : Bool :=
  if selection.Name = "__typename" then true
  else
    match typ.Fields selection.Name with
    | none => false
    | some field =>
      match e.schema.Fields field with
      | none => false
      | some fieldInfo => fieldInfo.Services service

/-- The home service of the field a selection names, when the selection is not
`__typename`, the object has the field and the ownership table has an entry for it. -/
def homeService (e : Executor) (typ : Object) (selection : RawSelection) : Option String :=
  if selection.Name = "__typename" then none
  else
    match typ.Fields selection.Name with
    | none => none
    | some field =>
      match e.schema.Fields field with
      | none => none
      | some fieldInfo => some fieldInfo.Service

/-- The home services of the (non-`__typename`) selections of a list, with repetitions. -/
def homeServices (e : Executor) (typ : Object) (selections : List RawSelection) : List String :=
  selections.filterMap (homeService e typ)

/-- The home services of the selections that are not local on `service`. -/
def remoteServices (e : Executor) (typ : Object) (service : String)
    (selections : List RawSelection) : List String :=
  homeServices e typ (selections.filter (fun sel => !isLocal e typ service sel))

/-- The shape of an `After` list: first the entries promoted out of nested
selections or fragments, each with a non-empty path, then the entries created for
the remote buckets of the node itself, each with an empty path and the `Type` of
the node, in strictly ascending order of `Service`. -/
def Plan.AfterShape (n : Plan) : Prop :=
  ∃ promoted buckets : List Plan,
    n.After = promoted ++ buckets ∧
    (∀ c ∈ promoted, c.Path ≠ []) ∧
    (∀ c ∈ buckets, c.Path = [] ∧ c.TypeName = n.TypeName) ∧
    (buckets.map Plan.Service).Sorted (· < ·)

/-- The sentinel service of `planRoot`. -/
def sentinel : String := "no-such-service"

/-- The sentinel service is eligible for no field of the ownership table. -/
def SentinelIneligible (e : Executor) : Prop :=
  ∀ field fieldInfo, e.schema.Fields field = some fieldInfo → fieldInfo.Services sentinel = false

/-- The meta-field `__typename` is selected as a leaf. -/
def TypenameLeaf (selections : List RawSelection) : Prop :=
  ∀ sel ∈ selections, sel.Name = "__typename" → sel.SelectionSet = none

/-- What the dispatcher guarantees about a Plan it returns for a type and service. -/
def Good (e : Executor) (t : Typ) (s : String) (p : Plan) : Prop :=
  p.Path = [] ∧
  (∀ r, t = .Object r → p.Service = s ∧ ∃ obj, e.objects r = some obj ∧ p.TypeName = obj.Name) ∧
  ∀ n ∈ p.nodes, n.AfterShape

mutual
/-- Every selection of a selection set, at any depth, fragments included. -/
def RawSelectionSet.all : RawSelectionSet → List RawSelection
  | .mk selections fragments => RawSelection.allOfList selections ++ RawFragment.allOfList fragments
/-- A selection followed by every selection nested in it. -/
def RawSelection.all : RawSelection → List RawSelection
  | .mk name al args none => [.mk name al args none]
  | .mk name al args (some selectionSet) =>
    .mk name al args (some selectionSet) :: RawSelectionSet.all selectionSet
/-- Every selection at any depth of a list of selections. -/
def RawSelection.allOfList : List RawSelection → List RawSelection
  | [] => []
  | selection :: rest => RawSelection.all selection ++ RawSelection.allOfList rest
/-- Every selection at any depth of a list of fragments. -/
def RawFragment.allOfList : List RawFragment → List RawSelection
  | [] => []
  | .mk _ selectionSet :: rest => RawSelectionSet.all selectionSet ++ RawFragment.allOfList rest
end

/-- A type with its `NonNull` and `List` wrappers removed. -/
def Typ.unwrap : Typ → Typ
  | .NonNull inner => inner.unwrap
  | .List inner => inner.unwrap
  | .Object ref => .Object ref
  | .Union ref => .Union ref
  | .Other => .Other

/-- The type of the field `name` of the object behind `typ`. -/
def fieldType (e : Executor) (typ : Ref) (name : String) : Typ :=
  match e.objects typ with
  | none => .Other
  | some obj =>
    match obj.Fields name with
    | none => .Other
    | some field => field.Typ

/-- The member named `target` of the union behind `typ`, as a type. -/
def memberType (e : Executor) (typ : Ref) (target : String) : Typ :=
  match e.unions typ with
  | none => .Other
  | some union =>
    match union.Types target with
    | none => .Other
    | some objRef => .Object objRef

mutual
/-- The input selection set with the synthetic `__typename` selection put in
front of every union-level selection set, and nothing else changed. -/
def withTypename (e : Executor) : Typ → RawSelectionSet → RawSelectionSet
  | t, .mk selections fragments =>
    match t.unwrap with
    | .Union u => .mk (typenameSelection :: selections) (withTypenameFragments e u fragments)
    | .Object r => .mk (withTypenameSelections e r selections) fragments
    | _ => .mk selections fragments
/-- The selections of an object-level selection set, with `withTypename` applied
to their nested selection sets. -/
def withTypenameSelections (e : Executor) : Ref → List RawSelection → List RawSelection
  | _, [] => []
  | r, .mk name al args none :: rest =>
    .mk name al args none :: withTypenameSelections e r rest
  | r, .mk name al args (some selectionSet) :: rest =>
    .mk name al args (some (withTypename e (fieldType e r name) selectionSet)) ::
      withTypenameSelections e r rest
/-- The fragments of a union-level selection set, with `withTypename` applied to
their selection sets. -/
def withTypenameFragments (e : Executor) : Ref → List RawFragment → List RawFragment
  | _, [] => []
  | u, .mk target selectionSet :: rest =>
    .mk target (withTypename e (memberType e u target) selectionSet) ::
      withTypenameFragments e u rest
end

/-- A flattened selection set that is valid for a type of the schema and entirely
resolvable by the service `S`: below an object there are no fragments, `__typename`
is a leaf, every other selection names a field of the object whose ownership entry
lists `S` as eligible, and nested selection sets are resolvable for the type of the
field; below a union every selection is `__typename`, the fragments target pairwise
distinct members, each registered under its own name, and the fragment bodies are
resolvable for the member. -/
inductive Resolvable (e : Executor) (S : String) : Typ → RawSelectionSet → Prop
  | nonNull {t : Typ} {ss : RawSelectionSet} :
      Resolvable e S t ss → Resolvable e S (.NonNull t) ss
  | list {t : Typ} {ss : RawSelectionSet} :
      Resolvable e S t ss → Resolvable e S (.List t) ss
  | object {r : Ref} {obj : Object} {selections : List RawSelection} :
      e.objects r = some obj →
      (∀ sel ∈ selections, sel.Name = "__typename" → sel.SelectionSet = none) →
      (∀ sel ∈ selections, sel.Name ≠ "__typename" →
        ∃ field info, obj.Fields sel.Name = some field ∧
          e.schema.Fields field = some info ∧ info.Services S = true) →
      (∀ sel ∈ selections, ∀ field ss, sel.Name ≠ "__typename" →
        obj.Fields sel.Name = some field → sel.SelectionSet = some ss →
        Resolvable e S field.Typ ss) →
      Resolvable e S (.Object r) (.mk selections [])
  | union {r : Ref} {u : Union} {selections : List RawSelection}
      {fragments : List RawFragment} :
      e.unions r = some u →
      (∀ sel ∈ selections, sel.Name = "__typename") →
      (fragments.map RawFragment.On).Nodup →
      (∀ f ∈ fragments, ∃ objRef obj, u.Types f.On = some objRef ∧
        e.objects objRef = some obj ∧ obj.Name = f.On) →
      (∀ f ∈ fragments, ∀ objRef, u.Types f.On = some objRef →
        Resolvable e S (.Object objRef) f.SelectionSet) →
      Resolvable e S (.Union r) (.mk selections fragments)

/-- The number of `NonNull` and `List` wrappers around a type. -/
def Typ.wrappers : Typ → Nat
  | .NonNull inner => inner.wrappers + 1
  | .List inner => inner.wrappers + 1
  | .Object _ => 0
  | .Union _ => 0
  | .Other => 0

/-- Walking a path through a selection set: a field step enters the nested
selection set of a selection with that alias, a type step enters the selection set
of a fragment on that type name. `Route ss path target` says that `path`, read from
its first step to its last, leads from `ss` to `target`. -/
inductive Route : RawSelectionSet → List PathStep → RawSelectionSet → Prop
  | done (ss : RawSelectionSet) : Route ss [] ss
  | field {ss nested target : RawSelectionSet} {sel : RawSelection} {rest : List PathStep} :
      sel ∈ ss.Selections → sel.SelectionSet = some nested → Route nested rest target →
      Route ss (⟨.KindField, sel.Alias⟩ :: rest) target
  | type {ss target : RawSelectionSet} {fragment : RawFragment} {rest : List PathStep} :
      fragment ∈ ss.Fragments → Route fragment.SelectionSet rest target →
      Route ss (⟨.KindType, fragment.On⟩ :: rest) target

/-- The selection set has a top-level selection with name and alias `__federation`. -/
def HasKey (ss : RawSelectionSet) : Prop :=
  ∃ sel ∈ ss.Selections, sel.Name = "__federation" ∧ sel.Alias = "__federation"

/-- The path leads from the selection set to a selection set holding the key. -/
def RouteToKey (ss : RawSelectionSet) (path : List PathStep) : Prop :=
  ∃ target, Route ss path target ∧ HasKey target

/-- Every `After` entry of the Plan has a path that, reversed (the order in which
`plan` leaves it), leads through the selection set of the Plan to the key. -/
def Plan.Routed (p : Plan) : Prop :=
  ∀ c ∈ p.After, RouteToKey p.SelectionSet c.Path.reverse

/-- The object behind `r` has a field `name` whose ownership entry lists the
service `s` as eligible. -/
def EligibleField (e : Executor) (s : String) (r : Ref) (name : String) : Prop :=
  ∃ obj field info, e.objects r = some obj ∧ obj.Fields name = some field ∧
    e.schema.Fields field = some info ∧ info.Services s = true

/-- At every depth of the selection set, `__typename` is selected as a leaf. -/
def LeafTypename (ss : RawSelectionSet) : Prop :=
  ∀ sel ∈ ss.all, sel.Name = "__typename" → sel.SelectionSet = none

mutual
/-- A selection set the service `s` can be asked for at a position of type `t`.
Wrappers are looked through. On an object there are no fragments, and every
selection is `__typename` selected as a leaf, or the synthetic key, or names a field
of that very object whose ownership entry lists `s` as eligible; a nested selection
set sits under a selection naming a field of the object, and is servable at the type
of that field. On a union every selection is `__typename` selected as a leaf, and
every fragment is servable for a member of the union. -/
inductive Servable (e : Executor) (s : String) : Typ → RawSelectionSet → Prop
  | nonNull {t : Typ} {ss : RawSelectionSet} :
      Servable e s t ss → Servable e s (.NonNull t) ss
  | list {t : Typ} {ss : RawSelectionSet} :
      Servable e s t ss → Servable e s (.List t) ss
  | object {r : Ref} {obj : Object} {selections : List RawSelection} :
      e.objects r = some obj →
      (∀ sel ∈ selections,
        (sel.Name = "__typename" ∧ sel.SelectionSet = none) ∨
        sel = federationKey ∨ EligibleField e s r sel.Name) →
      (∀ sel ∈ selections, ∀ nested, sel.SelectionSet = some nested →
        Servable e s (fieldType e r sel.Name) nested) →
      Servable e s (.Object r) (.mk selections [])
  | union {r : Ref} {selections : List RawSelection} {fragments : List RawFragment} :
      (∀ sel ∈ selections, sel.Name = "__typename" ∧ sel.SelectionSet = none) →
      (∀ f ∈ fragments, ServableFragment e s r f) →
      Servable e s (.Union r) (.mk selections fragments)
/-- A fragment the service `s` can be asked for on the union behind `r`: it is on
the name of an object registered as a member of the union, and its selection set is
servable on that object. -/
inductive ServableFragment (e : Executor) (s : String) : Ref → RawFragment → Prop
  | member {r : Ref} {u : Union} {key : String} {objRef : Ref} {obj : Object}
      {f : RawFragment} :
      e.unions r = some u → u.Types key = some objRef → e.objects objRef = some obj →
      obj.Name = f.On → Servable e s (.Object objRef) f.SelectionSet →
      ServableFragment e s r f
end

/-- The Plan is for an object of the schema, by the name in its `Type`, and its
selection set is servable by its own service on that object. -/
def Plan.ServedNode (e : Executor) (n : Plan) : Prop :=
  ∃ r obj, e.objects r = some obj ∧ obj.Name = n.TypeName ∧
    Servable e n.Service (.Object r) n.SelectionSet

/-- What `plan` for the type `t` on service `s` guarantees about eligibility: the
selection set of the Plan is servable by `s` at `t`, and every Plan below its `After`
entries is a served node. -/
def Served (e : Executor) (t : Typ) (s : String) (p : Plan) : Prop :=
  Servable e s t p.SelectionSet ∧ ∀ c ∈ p.After, ∀ n ∈ c.nodes, n.ServedNode e

/-- The number of selections of a list that are not a `__federation` key. -/
def countUser (selections : List RawSelection) : Nat :=
  selections.countP (fun sel => !isFederationKey sel)

/-- The number of selection nodes of a selection set, at every depth, that are not
a `__federation` key. -/
def RawSelectionSet.userCount (ss : RawSelectionSet) : Nat := countUser ss.all

/-- The number of selection nodes, keys excluded, over the selection sets of all
Plans of a tree. -/
def Plan.userTotal (p : Plan) : Nat :=
  (p.nodes.map (fun n => n.SelectionSet.userCount)).sum

/-- What identifies a selection node: its name, its alias, its arguments and whether
it carries a nested selection set. -/
structure Label where
  name : String
  al : String
  args : Args
  nested : Bool
  deriving DecidableEq

/-- The label of a selection. -/
def RawSelection.label (sel : RawSelection) : Label :=
  ⟨sel.Name, sel.Alias, sel.Args, sel.SelectionSet.isSome⟩

/-- The number of selections of a list that carry the label `l` and are not a
`__federation` key. -/
def countLabel (l : Label) (selections : List RawSelection) : Nat :=
  selections.countP (fun sel => !isFederationKey sel && decide (sel.label = l))

/-- The number of selection nodes of a selection set, at every depth, that carry
the label `l` and are not a `__federation` key. -/
def RawSelectionSet.labelCount (l : Label) (ss : RawSelectionSet) : Nat :=
  countLabel l ss.all

/-- The number of selection nodes with the label `l`, keys excluded, over the
selection sets of all Plans of a tree. -/
def Plan.labelTotal (l : Label) (p : Plan) : Nat :=
  (p.nodes.map (fun n => n.SelectionSet.labelCount l)).sum

/-- The same count over a list of plan trees. -/
def Plan.labelTotalAll (l : Label) (ps : List Plan) : Nat :=
  ((Plan.nodesAll ps).map (fun n => n.SelectionSet.labelCount l)).sum

/-- The selection nodes, at every depth, of the selection sets of all Plans of a
tree, `__federation` keys left out. -/
def Plan.userSelections (p : Plan) : List RawSelection :=
  (p.nodes.flatMap (fun n => n.SelectionSet.all)).filter (fun sel => !isFederationKey sel)

/-- A query that involves only object types: planning the selection set for the
type meets no union, that is, the type is an object under its wrappers and, for
every selection with a nested selection set, the nested selection set involves only
object types for the type of the field the selection names. A selection that names
no field of the object, and a type that is neither an object nor a union, put no
union in the way. -/
inductive ObjectsOnly (e : Executor) : Typ → RawSelectionSet → Prop
  | nonNull {t : Typ} {ss : RawSelectionSet} :
      ObjectsOnly e t ss → ObjectsOnly e (.NonNull t) ss
  | list {t : Typ} {ss : RawSelectionSet} :
      ObjectsOnly e t ss → ObjectsOnly e (.List t) ss
  | other {ss : RawSelectionSet} : ObjectsOnly e .Other ss
  | object {r : Ref} {selections : List RawSelection} {fragments : List RawFragment} :
      (∀ sel ∈ selections, ∀ nested, sel.SelectionSet = some nested →
        ObjectsOnly e (fieldType e r sel.Name) nested) →
      ObjectsOnly e (.Object r) (.mk selections fragments)

/-- The number of selections with the label `l`, at any depth, keys excluded, of
the buckets of the map. -/
def Buckets.labelWeight (l : Label) (b : Buckets) : Nat :=
  (b.map (fun kv => countLabel l (RawSelection.allOfList kv.2))).sum

/-- The home service of every field of the ownership table is among the
eligible services of the field. -/
def HomeEligible (e : Executor) : Prop :=
  ∀ field info, e.schema.Fields field = some info → info.Services info.Service = true

/-! ## Example schemas and queries -/

/-- A finite Go map given by its entries. -/
def mapOf {α : Type} (entries : List (String × α)) (key : String) : Option α :=
  match entries with
  | [] => none
  | (k, v) :: rest => if k = key then some v else mapOf rest key

/-- A selection without arguments and without a nested selection set, aliased to its name. -/
def leaf (name : String) : RawSelection := RawSelection.mk name name [] none

/-- A selection without arguments carrying a nested, fragment-free selection set. -/
def node (name : String) (selections : List RawSelection) : RawSelection :=
  RawSelection.mk name name [] (some (RawSelectionSet.mk selections []))

/-- A field-ownership entry whose only eligible service is its home service. -/
def ownedBy (service : String) : FieldInfo :=
  { Service := service, Services := fun s => decide (s = service) }

/-- The flattening collaborator of the examples: the queries are already flat. -/
def flattenId (selectionSet : RawSelectionSet) (_ : Typ) : Except Err RawSelectionSet :=
  .ok selectionSet

/-- The schema of the worked example: `Order{id, total, customer}` with `id` and
`total` on service `orders`, `customer : Customer` on service `users`, and
`Customer{name}` on service `users`. -/
def orderShop : Executor where
  schema :=
    { Schema := { Query := .Object 0, Mutation := .Object 0 }
      Fields := fun f =>
        if f.ptr = 0 ∨ f.ptr = 1 then some (ownedBy "orders")
        else if f.ptr = 2 ∨ f.ptr = 3 then some (ownedBy "users")
        else none }
  objects := fun r =>
    if r = 0 then
      some { Name := "Order"
             Fields := mapOf [("id", ⟨0, .Other⟩), ("total", ⟨1, .Other⟩),
                              ("customer", ⟨2, .Object 1⟩)] }
    else if r = 1 then some { Name := "Customer", Fields := mapOf [("name", ⟨3, .Other⟩)] }
    else none
  unions := fun _ => none
  flatten := flattenId

/-- The query `{id, total, customer{name}}`. -/
def orderQuery : RawSelectionSet :=
  RawSelectionSet.mk [leaf "id", leaf "total", node "customer" [leaf "name"]] []

/-- A schema with a union `Pet = Cat | Dog` (reference 0 of the union heap), both
members being objects with a field `name`, and a root object `Query{pets : [Pet]}`;
every field is on service `pets`. -/
def petShop : Executor where
  schema :=
    { Schema := { Query := .Object 3, Mutation := .Other }
      Fields := fun _ => some (ownedBy "pets") }
  objects := fun r =>
    if r = 1 then some { Name := "Cat", Fields := mapOf [("name", ⟨0, .Other⟩)] }
    else if r = 2 then some { Name := "Dog", Fields := mapOf [("name", ⟨1, .Other⟩)] }
    else if r = 3 then some { Name := "Query", Fields := mapOf [("pets", ⟨2, .List (.Union 0)⟩)] }
    else none
  unions := fun r =>
    if r = 0 then some { Name := "Pet", Types := mapOf [("Cat", 1), ("Dog", 2)] } else none
  flatten := flattenId

/-- The selections `{pets{... on Cat{name}}}`. -/
def petSelections : List RawSelection :=
  [RawSelection.mk "pets" "pets" []
    (some (RawSelectionSet.mk []
      [RawFragment.mk "Cat" (RawSelectionSet.mk [leaf "name"] [])]))]

/-- A schema with nested fan-out: `Query{a : A, b : B}` with both fields on
service `s`, `A{x}` with `x` on service `z`, and `B{y}` with `y` on service `a`. -/
def fanShop : Executor where
  schema :=
    { Schema := { Query := .Object 0, Mutation := .Object 0 }
      Fields := fun f =>
        if f.ptr = 0 ∨ f.ptr = 1 then some (ownedBy "s")
        else if f.ptr = 2 then some (ownedBy "z")
        else if f.ptr = 3 then some (ownedBy "a")
        else none }
  objects := fun r =>
    if r = 0 then
      some { Name := "Query", Fields := mapOf [("a", ⟨0, .Object 1⟩), ("b", ⟨1, .Object 2⟩)] }
    else if r = 1 then some { Name := "A", Fields := mapOf [("x", ⟨2, .Other⟩)] }
    else if r = 2 then some { Name := "B", Fields := mapOf [("y", ⟨3, .Other⟩)] }
    else none
  unions := fun _ => none
  flatten := flattenId

/-- The selection set `{a{x}, b{y}}`. -/
def fanSelections : RawSelectionSet :=
  RawSelectionSet.mk [node "a" [leaf "x"], node "b" [leaf "y"]] []

/-- The Plan for `x` on service `z`, as it leaves `planObject` for the object `A`. -/
def fanPlanZ : Plan :=
  { Path := [], Service := "z", Kind := .QUERY, TypeName := "A"
    SelectionSet := RawSelectionSet.mk [leaf "x"] [], After := [] }

/-- The Plan for `y` on service `a`, as it leaves `planObject` for the object `B`. -/
def fanPlanA : Plan :=
  { Path := [], Service := "a", Kind := .QUERY, TypeName := "B"
    SelectionSet := RawSelectionSet.mk [leaf "y"] [], After := [] }

/-- The Plan of `{a{x}, b{y}}` on service `s`: the two nested Plans are promoted
in selection order, each with the field step of its selection. -/
def fanPlanS : Plan :=
  { Path := [], Service := "s", Kind := .QUERY, TypeName := "Query"
    SelectionSet := RawSelectionSet.mk
      [node "a" [federationKey], node "b" [federationKey]] []
    After := [{ fanPlanZ with Path := [⟨.KindField, "a"⟩] },
              { fanPlanA with Path := [⟨.KindField, "b"⟩] }] }

/-- The root Plan of the query `{a{x}, b{y}}` on `fanShop`. -/
def fanPlanRoot : Plan :=
  { Path := [], Service := "no-such-service", Kind := .QUERY, TypeName := "Query"
    SelectionSet := RawSelectionSet.mk [federationKey] []
    After := [fanPlanS] }

/-- The root Plan of `{id, total, customer{name}}` on `orderShop` as `plan` returns it. -/
def orderRootPlan : Plan :=
  { Path := [], Service := "no-such-service", Kind := .QUERY, TypeName := "Order"
    SelectionSet := RawSelectionSet.mk [federationKey] []
    After :=
      [{ Path := [], Service := "orders", Kind := .QUERY, TypeName := "Order"
         SelectionSet := RawSelectionSet.mk [leaf "id", leaf "total"] [], After := [] },
       { Path := [], Service := "users", Kind := .QUERY, TypeName := "Order"
         SelectionSet := RawSelectionSet.mk [node "customer" [leaf "name"]] [], After := [] }] }

/-- The selection set `{id, total}`, both fields having home service `orders`. -/
def orderTotals : RawSelectionSet := RawSelectionSet.mk [leaf "id", leaf "total"] []

/-- The root Plan of `{id, total}` on `orderShop` as `plan` returns it. -/
def orderTotalsPlan : Plan :=
  { Path := [], Service := "no-such-service", Kind := .QUERY, TypeName := "Order"
    SelectionSet := RawSelectionSet.mk [federationKey] []
    After :=
      [{ Path := [], Service := "orders", Kind := .QUERY, TypeName := "Order"
         SelectionSet := RawSelectionSet.mk [leaf "id", leaf "total"] [], After := [] }] }

/-- The fragment `... on Cat {name}`. -/
def catFragment : RawFragment := RawFragment.mk "Cat" (RawSelectionSet.mk [leaf "name"] [])

/-- The fragment `... on Dog {name}`. -/
def dogFragment : RawFragment := RawFragment.mk "Dog" (RawSelectionSet.mk [leaf "name"] [])

/-- The selection set `{a{x}, c: a{x}}`: the field `a` twice, under two aliases. -/
def twinSelections : RawSelectionSet :=
  RawSelectionSet.mk
    [node "a" [leaf "x"],
     RawSelection.mk "a" "c" [] (some (RawSelectionSet.mk [leaf "x"] []))] []

/-- The Plan of `{a{x}, c: a{x}}` on service `s` of `fanShop`: both nested Plans
are on service `z`. -/
def twinPlanS : Plan :=
  { Path := [], Service := "s", Kind := .QUERY, TypeName := "Query"
    SelectionSet := RawSelectionSet.mk
      [node "a" [federationKey],
       RawSelection.mk "a" "c" [] (some (RawSelectionSet.mk [federationKey] []))] []
    After := [{ fanPlanZ with Path := [⟨.KindField, "a"⟩] },
              { fanPlanZ with Path := [⟨.KindField, "c"⟩] }] }

/-- The selection set `{pets{... on Bird{name}}}`: a fragment on a type that is not
a member of the union `Pet`. -/
def birdQuery : RawSelectionSet :=
  RawSelectionSet.mk
    [RawSelection.mk "pets" "pets" []
      (some (RawSelectionSet.mk []
        [RawFragment.mk "Bird" (RawSelectionSet.mk [leaf "name"] [])]))] []

/-- The root Plan of `{name}` on the object `Cat` of `petShop` as `plan` returns it
from the sentinel. -/
def catNamePlan : Plan :=
  { Path := [], Service := "no-such-service", Kind := .QUERY, TypeName := "Cat"
    SelectionSet := RawSelectionSet.mk [federationKey] []
    After :=
      [{ Path := [], Service := "pets", Kind := .QUERY, TypeName := "Cat"
         SelectionSet := RawSelectionSet.mk [leaf "name"] [], After := [] }] }

/-- The selection set `{pets{__typename{bogus}}}`: a selection under `__typename`. -/
def bogusQuery : RawSelectionSet :=
  RawSelectionSet.mk
    [RawSelection.mk "pets" "pets" []
      (some (RawSelectionSet.mk
        [RawSelection.mk "__typename" "__typename" []
          (some (RawSelectionSet.mk [leaf "bogus"] []))] []))] []

/-- The Plan of `{pets{__typename{bogus}}}` on service `pets` of `petShop`. -/
def bogusPlan : Plan :=
  { Path := [], Service := "pets", Kind := .QUERY, TypeName := "Query"
    SelectionSet := RawSelectionSet.mk
      [RawSelection.mk "pets" "pets" []
        (some (RawSelectionSet.mk
          [typenameSelection,
           RawSelection.mk "__typename" "__typename" []
             (some (RawSelectionSet.mk [leaf "bogus"] []))] []))] []
    After := [] }
/-! ## Theorems -/

/-- Evaluation of `planObject` on the worked example, for any schema of that shape. -/
theorem planObject_order_eval (e : Executor) (order customer : Ref) (orderT customerT : Object)
    (fid ftotal fcustomer fname : Field) (iid itotal icustomer iname : FieldInfo)
    (hOrder : e.objects order = some orderT) (hCustomer : e.objects customer = some customerT)
    (hid : orderT.Fields "id" = some fid) (htotal : orderT.Fields "total" = some ftotal)
    (hcustomer : orderT.Fields "customer" = some fcustomer)
    (hname : customerT.Fields "name" = some fname)
    (hiid : e.schema.Fields fid = some iid) (hitotal : e.schema.Fields ftotal = some itotal)
    (hicustomer : e.schema.Fields fcustomer = some icustomer)
    (hiname : e.schema.Fields fname = some iname)
    (hidS : iid.Services "orders" = true) (htotalS : itotal.Services "orders" = true)
    (hcustomerHome : icustomer.Service = "users")
    (hcustomerS : ∀ s, icustomer.Services s = true ↔ s = "users")
    (hcustomerT : fcustomer.Typ = .Object customer)
    (hnameS : iname.Services "users" = true) (fuel : Nat) :
    planObject e (fuel + 2) order orderQuery "orders" =
      .ok { Path := [], Service := "orders", Kind := .QUERY, TypeName := orderT.Name
            SelectionSet := RawSelectionSet.mk [leaf "id", leaf "total", federationKey] []
            After := [{ Path := [], Service := "users", Kind := .QUERY, TypeName := orderT.Name
                        SelectionSet := RawSelectionSet.mk [node "customer" [leaf "name"]] []
                        After := [] }] } := by
  have h1 : icustomer.Services "orders" = false := by
    cases h : icustomer.Services "orders" with
    | false => rfl
    | true => exact absurd ((hcustomerS "orders").1 h) (by decide)
  have h2 : icustomer.Services "users" = true := (hcustomerS "users").2 rfl
  simp [planObject, planObjectWith, plan, orderQuery, hOrder, hCustomer, partitionSelections,
    RawSelectionSet.Fragments, RawSelectionSet.Selections, leaf, node, RawSelection.Name,
    RawSelection.Alias, RawSelection.Args, RawSelection.SelectionSet,
    hid, htotal, hcustomer, hname, hiid, hitotal, hicustomer, hiname, hidS, htotalS,
    hcustomerHome, h1, h2, hcustomerT, hnameS, planLocalSelections, planBuckets, Buckets.add,
    Buckets.get, Buckets.keys, sortStrings, isFederationKey, federationKey, Plan.appendStep]

/-- C1 (amended): for an object type `Order` whose fields `id` and `total` are
eligible on service `orders` and whose field `customer` has home service `users`
and is eligible only there (its type being an object whose field `name` is eligible
on `users`), `planObject(Order, {id, total, customer{name}}, "orders")` returns a
Plan on `orders` with selections exactly `[id, total, __federation]` and exactly one
`After` Plan, on `users`, with selections `{customer{name}}` and an EMPTY `Path`. -/
theorem order_example_plan (e : Executor) (order customer : Ref) (orderT customerT : Object)
    (fid ftotal fcustomer fname : Field) (iid itotal icustomer iname : FieldInfo)
    (hOrder : e.objects order = some orderT) (hCustomer : e.objects customer = some customerT)
    (hid : orderT.Fields "id" = some fid) (htotal : orderT.Fields "total" = some ftotal)
    (hcustomer : orderT.Fields "customer" = some fcustomer)
    (hname : customerT.Fields "name" = some fname)
    (hiid : e.schema.Fields fid = some iid) (hitotal : e.schema.Fields ftotal = some itotal)
    (hicustomer : e.schema.Fields fcustomer = some icustomer)
    (hiname : e.schema.Fields fname = some iname)
    (hidS : iid.Services "orders" = true) (htotalS : itotal.Services "orders" = true)
    (hcustomerHome : icustomer.Service = "users")
    (hcustomerS : ∀ s, icustomer.Services s = true ↔ s = "users")
    (hcustomerT : fcustomer.Typ = .Object customer)
    (hnameS : iname.Services "users" = true) (fuel : Nat) :
    planObject e (fuel + 2) order orderQuery "orders" =
      .ok { Path := [], Service := "orders", Kind := .QUERY, TypeName := orderT.Name
            SelectionSet := RawSelectionSet.mk [leaf "id", leaf "total", federationKey] []
            After := [{ Path := [], Service := "users", Kind := .QUERY, TypeName := orderT.Name
                        SelectionSet := RawSelectionSet.mk [node "customer" [leaf "name"]] []
                        After := [] }] } :=
  planObject_order_eval e order customer orderT customerT fid ftotal fcustomer fname
    iid itotal icustomer iname hOrder hCustomer hid htotal hcustomer hname hiid hitotal
    hicustomer hiname hidS htotalS hcustomerHome hcustomerS hcustomerT hnameS fuel

/-- The worked example on the concrete schema `orderShop`, through `order_example_plan`. -/
theorem order_example_plan_witness :
    planObject orderShop 2 0 orderQuery "orders" =
      .ok { Path := [], Service := "orders", Kind := .QUERY, TypeName := "Order"
            SelectionSet := RawSelectionSet.mk [leaf "id", leaf "total", federationKey] []
            After := [{ Path := [], Service := "users", Kind := .QUERY, TypeName := "Order"
                        SelectionSet := RawSelectionSet.mk [node "customer" [leaf "name"]] []
                        After := [] }] } :=
  order_example_plan orderShop 0 1
    { Name := "Order"
      Fields := mapOf [("id", ⟨0, .Other⟩), ("total", ⟨1, .Other⟩), ("customer", ⟨2, .Object 1⟩)] }
    { Name := "Customer", Fields := mapOf [("name", ⟨3, .Other⟩)] }
    ⟨0, .Other⟩ ⟨1, .Other⟩ ⟨2, .Object 1⟩ ⟨3, .Other⟩
    (ownedBy "orders") (ownedBy "orders") (ownedBy "users") (ownedBy "users")
    rfl rfl rfl rfl rfl rfl rfl rfl rfl rfl rfl rfl rfl
    (fun s => by simp [ownedBy]) rfl rfl 0

/-- C1 (as stated) fails: on `orderShop`, whatever the recursion budget, the `After`
entry of the plan of `{id, total, customer{name}}` from `orders` never has the
one-step path `[field step "customer"]`. -/
theorem order_example_path_refuted :
    ¬ ∃ fuel p u, planObject orderShop fuel 0 orderQuery "orders" = .ok p ∧
      p.After = [u] ∧ u.Service = "users" ∧ u.Path = [⟨.KindField, "customer"⟩] := by
  rintro ⟨fuel, p, u, h, hu, -, hpath⟩
  match fuel, h with
  | 0, h => exact absurd h (by simp [show planObject orderShop 0 0 orderQuery "orders" = .error .outOfFuel from rfl])
  | 1, h => exact absurd h (by simp [show planObject orderShop 1 0 orderQuery "orders" = .error .outOfFuel from rfl])
  | n + 2, h =>
    rw [planObject_order_eval orderShop 0 1
      { Name := "Order"
        Fields := mapOf [("id", ⟨0, .Other⟩), ("total", ⟨1, .Other⟩),
                         ("customer", ⟨2, .Object 1⟩)] }
      { Name := "Customer", Fields := mapOf [("name", ⟨3, .Other⟩)] }
      ⟨0, .Other⟩ ⟨1, .Other⟩ ⟨2, .Object 1⟩ ⟨3, .Other⟩
      (ownedBy "orders") (ownedBy "orders") (ownedBy "users") (ownedBy "users")
      rfl rfl rfl rfl rfl rfl rfl rfl rfl rfl rfl rfl rfl
      (fun s => by simp [ownedBy]) rfl rfl n] at h
    injection h with h
    subst h
    simp at hu
    subst hu
    simp at hpath

theorem swapAt_mid (A M B : List PathStep) (a b : PathStep) :
    swapAt (A ++ a :: (M ++ b :: B)) A.length (A.length + 1 + M.length) =
      A ++ b :: (M ++ a :: B) := by
  have hsub : A.length + 1 + M.length - A.length = M.length + 1 := by omega
  have h1 : (A ++ a :: (M ++ b :: B))[A.length]? = some a := by
    rw [List.getElem?_append_right (le_refl _)]; simp
  have h2 : (A ++ a :: (M ++ b :: B))[A.length + 1 + M.length]? = some b := by
    rw [List.getElem?_append_right (by omega), hsub, List.getElem?_cons_succ,
      List.getElem?_append_right (le_refl _)]
    simp
  unfold swapAt
  rw [h1, h2]
  simp only []
  rw [List.set_append_right _ _ (le_refl _), Nat.sub_self, List.set_cons_zero,
    List.set_append_right _ _ (by omega), hsub, List.set_cons_succ,
    List.set_append_right _ _ (le_refl _), Nat.sub_self, List.set_cons_zero]

theorem swapLoop_mid : ∀ (k : Nat) (A M B : List PathStep), A.length = B.length →
    M.length / 2 = k → swapLoop k A.length (A ++ M ++ B) = A ++ M.reverse ++ B := by
  intro k
  induction k with
  | zero =>
    intro A M B _ hk
    have hM : M.length < 2 := by omega
    have : M.reverse = M := by
      match M, hM with
      | [], _ => rfl
      | [x], _ => rfl
      | _ :: _ :: _, h => exact absurd h (by simp)
    simp [swapLoop, this]
  | succ k ih =>
    intro A M B hAB hk
    have hM : 2 ≤ M.length := by omega
    match M, hM, hk with
    | a :: M1, hM, hk =>
      have hne : M1 ≠ [] := by
        intro h
        subst h
        simp at hM
      obtain ⟨M2, b, rfl⟩ := List.eq_nil_or_concat M1 |>.resolve_left hne
      rw [List.concat_eq_append] at hk ⊢
      have hj : (A ++ a :: (M2 ++ [b]) ++ B).length - 1 - A.length = A.length + 1 + M2.length := by
        simp
        omega
      unfold swapLoop
      rw [hj]
      have e1 : A ++ a :: (M2 ++ [b]) ++ B = A ++ a :: (M2 ++ b :: B) := by simp
      rw [e1, swapAt_mid]
      have e2 : A ++ b :: (M2 ++ a :: B) = (A ++ [b]) ++ M2 ++ (a :: B) := by simp
      have e3 : A.length + 1 = (A ++ [b]).length := by simp
      rw [e2, e3, ih (A ++ [b]) M2 (a :: B) (by simp [hAB]) (by simp at hk; omega)]
      simp

theorem reversePath_eq_reverse (path : List PathStep) : reversePath path = path.reverse := by
  have := swapLoop_mid (path.length / 2) [] path [] rfl rfl
  simpa [reversePath] using this

theorem reversePathsAll_eq_map (l : List Plan) : reversePathsAll l = l.map reversePaths := by
  induction l with
  | nil => rfl
  | cons p rest ih => simp [reversePathsAll, ih]

mutual
theorem reversePaths_twice : ∀ t : Plan, reversePaths (reversePaths t) = t
  | ⟨path, service, kind, typeName, selectionSet, after⟩ => by
    simp [reversePaths, reversePath_eq_reverse, reversePathsAll_twice after]
theorem reversePathsAll_twice : ∀ l : List Plan, reversePathsAll (reversePathsAll l) = l
  | [] => by simp [reversePathsAll]
  | p :: rest => by
    simp [reversePathsAll, reversePaths_twice p, reversePathsAll_twice rest]
end

/-- C8: `reversePaths` is an involution on plan trees, and one application
replaces the path of the node by its reversal (computed by the swap loop), keeps
`Service`, `Kind`, `Type` and `SelectionSet`, and maps itself over `After`, keeping
its shape and order. -/
theorem reversePaths_involution (t : Plan) :
    reversePaths (reversePaths t) = t ∧
    (reversePaths t).Path = t.Path.reverse ∧
    (reversePaths t).Service = t.Service ∧
    (reversePaths t).Kind = t.Kind ∧
    (reversePaths t).TypeName = t.TypeName ∧
    (reversePaths t).SelectionSet = t.SelectionSet ∧
    (reversePaths t).After = t.After.map reversePaths := by
  refine ⟨reversePaths_twice t, ?_⟩
  cases t with
  | mk path service kind typeName selectionSet after =>
    simp [reversePaths, reversePath_eq_reverse, reversePathsAll_eq_map]

theorem unionSelections_typename (sels acc : List RawSelection)
    (h : ∀ sel ∈ sels, sel.Name = "__typename") :
    unionSelections sels acc = .ok (acc ++ sels) := by
  induction sels generalizing acc with
  | nil => simp [unionSelections]
  | cons sel rest ih =>
    have h1 : sel.Name = "__typename" := h sel (by simp)
    simp [unionSelections, h1, ih (acc ++ [sel]) (fun s hs => h s (by simp [hs]))]

theorem unionSelections_bare (sels acc : List RawSelection) (sel : RawSelection)
    (h : sels.find? (fun s => decide (s.Name ≠ "__typename")) = some sel) :
    unionSelections sels acc = .error (.UnionSelectionError sel.Name) := by
  induction sels generalizing acc with
  | nil => simp at h
  | cons s rest ih =>
    by_cases hs : s.Name = "__typename"
    · simp [List.find?, hs] at h
      simp [unionSelections, hs]
      exact ih _ (by simpa using h)
    · simp [List.find?, hs] at h
      subst h
      simp [unionSelections, hs]

theorem planFragments_append (e : Executor)
    (plan : Typ → RawSelectionSet → String → Except Err Plan) (typ : Ref) (service : String)
    (pre rest : List RawFragment) :
    ∀ (seen : List String) (frags frags1 : List RawFragment) (after after1 : List Plan),
      planFragments e plan typ service pre seen frags after = .ok (frags1, after1) →
      planFragments e plan typ service (pre ++ rest) seen frags after =
        planFragments e plan typ service rest ((pre.map RawFragment.On).reverse ++ seen)
          frags1 after1 := by
  induction pre with
  | nil =>
    intro seen frags frags1 after after1 h
    simp [planFragments] at h
    obtain ⟨rfl, rfl⟩ := h
    simp
  | cons f pre ih =>
    intro seen frags frags1 after after1 h
    simp only [List.cons_append, planFragments] at h ⊢
    split at h
    · simp at h
    · rename_i hseen
      simp only [hseen, if_false]
      split at h
      · simp at h
      · split at h
        · simp at h
        · split at h
          · simp at h
          · split at h
            · simp at h
            · simpa using ih _ _ _ _ _ h

/-- The fragment loop panics at the first fragment whose target is not a member
of the union, when the fragments before it were planned without failure. -/
theorem planFragments_unknown_target (e : Executor)
    (plan : Typ → RawSelectionSet → String → Except Err Plan) (typ : Ref) (service : String)
    (pre post : List RawFragment) (fragment : RawFragment)
    (frags1 : List RawFragment) (after1 : List Plan)
    (hpre : planFragments e plan typ service pre [] [] [] = .ok (frags1, after1))
    (hnew : fragment.On ∉ pre.map RawFragment.On)
    (hmember : ∀ u, e.unions typ = some u → u.Types fragment.On = none) :
    planFragments e plan typ service (pre ++ fragment :: post) [] [] [] =
      .error .nilDereference := by
  rw [planFragments_append e plan typ service pre (fragment :: post) [] [] frags1 [] after1 hpre]
  simp only [planFragments]
  have : fragment.On ∉ (pre.map RawFragment.On).reverse ++ [] := by simpa using hnew
  simp only [this, if_false]
  cases hu : e.unions typ with
  | none => rfl
  | some u => simp [hmember u hu]

/-- C9 (code): on the union `Pet = Cat | Dog`, a fragment on `Bird` makes `planUnion`
panic with a nil dereference, whatever the recursion budget and the service; no
`UnknownFragmentTarget` error value is returned. -/
theorem planUnion_unknown_target_panics :
    ∀ (fuel : Nat) (service : String),
      planUnion petShop fuel 0
        (RawSelectionSet.mk [leaf "__typename"]
          [RawFragment.mk "Bird" (RawSelectionSet.mk [leaf "name"] [])]) service =
        .error .nilDereference := by
  intro fuel service
  have hsel := unionSelections_typename [leaf "__typename"] [typenameSelection]
    (by intro sel hs; simp at hs; subst hs; rfl)
  have hfr := planFragments_unknown_target petShop (plan petShop fuel) 0 service [] []
    (RawFragment.mk "Bird" (RawSelectionSet.mk [leaf "name"] [])) [] [] rfl (by simp)
    (by
      intro u hu
      have : u = { Name := "Pet", Types := mapOf [("Cat", 1), ("Dog", 2)] } := by
        simp [petShop] at hu
        exact hu.symm
      subst this
      rfl)
  simp only [List.nil_append] at hfr
  simp only [planUnion, planUnionWith, RawSelectionSet.Selections, RawSelectionSet.Fragments,
    hsel, hfr]

/-- C10: when some selection of the input is not named `__typename`, `planUnion`
fails with `UnionSelectionError` naming the first such selection, for every
executor, recursion budget, union, service and fragment list: the outcome is fixed
by the selections alone, before any fragment is looked at. -/
theorem planUnion_bare_selection (selections : List RawSelection)
    (h : ∃ sel ∈ selections, sel.Name ≠ "__typename") :
    ∃ sel ∈ selections, sel.Name ≠ "__typename" ∧
      ∀ (e : Executor) (fuel : Nat) (typ : Ref) (service : String)
        (fragments : List RawFragment),
        planUnion e fuel typ (RawSelectionSet.mk selections fragments) service =
          .error (.UnionSelectionError sel.Name) := by
  obtain ⟨s, hs, hne⟩ := h
  cases hf : selections.find? (fun s => decide (s.Name ≠ "__typename")) with
  | none =>
    have := List.find?_eq_none.1 hf s hs
    simp [hne] at this
  | some sel =>
    refine ⟨sel, List.mem_of_find?_eq_some hf, by simpa using List.find?_some hf, ?_⟩
    intro e fuel typ service fragments
    simp [planUnion, planUnionWith, RawSelectionSet.Selections, unionSelections_bare _ _ _ hf]

/-- A bare field `name` next to a fragment on the union `Pet`, through
`planUnion_bare_selection`. -/
theorem planUnion_bare_selection_witness :
    ∃ sel ∈ [leaf "__typename", leaf "name"], sel.Name ≠ "__typename" ∧
      ∀ (e : Executor) (fuel : Nat) (typ : Ref) (service : String)
        (fragments : List RawFragment),
        planUnion e fuel typ
          (RawSelectionSet.mk [leaf "__typename", leaf "name"] fragments) service =
          .error (.UnionSelectionError sel.Name) :=
  planUnion_bare_selection [leaf "__typename", leaf "name"]
    ⟨leaf "name", by simp, by decide⟩

/-! ### The bucket map -/

theorem Buckets.keys_add (b : Buckets) (k : String) (sel : RawSelection) :
    (b.add k sel).keys = if k ∈ b.keys then b.keys else b.keys ++ [k] := by
  induction b with
  | nil => simp [Buckets.add, Buckets.keys]
  | cons kv rest ih =>
    obtain ⟨k1, v1⟩ := kv
    by_cases h : k1 = k
    · simp [Buckets.add, Buckets.keys, h]
    · have h2 : ¬ k = k1 := fun h3 => h h3.symm
      simp only [Buckets.keys] at ih
      simp only [Buckets.add, h, if_false, Buckets.keys, List.map_cons, ih, List.mem_cons, h2,
        false_or]
      split <;> simp

theorem Buckets.nodup_add (b : Buckets) (k : String) (sel : RawSelection)
    (h : b.keys.Nodup) : (b.add k sel).keys.Nodup := by
  rw [Buckets.keys_add]
  split
  · exact h
  · rename_i hk
    exact List.Nodup.append h (by simp) (by simpa using hk)

theorem Buckets.mem_keys_add (b : Buckets) (k : String) (sel : RawSelection) (x : String) :
    x ∈ (b.add k sel).keys ↔ x ∈ b.keys ∨ x = k := by
  rw [Buckets.keys_add]
  split
  · rename_i hk
    constructor
    · exact Or.inl
    · rintro (h | rfl)
      · exact h
      · exact hk
  · simp

theorem Buckets.get_add (b : Buckets) (k : String) (sel : RawSelection) (x : String) :
    (b.add k sel).get x = if x = k then b.get x ++ [sel] else b.get x := by
  induction b with
  | nil =>
    by_cases h : x = k
    · simp [Buckets.add, Buckets.get, h]
    · have h2 : ¬ k = x := fun h3 => h h3.symm
      simp [Buckets.add, Buckets.get, h, h2]
  | cons kv rest ih =>
    obtain ⟨k1, v1⟩ := kv
    by_cases h : k1 = k
    · subst h
      by_cases hx : k1 = x
      · simp [Buckets.add, Buckets.get, hx]
      · have h2 : ¬ x = k1 := fun h3 => hx h3.symm
        simp [Buckets.add, Buckets.get, hx, h2]
    · by_cases hx : k1 = x
      · subst hx
        simp [Buckets.add, Buckets.get, h]
      · simp [Buckets.add, Buckets.get, h, hx, ih]

/-! ### The first loop of `planObject` -/

theorem isLocal_typename (e : Executor) (typ : Object) (service : String) (sel : RawSelection)
    (h : sel.Name = "__typename") : isLocal e typ service sel = true := by
  simp [isLocal, h]

theorem partitionSelections_spec (e : Executor) (typ : Object) (service : String) :
    ∀ (sels loc : List RawSelection) (b : Buckets) (loc1 : List RawSelection) (b1 : Buckets),
      partitionSelections e typ service sels loc b = .ok (loc1, b1) →
      loc1 = loc ++ sels.filter (isLocal e typ service) ∧
      (b.keys.Nodup → b1.keys.Nodup) ∧
      (∀ k, k ∈ b1.keys ↔ k ∈ b.keys ∨ k ∈ remoteServices e typ service sels) ∧
      (∀ k, b1.get k = b.get k ++ sels.filter
        (fun sel => !isLocal e typ service sel && decide (homeService e typ sel = some k))) := by
  intro sels
  induction sels with
  | nil =>
    intro loc b loc1 b1 h
    simp [partitionSelections] at h
    obtain ⟨rfl, rfl⟩ := h
    simp [remoteServices, homeServices]
  | cons sel rest ih =>
    intro loc b loc1 b1 h
    simp only [partitionSelections] at h
    by_cases hn : sel.Name = "__typename"
    · simp only [hn, if_true] at h
      obtain ⟨h1, h2, h3, h4⟩ := ih _ _ _ _ h
      have hl : isLocal e typ service sel = true := isLocal_typename e typ service sel hn
      refine ⟨by simp [h1, hl], h2, ?_, ?_⟩
      · intro k
        simp [h3 k, remoteServices, hl]
      · intro k
        simp [h4 k, hl]
    · simp only [hn, if_false] at h
      cases hf : typ.Fields sel.Name with
      | none => simp [hf] at h
      | some field =>
        simp only [hf] at h
        cases hi : e.schema.Fields field with
        | none => simp [hi] at h
        | some info =>
          simp only [hi] at h
          cases hs : info.Services service with
          | true =>
            simp only [hs, if_true] at h
            obtain ⟨h1, h2, h3, h4⟩ := ih _ _ _ _ h
            have hl : isLocal e typ service sel = true := by simp [isLocal, hn, hf, hi, hs]
            refine ⟨by simp [h1, hl], h2, ?_, ?_⟩
            · intro k
              simp [h3 k, remoteServices, hl]
            · intro k
              simp [h4 k, hl]
          | false =>
            simp only [hs] at h
            obtain ⟨h1, h2, h3, h4⟩ := ih _ _ _ _ h
            have hl : isLocal e typ service sel = false := by simp [isLocal, hn, hf, hi, hs]
            have hh : homeService e typ sel = some info.Service := by
              simp [homeService, hn, hf, hi]
            refine ⟨by simp [h1, hl], fun hb => h2 (Buckets.nodup_add _ _ _ hb), ?_, ?_⟩
            · intro k
              rw [h3 k, Buckets.mem_keys_add]
              simp only [remoteServices, homeServices, hl, Bool.not_false, List.filter_cons_of_pos,
                List.filterMap_cons, hh, List.mem_cons]
              tauto
            · intro k
              rw [h4 k, Buckets.get_add]
              by_cases hk : k = info.Service
              · subst hk
                simp [hl, hh]
              · have hk2 : ¬ info.Service = k := fun h3 => hk h3.symm
                simp [hl, hh, hk, hk2]

/-! ### Sorting the services -/

theorem sortStrings_perm (l : List String) : (sortStrings l).Perm l :=
  List.perm_insertionSort _ l

theorem sortStrings_sorted_le (l : List String) :
    (sortStrings l).Sorted (fun a b : String => a ≤ b) := by
  have h := @List.sorted_insertionSort String (fun a b => a.toList ≤ b.toList) _
    ⟨fun a b => by
      rcases le_total a b with h | h
      · exact Or.inl (String.le_iff_toList_le.1 h)
      · exact Or.inr (String.le_iff_toList_le.1 h)⟩
    ⟨fun a b c hab hbc =>
      String.le_iff_toList_le.1
        (le_trans (String.le_iff_toList_le.2 hab) (String.le_iff_toList_le.2 hbc))⟩ l
  exact List.Pairwise.imp (fun hab => String.le_iff_toList_le.2 hab) h

theorem sortStrings_sorted_lt (l : List String) (h : l.Nodup) :
    (sortStrings l).Sorted (fun a b : String => a < b) :=
  (sortStrings_sorted_le l).lt_of_le ((sortStrings_perm l).nodup_iff.2 h)

theorem mem_sortStrings (l : List String) (x : String) : x ∈ sortStrings l ↔ x ∈ l :=
  (sortStrings_perm l).mem_iff

/-! ### Plan trees -/

theorem Plan.nodes_eq (p : Plan) : p.nodes = p :: Plan.nodesAll p.After := by
  cases p
  simp [Plan.nodes]

theorem Plan.mem_nodesAll (l : List Plan) (q : Plan) :
    q ∈ Plan.nodesAll l ↔ ∃ c ∈ l, q ∈ c.nodes := by
  induction l with
  | nil => simp [Plan.nodesAll]
  | cons p rest ih => simp [Plan.nodesAll, ih]

theorem Plan.self_mem_nodes (p : Plan) : p ∈ p.nodes := by
  rw [Plan.nodes_eq]
  simp

theorem Plan.child_mem_nodes (p c : Plan) (h : c ∈ p.After) : c ∈ p.nodes := by
  rw [Plan.nodes_eq]
  exact List.mem_cons_of_mem _ ((Plan.mem_nodesAll _ _).2 ⟨c, h, Plan.self_mem_nodes c⟩)

theorem Plan.afterShape_appendStep (step : PathStep) (c : Plan) (h : c.AfterShape) :
    (Plan.appendStep step c).AfterShape := h

theorem Plan.allShape_appendStep (step : PathStep) (c : Plan)
    (h : ∀ n ∈ c.nodes, n.AfterShape) : ∀ n ∈ (Plan.appendStep step c).nodes, n.AfterShape := by
  intro n hn
  rw [Plan.nodes_eq] at hn
  rcases List.mem_cons.1 hn with rfl | hn
  · exact Plan.afterShape_appendStep step c (h c (Plan.self_mem_nodes c))
  · apply h
    rw [Plan.nodes_eq]
    exact List.mem_cons_of_mem _ hn



/-! ### The loops of `planObject` and `planUnion` -/

theorem planLocalSelections_after (e : Executor)
    (rec : Typ → RawSelectionSet → String → Except Err Plan) (typ : Object) (service : String)
    (hrec : ∀ t ss s p, rec t ss s = .ok p → Good e t s p) :
    ∀ (loc sels : List RawSelection) (after : List Plan) (sels1 : List RawSelection)
      (after1 : List Plan),
      planLocalSelections rec typ service loc sels after = .ok (sels1, after1) →
      ∃ promoted, after1 = after ++ promoted ∧
        (∀ c ∈ promoted, c.Path ≠ [] ∧ ∀ n ∈ c.nodes, n.AfterShape) ∧
        ((∀ sel ∈ loc, sel.SelectionSet = none) → promoted = []) := by
  intro loc
  induction loc with
  | nil =>
    intro sels after sels1 after1 h
    simp [planLocalSelections] at h
    exact ⟨[], by simp [h.2], by simp, fun _ => rfl⟩
  | cons sel rest ih =>
    intro sels after sels1 after1 h
    simp only [planLocalSelections] at h
    cases hss : sel.SelectionSet with
    | none =>
      simp only [hss] at h
      obtain ⟨promoted, h1, h2, h3⟩ := ih _ _ _ _ h
      exact ⟨promoted, h1, h2, fun hall => h3 (fun s hs => hall s (List.mem_cons_of_mem _ hs))⟩
    | some ss =>
      simp only [hss] at h
      cases hf : typ.Fields sel.Name with
      | none => simp [hf] at h
      | some field =>
        simp only [hf] at h
        cases hp : rec field.Typ ss service with
        | error err => simp [hp] at h
        | ok child =>
          simp only [hp] at h
          obtain ⟨promoted, h1, h2, -⟩ := ih _ _ _ _ h
          obtain ⟨-, -, hchild⟩ := hrec _ _ _ _ hp
          refine ⟨child.After.map (Plan.appendStep ⟨.KindField, sel.Alias⟩) ++ promoted,
            by simp [h1], ?_, ?_⟩
          · intro c hc
            rcases List.mem_append.1 hc with hc | hc
            · obtain ⟨c0, hc0, rfl⟩ := List.mem_map.1 hc
              refine ⟨by simp [Plan.appendStep], Plan.allShape_appendStep _ _ ?_⟩
              intro n hn
              apply hchild
              rw [Plan.nodes_eq]
              exact List.mem_cons_of_mem _ ((Plan.mem_nodesAll _ _).2 ⟨c0, hc0, hn⟩)
            · exact h2 c hc
          · intro hall
            have := hall sel (by simp)
            rw [hss] at this
            cases this

theorem planBuckets_after (e : Executor)
    (rec : Typ → RawSelectionSet → String → Except Err Plan) (typ : Ref) (b : Buckets)
    (hrec : ∀ t ss s p, rec t ss s = .ok p → Good e t s p) :
    ∀ (others : List String) (after after1 : List Plan),
      planBuckets rec typ b others after = .ok after1 →
      ∃ plans, after1 = after ++ plans ∧ plans.map Plan.Service = others ∧
        ∀ c ∈ plans, Good e (.Object typ) c.Service c ∧
          ∃ other ∈ others, rec (.Object typ) (RawSelectionSet.mk (b.get other) []) other =
            .ok c := by
  intro others
  induction others with
  | nil =>
    intro after after1 h
    simp [planBuckets] at h
    exact ⟨[], by simp [h], rfl, by simp⟩
  | cons other rest ih =>
    intro after after1 h
    simp only [planBuckets] at h
    cases hp : rec (.Object typ) (RawSelectionSet.mk (b.get other) []) other with
    | error err => simp [hp] at h
    | ok sub =>
      simp only [hp] at h
      obtain ⟨plans, h1, h2, h3⟩ := ih _ _ h
      have hg := hrec _ _ _ _ hp
      have hs : sub.Service = other := (hg.2.1 typ rfl).1
      refine ⟨sub :: plans, by simp [h1], by simp [h2, hs], ?_⟩
      intro c hc
      rcases List.mem_cons.1 hc with rfl | hc
      · exact ⟨by rw [hs]; exact hg, other, by simp, hp⟩
      · obtain ⟨hc1, o, ho, hc2⟩ := h3 c hc
        exact ⟨hc1, o, List.mem_cons_of_mem _ ho, hc2⟩

/-- The stages of a successful run of `planObject`. -/
theorem planObjectWith_ok (e : Executor)
    (rec : Typ → RawSelectionSet → String → Except Err Plan) (typ : Ref)
    (selectionSet : RawSelectionSet) (service : String) (p : Plan)
    (h : planObjectWith e rec typ selectionSet service = .ok p) :
    ∃ obj loc b sels promoted after,
      e.objects typ = some obj ∧ selectionSet.Fragments = [] ∧
      partitionSelections e obj service selectionSet.Selections [] [] = .ok (loc, b) ∧
      planLocalSelections rec obj service loc [] [] = .ok (sels, promoted) ∧
      planBuckets rec typ b (sortStrings b.keys) promoted = .ok after ∧
      p = { Path := [], Service := service, Kind := .QUERY, TypeName := obj.Name
            SelectionSet := RawSelectionSet.mk
              (if (!(sortStrings b.keys).isEmpty) && !(sels.any isFederationKey)
               then sels ++ [federationKey] else sels) []
            After := after } := by
  unfold planObjectWith at h
  cases ho : e.objects typ with
  | none => simp [ho] at h
  | some obj =>
    simp only [ho] at h
    by_cases hfr : selectionSet.Fragments.length > 0
    · simp [hfr] at h
    · simp only [hfr, if_false] at h
      cases hpart : partitionSelections e obj service selectionSet.Selections [] [] with
      | error err => simp [hpart] at h
      | ok lb =>
        obtain ⟨loc, b⟩ := lb
        simp only [hpart] at h
        cases hloc : planLocalSelections rec obj service loc [] [] with
        | error err => simp [hloc] at h
        | ok sp =>
          obtain ⟨sels, promoted⟩ := sp
          simp only [hloc] at h
          cases hb : planBuckets rec typ b (sortStrings b.keys) promoted with
          | error err => simp [hb] at h
          | ok after =>
            simp only [hb] at h
            refine ⟨obj, loc, b, sels, promoted, after, rfl, ?_, hpart, hloc, hb, ?_⟩
            · simpa using hfr
            · injection h with h
              exact h.symm

theorem planObjectWith_good (e : Executor)
    (rec : Typ → RawSelectionSet → String → Except Err Plan) (typ : Ref)
    (selectionSet : RawSelectionSet) (service : String) (p : Plan)
    (hrec : ∀ t ss s p, rec t ss s = .ok p → Good e t s p)
    (h : planObjectWith e rec typ selectionSet service = .ok p) :
    Good e (.Object typ) service p := by
  obtain ⟨obj, loc, b, sels, promoted, after, ho, -, hpart, hloc, hb, rfl⟩ :=
    planObjectWith_ok e rec typ selectionSet service p h
  obtain ⟨-, hnodup, -, -⟩ := partitionSelections_spec e obj service _ _ _ _ _ hpart
  obtain ⟨prom, hprom, hprom2, -⟩ := planLocalSelections_after e rec obj service hrec _ _ _ _ _ hloc
  obtain ⟨plans, hplans, hserv, hplans2⟩ := planBuckets_after e rec typ b hrec _ _ _ hb
  simp only [List.nil_append] at hprom
  subst hprom
  subst hplans
  refine ⟨rfl, ?_, ?_⟩
  · intro r hr
    injection hr with hr
    subst hr
    exact ⟨rfl, obj, ho, rfl⟩
  · intro n hn
    rw [Plan.nodes_eq] at hn
    rcases List.mem_cons.1 hn with rfl | hn
    · refine ⟨promoted, plans, rfl, fun c hc => (hprom2 c hc).1, ?_, ?_⟩
      · intro c hc
        obtain ⟨⟨h1, h2, -⟩, -⟩ := hplans2 c hc
        obtain ⟨-, obj1, ho1, h3⟩ := h2 typ rfl
        rw [ho] at ho1
        injection ho1 with ho1
        subst ho1
        exact ⟨h1, h3⟩
      · rw [hserv]
        exact sortStrings_sorted_lt _ (hnodup (by simp [Buckets.keys]))
    · obtain ⟨c, hc, hn⟩ := (Plan.mem_nodesAll _ _).1 hn
      rcases List.mem_append.1 hc with hc | hc
      · exact (hprom2 c hc).2 n hn
      · exact (hplans2 c hc).1.2.2 n hn

theorem planFragments_after (e : Executor)
    (rec : Typ → RawSelectionSet → String → Except Err Plan) (typ : Ref) (service : String)
    (hrec : ∀ t ss s p, rec t ss s = .ok p → Good e t s p) :
    ∀ (fragments : List RawFragment) (seen : List String) (frags : List RawFragment)
      (after : List Plan) (frags1 : List RawFragment) (after1 : List Plan),
      planFragments e rec typ service fragments seen frags after = .ok (frags1, after1) →
      ∃ promoted, after1 = after ++ promoted ∧
        ∀ c ∈ promoted, c.Path ≠ [] ∧ ∀ n ∈ c.nodes, n.AfterShape := by
  intro fragments
  induction fragments with
  | nil =>
    intro seen frags after frags1 after1 h
    simp [planFragments] at h
    exact ⟨[], by simp [h.2], by simp⟩
  | cons f rest ih =>
    intro seen frags after frags1 after1 h
    simp only [planFragments] at h
    split at h
    · simp at h
    · split at h
      · simp at h
      · split at h
        · simp at h
        · split at h
          · simp at h
          · rename_i child hp
            split at h
            · simp at h
            · rename_i obj ho
              obtain ⟨promoted, h1, h2⟩ := ih _ _ _ _ _ h
              obtain ⟨-, -, hchild⟩ := hrec _ _ _ _ hp
              refine ⟨child.After.map (Plan.appendStep ⟨.KindType, obj.Name⟩) ++ promoted,
                by simp [h1], ?_⟩
              intro c hc
              rcases List.mem_append.1 hc with hc | hc
              · obtain ⟨c0, hc0, rfl⟩ := List.mem_map.1 hc
                refine ⟨by simp [Plan.appendStep], Plan.allShape_appendStep _ _ ?_⟩
                intro n hn
                apply hchild
                rw [Plan.nodes_eq]
                exact List.mem_cons_of_mem _ ((Plan.mem_nodesAll _ _).2 ⟨c0, hc0, hn⟩)
              · exact h2 c hc

/-- The stages of a successful run of `planUnion`. -/
theorem planUnionWith_ok (e : Executor)
    (rec : Typ → RawSelectionSet → String → Except Err Plan) (typ : Ref)
    (selectionSet : RawSelectionSet) (service : String) (p : Plan)
    (h : planUnionWith e rec typ selectionSet service = .ok p) :
    ∃ sels frags after,
      unionSelections selectionSet.Selections [typenameSelection] = .ok sels ∧
      planFragments e rec typ service selectionSet.Fragments [] [] [] = .ok (frags, after) ∧
      p = { Path := [], Service := "", Kind := .QUERY, TypeName := ""
            SelectionSet := RawSelectionSet.mk sels frags, After := after } := by
  unfold planUnionWith at h
  cases hs : unionSelections selectionSet.Selections [typenameSelection] with
  | error err => simp [hs] at h
  | ok sels =>
    simp only [hs] at h
    cases hf : planFragments e rec typ service selectionSet.Fragments [] [] [] with
    | error err => simp [hf] at h
    | ok fa =>
      obtain ⟨frags, after⟩ := fa
      simp only [hf] at h
      injection h with h
      exact ⟨sels, frags, after, rfl, rfl, h.symm⟩

theorem planUnionWith_good (e : Executor)
    (rec : Typ → RawSelectionSet → String → Except Err Plan) (typ : Ref)
    (selectionSet : RawSelectionSet) (service : String) (p : Plan)
    (hrec : ∀ t ss s p, rec t ss s = .ok p → Good e t s p)
    (h : planUnionWith e rec typ selectionSet service = .ok p) :
    Good e (.Union typ) service p := by
  obtain ⟨sels, frags, after, -, hf, rfl⟩ := planUnionWith_ok e rec typ selectionSet service p h
  obtain ⟨promoted, hprom, hprom2⟩ := planFragments_after e rec typ service hrec _ _ _ _ _ _ hf
  simp only [List.nil_append] at hprom
  subst hprom
  refine ⟨rfl, fun r hr => (by cases hr), ?_⟩
  intro n hn
  rw [Plan.nodes_eq] at hn
  rcases List.mem_cons.1 hn with rfl | hn
  · exact ⟨after, [], by simp, fun c hc => (hprom2 c hc).1, by simp, by simp⟩
  · obtain ⟨c, hc, hn⟩ := (Plan.mem_nodesAll _ _).1 hn
    exact (hprom2 c hc).2 n hn

/-- Every Plan returned by the dispatcher has an empty path, the service it was
planned for when the type is an object, and `After` lists of the shape `AfterShape`
throughout its tree. -/
theorem plan_good (e : Executor) :
    ∀ (fuel : Nat) (t : Typ) (ss : RawSelectionSet) (s : String) (p : Plan),
      plan e fuel t ss s = .ok p → Good e t s p := by
  intro fuel
  induction fuel with
  | zero =>
    intro t ss s p h
    simp [plan] at h
  | succ fuel ih =>
    intro t ss s p h
    cases t with
    | NonNull inner =>
      simp only [plan] at h
      obtain ⟨h1, -, h3⟩ := ih _ _ _ _ h
      exact ⟨h1, fun r hr => (by cases hr), h3⟩
    | List inner =>
      simp only [plan] at h
      obtain ⟨h1, -, h3⟩ := ih _ _ _ _ h
      exact ⟨h1, fun r hr => (by cases hr), h3⟩
    | Object r =>
      simp only [plan] at h
      exact planObjectWith_good e _ r ss s p ih h
    | Union r =>
      simp only [plan] at h
      exact planUnionWith_good e _ r ss s p ih h
    | Other => simp [plan] at h

/-! ### The running example `fanShop` -/

theorem fanShop_planObject : planObject fanShop 3 0 fanSelections "s" = .ok fanPlanS := rfl

theorem fanShop_planRoot : planRoot fanShop 4 ⟨"query", fanSelections⟩ = .ok fanPlanRoot := rfl

/-! ### `planRoot` -/

theorem reversePaths_path (p : Plan) : (reversePaths p).Path = p.Path.reverse := by
  cases p
  simp [reversePaths, reversePath_eq_reverse]

theorem reversePaths_after (p : Plan) : (reversePaths p).After = p.After.map reversePaths := by
  cases p
  simp [reversePaths, reversePathsAll_eq_map]

theorem reversePaths_service (p : Plan) : (reversePaths p).Service = p.Service := by
  cases p
  simp [reversePaths]

theorem reversePaths_typeName (p : Plan) : (reversePaths p).TypeName = p.TypeName := by
  cases p
  simp [reversePaths]

theorem reversePaths_kind (p : Plan) : (reversePaths p).Kind = p.Kind := by
  cases p
  simp [reversePaths]

mutual
theorem nodes_reversePaths : ∀ p : Plan, (reversePaths p).nodes = p.nodes.map reversePaths
  | ⟨path, service, kind, typeName, selectionSet, after⟩ => by
    simp [reversePaths, Plan.nodes, nodesAll_reversePathsAll after]
theorem nodesAll_reversePathsAll :
    ∀ l : List Plan, Plan.nodesAll (reversePathsAll l) = (Plan.nodesAll l).map reversePaths
  | [] => by simp [reversePathsAll, Plan.nodesAll]
  | p :: rest => by
    simp [reversePathsAll, Plan.nodesAll, nodes_reversePaths p, nodesAll_reversePathsAll rest]
end

theorem afterShape_reversePaths (n : Plan) (h : n.AfterShape) : (reversePaths n).AfterShape := by
  obtain ⟨promoted, buckets, h1, h2, h3, h4⟩ := h
  refine ⟨promoted.map reversePaths, buckets.map reversePaths, ?_, ?_, ?_, ?_⟩
  · rw [reversePaths_after, h1, List.map_append]
  · intro c hc
    obtain ⟨c0, hc0, rfl⟩ := List.mem_map.1 hc
    rw [reversePaths_path]
    simpa using h2 c0 hc0
  · intro c hc
    obtain ⟨c0, hc0, rfl⟩ := List.mem_map.1 hc
    rw [reversePaths_path, reversePaths_typeName, reversePaths_typeName]
    simpa using h3 c0 hc0
  · rw [List.map_map]
    have : Plan.Service ∘ reversePaths = Plan.Service := by
      funext c
      exact reversePaths_service c
    rw [this]
    exact h4

theorem allShape_reversePaths (p : Plan) (h : ∀ n ∈ p.nodes, n.AfterShape) :
    ∀ n ∈ (reversePaths p).nodes, n.AfterShape := by
  intro n hn
  rw [nodes_reversePaths] at hn
  obtain ⟨n0, hn0, rfl⟩ := List.mem_map.1 hn
  exact afterShape_reversePaths n0 (h n0 hn0)

theorem allShape_setMutation (p : Plan) (h : ∀ n ∈ p.nodes, n.AfterShape) :
    ∀ n ∈ ({ p with After := p.After.map Plan.setMutation } : Plan).nodes, n.AfterShape := by
  intro n hn
  rw [Plan.nodes_eq] at hn
  rcases List.mem_cons.1 hn with rfl | hn
  · obtain ⟨promoted, buckets, h1, h2, h3, h4⟩ := h p (Plan.self_mem_nodes p)
    refine ⟨promoted.map Plan.setMutation, buckets.map Plan.setMutation, ?_, ?_, ?_, ?_⟩
    · simp [h1]
    · intro c hc
      obtain ⟨c0, hc0, rfl⟩ := List.mem_map.1 hc
      exact h2 c0 hc0
    · intro c hc
      obtain ⟨c0, hc0, rfl⟩ := List.mem_map.1 hc
      exact h3 c0 hc0
    · rw [List.map_map]
      exact h4
  · obtain ⟨c, hc, hn⟩ := (Plan.mem_nodesAll _ _).1 hn
    obtain ⟨c0, hc0, rfl⟩ := List.mem_map.1 hc
    rw [Plan.nodes_eq] at hn
    rcases List.mem_cons.1 hn with rfl | hn
    · exact h c0 (Plan.child_mem_nodes p c0 hc0)
    · apply h
      rw [Plan.nodes_eq]
      refine List.mem_cons_of_mem _ ((Plan.mem_nodesAll _ _).2 ⟨c0, hc0, ?_⟩)
      rw [Plan.nodes_eq]
      exact List.mem_cons_of_mem _ hn

/-- The root type `planRoot` selects for an operation kind. -/
theorem planRoot_ok (e : Executor) (fuel : Nat) (query : Query) (r : Plan)
    (h : planRoot e fuel query = .ok r) :
    ∃ root flattened p,
      ((query.Kind = "query" ∧ root = e.schema.Schema.Query) ∨
       (query.Kind = "mutation" ∧ root = e.schema.Schema.Mutation)) ∧
      e.flatten query.SelectionSet root = .ok flattened ∧
      plan e fuel root flattened sentinel = .ok p ∧
      ((query.Kind = "mutation" ∧ p.After.length ≤ 1 ∧
          r = reversePaths { p with After := p.After.map Plan.setMutation }) ∨
       (query.Kind ≠ "mutation" ∧ r = reversePaths p)) := by
  unfold planRoot at h
  simp only at h
  split at h
  · simp at h
  · rename_i root hroot
    split at h
    · simp at h
    · rename_i flattened hfl
      split at h
      · simp at h
      · rename_i p hp
        refine ⟨root, flattened, p, ?_, hfl, hp, ?_⟩
        · by_cases hq : query.Kind = "query"
          · simp [hq] at hroot
            exact Or.inl ⟨hq, hroot.symm⟩
          · by_cases hm : query.Kind = "mutation"
            · simp [hm] at hroot
              exact Or.inr ⟨hm, hroot.symm⟩
            · simp [hq, hm] at hroot
        · by_cases hm : query.Kind = "mutation"
          · simp only [hm, if_true] at h
            split at h
            · simp at h
            · rename_i hlen
              injection h with h
              exact Or.inl ⟨hm, by omega, h.symm⟩
          · simp only [hm, if_false] at h
            injection h with h
            exact Or.inr ⟨hm, h.symm⟩

theorem planRoot_allShape (e : Executor) (fuel : Nat) (query : Query) (r : Plan)
    (h : planRoot e fuel query = .ok r) : ∀ n ∈ r.nodes, n.AfterShape := by
  obtain ⟨root, flattened, p, -, -, hp, hr⟩ := planRoot_ok e fuel query r h
  have hg := (plan_good e fuel root flattened sentinel p hp).2.2
  rcases hr with ⟨-, -, rfl⟩ | ⟨-, rfl⟩
  · exact allShape_reversePaths _ (allShape_setMutation p hg)
  · exact allShape_reversePaths _ hg

/-! ### Planning from the sentinel service -/

theorem isLocal_sentinel (e : Executor) (hs : SentinelIneligible e) (typ : Object)
    (sel : RawSelection) : isLocal e typ sentinel sel = true ↔ sel.Name = "__typename" := by
  unfold isLocal
  by_cases hn : sel.Name = "__typename"
  · simp [hn]
  · simp only [hn, if_false, iff_false]
    cases hf : typ.Fields sel.Name with
    | none => simp
    | some field =>
      cases hi : e.schema.Fields field with
      | none => simp [hi]
      | some info => simp [hi, hs field info hi]

theorem remoteServices_sentinel (e : Executor) (hs : SentinelIneligible e) (typ : Object)
    (sels : List RawSelection) :
    remoteServices e typ sentinel sels = homeServices e typ sels := by
  unfold remoteServices homeServices
  induction sels with
  | nil => rfl
  | cons sel rest ih =>
    cases hl : isLocal e typ sentinel sel with
    | false => simp [hl, ih, List.filterMap_cons]
    | true =>
      have hn := (isLocal_sentinel e hs typ sel).1 hl
      have hh : homeService e typ sel = none := by simp [homeService, hn]
      simp [hl, ih, hh]

/-- From the sentinel service every field selection is remote: the `After` list
of the object Plan consists of the bucket Plans alone. -/
theorem planObjectWith_sentinel (e : Executor)
    (rec : Typ → RawSelectionSet → String → Except Err Plan) (typ : Ref)
    (selectionSet : RawSelectionSet) (p : Plan) (obj : Object)
    (hrec : ∀ t ss s p, rec t ss s = .ok p → Good e t s p)
    (hs : SentinelIneligible e) (hleaf : TypenameLeaf selectionSet.Selections)
    (ho : e.objects typ = some obj)
    (h : planObjectWith e rec typ selectionSet sentinel = .ok p) :
    (p.After.map Plan.Service).Sorted (· < ·) ∧
    (∀ s, s ∈ p.After.map Plan.Service ↔ s ∈ homeServices e obj selectionSet.Selections) ∧
    (∀ c ∈ p.After, c.Path = [] ∧ c.TypeName = obj.Name) := by
  obtain ⟨obj1, loc, b, sels, promoted, after, ho1, -, hpart, hloc, hb, rfl⟩ :=
    planObjectWith_ok e rec typ selectionSet sentinel p h
  rw [ho] at ho1
  injection ho1 with ho1
  subst ho1
  obtain ⟨hlocEq, hnodup, hkeys, -⟩ := partitionSelections_spec e obj sentinel _ _ _ _ _ hpart
  obtain ⟨prom, hprom, -, hprom3⟩ :=
    planLocalSelections_after e rec obj sentinel hrec _ _ _ _ _ hloc
  have hnone : ∀ sel ∈ loc, sel.SelectionSet = none := by
    intro sel hsel
    rw [hlocEq] at hsel
    simp only [List.nil_append, List.mem_filter] at hsel
    exact hleaf sel hsel.1 ((isLocal_sentinel e hs obj sel).1 hsel.2)
  have hp0 := hprom3 hnone
  subst hp0
  simp only [List.append_nil] at hprom
  subst hprom
  obtain ⟨plans, hplans, hserv, hplans2⟩ := planBuckets_after e rec typ b hrec _ _ _ hb
  simp only [List.nil_append] at hplans
  subst hplans
  refine ⟨?_, ?_, ?_⟩
  · show (after.map Plan.Service).Sorted (· < ·)
    rw [hserv]
    exact sortStrings_sorted_lt _ (hnodup (by simp [Buckets.keys]))
  · intro s
    show s ∈ after.map Plan.Service ↔ _
    rw [hserv, mem_sortStrings, hkeys s, remoteServices_sentinel e hs]
    simp [Buckets.keys]
  · intro c hc
    obtain ⟨⟨h1, h2, -⟩, -⟩ := hplans2 c hc
    obtain ⟨-, obj1, ho1, h3⟩ := h2 typ rfl
    rw [ho] at ho1
    injection ho1 with ho1
    subst ho1
    exact ⟨h1, h3⟩

theorem plan_sentinel (e : Executor) (fuel : Nat) (typ : Ref)
    (selectionSet : RawSelectionSet) (p : Plan) (obj : Object)
    (hs : SentinelIneligible e) (hleaf : TypenameLeaf selectionSet.Selections)
    (ho : e.objects typ = some obj)
    (h : plan e fuel (.Object typ) selectionSet sentinel = .ok p) :
    (p.After.map Plan.Service).Sorted (· < ·) ∧
    (∀ s, s ∈ p.After.map Plan.Service ↔ s ∈ homeServices e obj selectionSet.Selections) ∧
    (∀ c ∈ p.After, c.Path = [] ∧ c.TypeName = obj.Name) := by
  cases fuel with
  | zero => simp [plan] at h
  | succ fuel =>
    simp only [plan] at h
    exact planObjectWith_sentinel e _ typ selectionSet p obj (plan_good e fuel) hs hleaf ho h

theorem orderShop_sentinel : SentinelIneligible orderShop := by
  intro field info h
  simp only [orderShop] at h
  split at h
  · injection h with h
    subst h
    decide
  · split at h
    · injection h with h
      subst h
      decide
    · cases h

theorem orderQuery_leaf : TypenameLeaf orderQuery.Selections := by
  intro sel hsel hn
  simp [orderQuery, RawSelectionSet.Selections] at hsel
  rcases hsel with rfl | rfl | rfl <;> exact absurd hn (by decide)

/-- C3: planned from the sentinel service, when that service is eligible for no
field and `__typename` is selected as a leaf, the root Plan of an object type has
one `After` entry per distinct home service of its top-level selections: the
`Service` values are strictly ascending, they are exactly the home services of the
selections, and their number is the number of distinct home services. -/
theorem root_after_per_service (e : Executor) (fuel : Nat) (typ : Ref) (obj : Object)
    (selectionSet : RawSelectionSet) (p : Plan)
    (ho : e.objects typ = some obj) (hs : SentinelIneligible e)
    (hleaf : TypenameLeaf selectionSet.Selections)
    (h : plan e fuel (.Object typ) selectionSet sentinel = .ok p) :
    (p.After.map Plan.Service).Sorted (· < ·) ∧
    (p.After.map Plan.Service).Nodup ∧
    (∀ s, s ∈ p.After.map Plan.Service ↔ s ∈ homeServices e obj selectionSet.Selections) ∧
    p.After.length = (homeServices e obj selectionSet.Selections).toFinset.card := by
  obtain ⟨h1, h2, -⟩ := plan_sentinel e fuel typ selectionSet p obj hs hleaf ho h
  have hnd : (p.After.map Plan.Service).Nodup := h1.imp (fun hab => ne_of_lt hab)
  refine ⟨h1, hnd, h2, ?_⟩
  have hfin : (p.After.map Plan.Service).toFinset =
      (homeServices e obj selectionSet.Selections).toFinset := by
    ext s
    simp only [List.mem_toFinset]
    exact h2 s
  rw [← hfin, List.toFinset_card_of_nodup hnd, List.length_map]

/-- The query `{id, total, customer{name}}` needs the two services `orders` and
`users`: through `root_after_per_service` its root Plan has two `After` entries. -/
theorem root_after_per_service_witness :
    (orderRootPlan.After.map Plan.Service).Sorted (· < ·) ∧
    (orderRootPlan.After.map Plan.Service).Nodup ∧
    (∀ s, s ∈ orderRootPlan.After.map Plan.Service ↔
      s ∈ homeServices orderShop
        { Name := "Order"
          Fields := mapOf [("id", ⟨0, .Other⟩), ("total", ⟨1, .Other⟩),
                           ("customer", ⟨2, .Object 1⟩)] } orderQuery.Selections) ∧
    orderRootPlan.After.length =
      (homeServices orderShop
        { Name := "Order"
          Fields := mapOf [("id", ⟨0, .Other⟩), ("total", ⟨1, .Other⟩),
                           ("customer", ⟨2, .Object 1⟩)] } orderQuery.Selections).toFinset.card :=
  root_after_per_service orderShop 3 0 _ orderQuery orderRootPlan rfl orderShop_sentinel
    orderQuery_leaf rfl

/-! ### Ordering and paths of `After` -/

/-- C2 (amended): in every plan tree returned by `planRoot` (or by `plan`), the
`After` list of every node consists of the promoted entries, each with a non-empty
path, followed by the entries created for the remote buckets of the node, each with
an empty path, and this second part is sorted by `Service` in strictly ascending
order. -/
theorem after_buckets_sorted (e : Executor) (fuel : Nat) (query : Query) (t : Typ)
    (ss : RawSelectionSet) (s : String) (r : Plan)
    (h : planRoot e fuel query = .ok r ∨ plan e fuel t ss s = .ok r) :
    ∀ n ∈ r.nodes, ∃ promoted buckets : List Plan,
      n.After = promoted ++ buckets ∧
      (∀ c ∈ promoted, c.Path ≠ []) ∧
      (∀ c ∈ buckets, c.Path = []) ∧
      (buckets.map Plan.Service).Sorted (· < ·) := by
  intro n hn
  have hshape : n.AfterShape := by
    rcases h with h | h
    · exact planRoot_allShape e fuel query r h n hn
    · exact (plan_good e fuel t ss s r h).2.2 n hn
  obtain ⟨promoted, buckets, h1, h2, h3, h4⟩ := hshape
  exact ⟨promoted, buckets, h1, h2, fun c hc => (h3 c hc).1, h4⟩

/-- The root Plan of `{id, total, customer{name}}` on `orderShop`, whose two bucket
entries are on `orders` and `users`, through `after_buckets_sorted`. -/
theorem after_buckets_sorted_witness :
    planRoot orderShop 3 ⟨"query", orderQuery⟩ = .ok orderRootPlan ∧
    ∃ promoted buckets : List Plan,
      orderRootPlan.After = promoted ++ buckets ∧
      (∀ c ∈ promoted, c.Path ≠ []) ∧
      (∀ c ∈ buckets, c.Path = []) ∧
      (buckets.map Plan.Service).Sorted (· < ·) :=
  ⟨rfl, after_buckets_sorted orderShop 3 ⟨"query", orderQuery⟩ .Other orderQuery ""
    orderRootPlan (Or.inl rfl) orderRootPlan (Plan.self_mem_nodes orderRootPlan)⟩

/-- C2 (as stated) fails: in the tree `planRoot` returns for `{a{x}, b{y}}` on
`fanShop`, the Plan on service `s` has the `After` services `["z", "a"]`, which
are not in ascending order. -/
theorem after_not_sorted :
    ∃ r, planRoot fanShop 4 ⟨"query", fanSelections⟩ = .ok r ∧
      ∃ n ∈ r.nodes, n.After.map Plan.Service = ["z", "a"] ∧
        ¬ (n.After.map Plan.Service).Sorted (· ≤ ·) := by
  refine ⟨fanPlanRoot, rfl, fanPlanS, ?_, rfl, ?_⟩
  · exact Plan.child_mem_nodes fanPlanRoot fanPlanS (by simp [fanPlanRoot])
  · simp [fanPlanS, fanPlanZ, fanPlanA]
    decide

/-- C7 (amended): in every plan tree returned by `planRoot`, the `After` list of
every node consists of promoted entries, each with a non-empty path, followed by the
entries created for the remote buckets of the node itself, each with an EMPTY path
and the `Type` of the node; when the root type is an object, the sentinel service
is eligible for no field and `__typename` is selected as a leaf, every `After` entry
of the root Plan is of the second sort and has an empty path. -/
theorem nonroot_paths (e : Executor) (fuel : Nat) (query : Query) (r : Plan)
    (h : planRoot e fuel query = .ok r) :
    (∀ n ∈ r.nodes, ∃ promoted buckets : List Plan,
      n.After = promoted ++ buckets ∧
      (∀ c ∈ promoted, c.Path ≠ []) ∧
      (∀ c ∈ buckets, c.Path = [] ∧ c.TypeName = n.TypeName)) ∧
    (∀ root flattened typ,
      ((query.Kind = "query" ∧ root = e.schema.Schema.Query) ∨
       (query.Kind = "mutation" ∧ root = e.schema.Schema.Mutation)) →
      root = .Object typ →
      e.flatten query.SelectionSet root = .ok flattened →
      SentinelIneligible e → TypenameLeaf flattened.Selections →
      ∀ c ∈ r.After, c.Path = [] ∧ c.TypeName = r.TypeName) := by
  constructor
  · intro n hn
    obtain ⟨promoted, buckets, h1, h2, h3, -⟩ := planRoot_allShape e fuel query r h n hn
    exact ⟨promoted, buckets, h1, h2, h3⟩
  · intro root flattened typ hroot htyp hfl hs hleaf c hc
    obtain ⟨root1, flattened1, p, hroot1, hfl1, hp, hr⟩ := planRoot_ok e fuel query r h
    have hre : root1 = root := by
      rcases hroot with ⟨hk, rfl⟩ | ⟨hk, rfl⟩ <;> rcases hroot1 with ⟨hk1, rfl⟩ | ⟨hk1, rfl⟩
      · rfl
      · rw [hk] at hk1
        exact absurd hk1 (by decide)
      · rw [hk] at hk1
        exact absurd hk1 (by decide)
      · rfl
    subst hre
    rw [hfl] at hfl1
    injection hfl1 with hfl1
    subst hfl1
    subst htyp
    obtain ⟨-, hobj, -⟩ := plan_good e fuel _ _ _ p hp
    obtain ⟨-, obj, ho, hname⟩ := hobj typ rfl
    obtain ⟨-, -, hpaths⟩ := plan_sentinel e fuel typ flattened p obj hs hleaf ho hp
    rcases hr with ⟨-, -, rfl⟩ | ⟨-, rfl⟩
    · rw [reversePaths_after] at hc
      simp only [List.map_map, List.mem_map] at hc
      obtain ⟨c0, hc0, rfl⟩ := hc
      obtain ⟨h1, h2⟩ := hpaths c0 hc0
      simp only [Function.comp, reversePaths_path, reversePaths_typeName]
      exact ⟨by simp [Plan.setMutation, h1], by simp [Plan.setMutation, h2, hname]⟩
    · rw [reversePaths_after] at hc
      obtain ⟨c0, hc0, rfl⟩ := List.mem_map.1 hc
      obtain ⟨h1, h2⟩ := hpaths c0 hc0
      simp only [reversePaths_path, reversePaths_typeName]
      exact ⟨by simp [h1], by simp [h2, hname]⟩

/-- The Plan on service `s` in the tree planned for `{a{x}, b{y}}` on `fanShop`,
whose two `After` entries are promoted, through `nonroot_paths`. -/
theorem nonroot_paths_witness :
    planRoot fanShop 4 ⟨"query", fanSelections⟩ = .ok fanPlanRoot ∧
    ∃ promoted buckets : List Plan,
      fanPlanS.After = promoted ++ buckets ∧
      (∀ c ∈ promoted, c.Path ≠ []) ∧
      (∀ c ∈ buckets, c.Path = [] ∧ c.TypeName = fanPlanS.TypeName) :=
  ⟨rfl, (nonroot_paths fanShop 4 ⟨"query", fanSelections⟩ fanPlanRoot rfl).1 fanPlanS
    (Plan.child_mem_nodes fanPlanRoot fanPlanS (by simp [fanPlanRoot]))⟩

/-- C7 (as stated) fails: in the tree `planRoot` returns for `{a{x}, b{y}}` on
`fanShop`, the only `After` entry of the root, a non-root Plan, has an empty path. -/
theorem nonroot_path_empty :
    ∃ r, planRoot fanShop 4 ⟨"query", fanSelections⟩ = .ok r ∧
      ∃ c ∈ r.After, c.Path = [] :=
  ⟨fanPlanRoot, rfl, fanPlanS, by simp [fanPlanRoot], rfl⟩

/-! ### Mutations -/

theorem planRoot_mutation_eq (e : Executor) (fuel : Nat) (query : Query)
    (flattened : RawSelectionSet) (p : Plan) (hk : query.Kind = "mutation")
    (hfl : e.flatten query.SelectionSet e.schema.Schema.Mutation = .ok flattened)
    (hp : plan e fuel e.schema.Schema.Mutation flattened sentinel = .ok p) :
    planRoot e fuel query =
      if p.After.length > 1 then .error .MutationFanoutViolation
      else .ok (reversePaths { p with After := p.After.map Plan.setMutation }) := by
  have hp1 : plan e fuel e.schema.Schema.Mutation flattened "no-such-service" = .ok p := hp
  simp [planRoot, hk, hfl, hp1]

theorem length_gt_one_of_two {α : Type} (l : List α) (a b : α) (ha : a ∈ l) (hb : b ∈ l)
    (hab : a ≠ b) : 1 < l.length := by
  match l, ha, hb with
  | [x], ha, hb =>
    simp at ha hb
    exact absurd (ha.trans hb.symm) hab
  | _ :: _ :: _, _, _ => simp

theorem eq_singleton_of_nodup {α : Type} (l : List α) (a : α) (hnd : l.Nodup) (ha : a ∈ l)
    (hall : ∀ b ∈ l, b = a) : l = [a] := by
  match l, hnd, ha, hall with
  | [x], _, ha, _ =>
    simp at ha
    simp [ha]
  | x :: y :: rest, hnd, _, hall =>
    have hx := hall x (by simp)
    have hy := hall y (by simp)
    simp [hx, hy] at hnd

/-- C5: for an operation of kind `mutation` whose flattening and planning succeed,
`planRoot` fails exactly when the root Plan has more than one `After` entry, and
then with `MutationFanoutViolation`; when it succeeds the root has at most one
`After` entry and every entry has kind `MUTATION`. For an object root planned from
an ineligible sentinel: two top-level fields with different home services make it
fail, and top-level fields sharing one home service yield exactly one `After`
entry, of kind `MUTATION`, on that service. -/
theorem mutation_single_step (e : Executor) (fuel : Nat) (query : Query)
    (flattened : RawSelectionSet) (p : Plan) (hk : query.Kind = "mutation")
    (hfl : e.flatten query.SelectionSet e.schema.Schema.Mutation = .ok flattened)
    (hp : plan e fuel e.schema.Schema.Mutation flattened sentinel = .ok p) :
    ((∃ err, planRoot e fuel query = .error err) ↔ 1 < p.After.length) ∧
    (1 < p.After.length → planRoot e fuel query = .error .MutationFanoutViolation) ∧
    (∀ r, planRoot e fuel query = .ok r →
      r.After.length = p.After.length ∧ r.After.length ≤ 1 ∧
      ∀ c ∈ r.After, c.Kind = .MUTATION) ∧
    (∀ typ obj, e.schema.Schema.Mutation = .Object typ → e.objects typ = some obj →
      SentinelIneligible e → TypenameLeaf flattened.Selections →
      ((∃ s1 ∈ homeServices e obj flattened.Selections,
          ∃ s2 ∈ homeServices e obj flattened.Selections, s1 ≠ s2) →
        planRoot e fuel query = .error .MutationFanoutViolation) ∧
      (∀ s ∈ homeServices e obj flattened.Selections,
        (∀ s2 ∈ homeServices e obj flattened.Selections, s2 = s) →
        ∃ r c, planRoot e fuel query = .ok r ∧ r.After = [c] ∧ c.Kind = .MUTATION ∧
          c.Service = s)) := by
  have heq := planRoot_mutation_eq e fuel query flattened p hk hfl hp
  refine ⟨?_, ?_, ?_, ?_⟩
  · rw [heq]
    by_cases hlen : p.After.length > 1
    · simp [hlen]
    · simp [hlen]
  · intro hlen
    rw [heq]
    simp [hlen]
  · intro r hr
    rw [heq] at hr
    by_cases hlen : p.After.length > 1
    · simp [hlen] at hr
    · simp only [hlen, if_false] at hr
      injection hr with hr
      subst hr
      rw [reversePaths_after]
      refine ⟨by simp, by simp; omega, ?_⟩
      intro c hc
      simp only [List.map_map, List.mem_map] at hc
      obtain ⟨c0, -, rfl⟩ := hc
      simp [reversePaths_kind, Plan.setMutation]
  · intro typ obj htyp ho hs hleaf
    rw [htyp] at hp
    obtain ⟨hsorted, hmem, -⟩ := plan_sentinel e fuel typ flattened p obj hs hleaf ho hp
    have hnd : (p.After.map Plan.Service).Nodup := hsorted.imp (fun hab => ne_of_lt hab)
    constructor
    · rintro ⟨s1, h1, s2, h2, hne⟩
      have := length_gt_one_of_two _ s1 s2 ((hmem s1).2 h1) ((hmem s2).2 h2) hne
      rw [List.length_map] at this
      rw [heq]
      simp [this]
    · intro s hsmem hall
      have hsingle := eq_singleton_of_nodup _ s hnd ((hmem s).2 hsmem)
        (fun b hb => hall b ((hmem b).1 hb))
      match hA : p.After, hsingle with
      | [c0], hsingle =>
        simp [hA] at hsingle
        refine ⟨reversePaths { p with After := p.After.map Plan.setMutation },
          reversePaths c0.setMutation, ?_, ?_, ?_, ?_⟩
        · rw [heq]
          simp [hA]
        · rw [reversePaths_after]
          simp [hA]
        · simp [reversePaths_kind, Plan.setMutation]
        · simp [reversePaths_service, Plan.setMutation, hsingle]
      | [], hsingle => simp [hA] at hsingle
      | _ :: _ :: _, hsingle => simp [hA] at hsingle

theorem orderTotals_leaf : TypenameLeaf orderTotals.Selections := by
  intro sel hsel hn
  simp [orderTotals, RawSelectionSet.Selections] at hsel
  rcases hsel with rfl | rfl <;> exact absurd hn (by decide)

/-- The mutation `{id, total}` on `orderShop`, whose two fields share the home
service `orders`, through `mutation_single_step`: it is planned as one step of kind
`MUTATION` on `orders`. -/
theorem mutation_single_step_witness :
    ((∃ err, planRoot orderShop 2 ⟨"mutation", orderTotals⟩ = .error err) ↔
      1 < orderTotalsPlan.After.length) ∧
    ∃ r c, planRoot orderShop 2 ⟨"mutation", orderTotals⟩ = .ok r ∧ r.After = [c] ∧
      c.Kind = .MUTATION ∧ c.Service = "orders" :=
  ⟨(mutation_single_step orderShop 2 ⟨"mutation", orderTotals⟩ orderTotals orderTotalsPlan
      rfl rfl rfl).1,
   ((mutation_single_step orderShop 2 ⟨"mutation", orderTotals⟩ orderTotals orderTotalsPlan
      rfl rfl rfl).2.2.2 0
      { Name := "Order"
        Fields := mapOf [("id", ⟨0, .Other⟩), ("total", ⟨1, .Other⟩),
                         ("customer", ⟨2, .Object 1⟩)] }
      rfl rfl orderShop_sentinel orderTotals_leaf).2 "orders" (by decide)
      (by
        intro s2 hs2
        have h : s2 ∈ ["orders", "orders"] := hs2
        simpa using h)⟩

/-! ### The federation key -/

@[simp] theorem selection_name_mk (n a : String) (r : Args) (s : Option RawSelectionSet) :
    (RawSelection.mk n a r s).Name = n := rfl

@[simp] theorem selection_alias_mk (n a : String) (r : Args) (s : Option RawSelectionSet) :
    (RawSelection.mk n a r s).Alias = a := rfl

@[simp] theorem selection_args_mk (n a : String) (r : Args) (s : Option RawSelectionSet) :
    (RawSelection.mk n a r s).Args = r := rfl

@[simp] theorem selection_selectionSet_mk (n a : String) (r : Args)
    (s : Option RawSelectionSet) : (RawSelection.mk n a r s).SelectionSet = s := rfl

theorem planLocalSelections_selections
    (rec : Typ → RawSelectionSet → String → Except Err Plan) (typ : Object) (service : String) :
    ∀ (loc sels : List RawSelection) (after : List Plan) (sels1 : List RawSelection)
      (after1 : List Plan),
      planLocalSelections rec typ service loc sels after = .ok (sels1, after1) →
      ∃ rebuilt, sels1 = sels ++ rebuilt ∧
        List.Forall₂ (fun old new : RawSelection =>
          new.Name = old.Name ∧ new.Alias = old.Alias ∧ new.Args = old.Args ∧
          (new.SelectionSet = none ↔ old.SelectionSet = none)) loc rebuilt := by
  intro loc
  induction loc with
  | nil =>
    intro sels after sels1 after1 h
    simp [planLocalSelections] at h
    exact ⟨[], by simp [h.1], List.Forall₂.nil⟩
  | cons sel rest ih =>
    intro sels after sels1 after1 h
    simp only [planLocalSelections] at h
    cases hss : sel.SelectionSet with
    | none =>
      simp only [hss] at h
      obtain ⟨rebuilt, h1, h2⟩ := ih _ _ _ _ h
      exact ⟨RawSelection.mk sel.Name sel.Alias sel.Args none :: rebuilt, by simp [h1],
        List.Forall₂.cons ⟨rfl, rfl, rfl, by simp [hss]⟩ h2⟩
    | some ss =>
      simp only [hss] at h
      cases hf : typ.Fields sel.Name with
      | none => simp [hf] at h
      | some field =>
        simp only [hf] at h
        cases hp : rec field.Typ ss service with
        | error err => simp [hp] at h
        | ok child =>
          simp only [hp] at h
          obtain ⟨rebuilt, h1, h2⟩ := ih _ _ _ _ h
          exact ⟨RawSelection.mk sel.Name sel.Alias sel.Args (some child.SelectionSet) :: rebuilt,
            by simp [h1],
            List.Forall₂.cons ⟨rfl, rfl, rfl, by simp [hss]⟩ h2⟩

theorem isFederationKey_iff (sel : RawSelection) :
    isFederationKey sel = true ↔ sel.Name = "__federation" ∧ sel.Alias = "__federation" := by
  simp [isFederationKey]

theorem rebuilt_no_key (loc rebuilt : List RawSelection)
    (h : List.Forall₂ (fun old new : RawSelection =>
          new.Name = old.Name ∧ new.Alias = old.Alias ∧ new.Args = old.Args ∧
          (new.SelectionSet = none ↔ old.SelectionSet = none)) loc rebuilt)
    (hno : ∀ sel ∈ loc, ¬ (sel.Name = "__federation" ∧ sel.Alias = "__federation")) :
    ∀ sel ∈ rebuilt, isFederationKey sel = false := by
  induction h with
  | nil => simp
  | @cons a b l1 l2 hab _ ih =>
    intro sel hsel
    rcases List.mem_cons.1 hsel with rfl | hsel
    · have := hno a (by simp)
      cases hk : isFederationKey sel with
      | false => rfl
      | true =>
        rw [isFederationKey_iff, hab.1, hab.2.1] at hk
        exact absurd hk this
    · exact ih (fun s hs => hno s (List.mem_cons_of_mem _ hs)) sel hsel

theorem partitionSelections_home (e : Executor) (typ : Object) (service : String) :
    ∀ (sels loc : List RawSelection) (b : Buckets) (loc1 : List RawSelection) (b1 : Buckets),
      partitionSelections e typ service sels loc b = .ok (loc1, b1) →
      ∀ sel ∈ sels, sel.Name ≠ "__typename" → ∃ k, homeService e typ sel = some k := by
  intro sels
  induction sels with
  | nil => simp
  | cons sel rest ih =>
    intro loc b loc1 b1 h s hs hn
    simp only [partitionSelections] at h
    by_cases hsel : sel.Name = "__typename"
    · simp only [hsel, if_true] at h
      rcases List.mem_cons.1 hs with rfl | hs
      · exact absurd hsel hn
      · exact ih _ _ _ _ h s hs hn
    · simp only [hsel, if_false] at h
      cases hf : typ.Fields sel.Name with
      | none => simp [hf] at h
      | some field =>
        simp only [hf] at h
        cases hi : e.schema.Fields field with
        | none => simp [hi] at h
        | some info =>
          simp only [hi] at h
          have hh : homeService e typ sel = some info.Service := by
            simp [homeService, hsel, hf, hi]
          rcases List.mem_cons.1 hs with rfl | hs
          · exact ⟨_, hh⟩
          · split at h
            · exact ih _ _ _ _ h s hs hn
            · exact ih _ _ _ _ h s hs hn

/-- A Plan returned by `planObject` for an input with a selection that is not local
has a `__federation` selection among its top-level selections: exactly one, the
synthetic key in last position, when no local input selection is one. -/
theorem planObject_key_top_level (e : Executor) (fuel : Nat) (typ : Ref) (obj : Object)
    (selectionSet : RawSelectionSet) (service : String) (p : Plan)
    (ho : e.objects typ = some obj)
    (h : planObject e fuel typ selectionSet service = .ok p)
    (hremote : ∃ sel ∈ selectionSet.Selections, isLocal e obj service sel = false) :
    p.After ≠ [] ∧
    (∃ sel ∈ p.SelectionSet.Selections, sel.Name = "__federation" ∧ sel.Alias = "__federation") ∧
    ((∀ sel ∈ selectionSet.Selections, isLocal e obj service sel = true →
        ¬ (sel.Name = "__federation" ∧ sel.Alias = "__federation")) →
      p.SelectionSet.Selections.countP isFederationKey = 1 ∧
      p.SelectionSet.Selections.getLast? = some (RawSelection.mk "__federation" "__federation" [] none)) := by
  obtain ⟨obj1, loc, b, sels, promoted, after, ho1, -, hpart, hloc, hb, rfl⟩ :=
    planObjectWith_ok e (plan e fuel) typ selectionSet service p h
  rw [ho] at ho1
  injection ho1 with ho1
  subst ho1
  obtain ⟨hlocEq, -, hkeys, -⟩ := partitionSelections_spec e obj service _ _ _ _ _ hpart
  obtain ⟨plans, hplans, hserv, -⟩ :=
    planBuckets_after e (plan e fuel) typ b (plan_good e fuel) _ _ _ hb
  obtain ⟨rebuilt, hreb, hforall⟩ :=
    planLocalSelections_selections (plan e fuel) obj service _ _ _ _ _ hloc
  simp only [List.nil_append] at hreb hlocEq
  subst hreb
  -- a remote bucket exists
  obtain ⟨sel, hsel, hnl⟩ := hremote
  have hn : sel.Name ≠ "__typename" := by
    intro hn
    rw [isLocal_typename e obj service sel hn] at hnl
    cases hnl
  obtain ⟨k, hk⟩ := partitionSelections_home e obj service _ _ _ _ _ hpart sel hsel hn
  have hkmem : k ∈ b.keys := by
    rw [hkeys k]
    right
    simp only [remoteServices, homeServices, List.mem_filterMap, List.mem_filter]
    exact ⟨sel, ⟨hsel, by simp [hnl]⟩, hk⟩
  have hne : sortStrings b.keys ≠ [] := by
    intro h0
    have := (mem_sortStrings b.keys k).2 hkmem
    rw [h0] at this
    cases this
  have hempty : (sortStrings b.keys).isEmpty = false := by
    cases hs : sortStrings b.keys with
    | nil => exact absurd hs hne
    | cons _ _ => rfl
  refine ⟨?_, ?_, ?_⟩
  · show after ≠ []
    intro h0
    rw [h0] at hplans
    have hpl : plans = [] := by
      cases plans with
      | nil => rfl
      | cons _ _ => cases promoted <;> simp at hplans
    rw [hpl] at hserv
    exact hne hserv.symm
  · simp only [RawSelectionSet.Selections, hempty, Bool.not_false, Bool.true_and]
    cases hany : sels.any isFederationKey with
    | true =>
      simp only [Bool.not_true]
      obtain ⟨s, hs, hkey⟩ := List.any_eq_true.1 hany
      exact ⟨s, hs, (isFederationKey_iff s).1 hkey⟩
    | false =>
      simp only [Bool.not_false, if_true]
      exact ⟨federationKey, by simp, rfl, rfl⟩
  · intro hno
    have hno2 : ∀ s ∈ sels, isFederationKey s = false := by
      apply rebuilt_no_key loc sels hforall
      intro s hs
      rw [hlocEq, List.mem_filter] at hs
      exact hno s hs.1 hs.2
    have hany : sels.any isFederationKey = false := by
      cases hany : sels.any isFederationKey with
      | false => rfl
      | true =>
        obtain ⟨s, hs, hkey⟩ := List.any_eq_true.1 hany
        rw [hno2 s hs] at hkey
        cases hkey
    simp only [RawSelectionSet.Selections, hempty, hany, Bool.not_false, Bool.true_and, if_true]
    refine ⟨?_, by simp [federationKey]⟩
    rw [List.countP_append]
    have h0 : sels.countP isFederationKey = 0 := by
      rw [List.countP_eq_zero]
      intro s hs
      simp [hno2 s hs]
    rw [h0]
    rfl

/-! ### Queries resolvable by a single service -/

theorem exists_common_bound {α : Type} (l : List α) (P : α → Nat → Prop)
    (h : ∀ x ∈ l, ∃ n, ∀ m, n ≤ m → P x m) : ∃ n, ∀ m, n ≤ m → ∀ x ∈ l, P x m := by
  induction l with
  | nil => exact ⟨0, by simp⟩
  | cons a rest ih =>
    obtain ⟨n1, h1⟩ := h a (by simp)
    obtain ⟨n2, h2⟩ := ih (fun x hx => h x (List.mem_cons_of_mem _ hx))
    refine ⟨max n1 n2, fun m hm x hx => ?_⟩
    rcases List.mem_cons.1 hx with rfl | hx
    · exact h1 m (le_trans (le_max_left _ _) hm)
    · exact h2 m (le_trans (le_max_right _ _) hm) x hx

theorem partitionSelections_all_local (e : Executor) (typ : Object) (service : String) :
    ∀ (sels loc : List RawSelection) (b : Buckets),
      (∀ sel ∈ sels, isLocal e typ service sel = true) →
      partitionSelections e typ service sels loc b = .ok (loc ++ sels, b) := by
  intro sels
  induction sels with
  | nil => intro loc b _; simp [partitionSelections]
  | cons sel rest ih =>
    intro loc b h
    have hsel := h sel (by simp)
    have hrest := ih (loc ++ [sel]) b (fun s hs => h s (List.mem_cons_of_mem _ hs))
    simp only [partitionSelections]
    by_cases hn : sel.Name = "__typename"
    · simp [hn, hrest]
    · simp only [hn, if_false]
      simp only [isLocal, hn, if_false] at hsel
      cases hf : typ.Fields sel.Name with
      | none => simp [hf] at hsel
      | some field =>
        simp only [hf] at hsel ⊢
        cases hi : e.schema.Fields field with
        | none => simp [hi] at hsel
        | some info =>
          simp only [hi] at hsel ⊢
          simp [hsel, hrest]

theorem planLocalSelections_resolved (e : Executor)
    (rec : Typ → RawSelectionSet → String → Except Err Plan) (r : Ref) (obj : Object)
    (S : String) (ho : e.objects r = some obj) :
    ∀ (sels acc : List RawSelection) (after : List Plan),
      (∀ sel ∈ sels, sel.Name = "__typename" → sel.SelectionSet = none) →
      (∀ sel ∈ sels, sel.Name ≠ "__typename" → ∃ field, obj.Fields sel.Name = some field) →
      (∀ sel ∈ sels, ∀ field ss, sel.Name ≠ "__typename" → obj.Fields sel.Name = some field →
        sel.SelectionSet = some ss →
        ∃ p, rec field.Typ ss S = .ok p ∧ p.SelectionSet = withTypename e field.Typ ss ∧
          p.After = []) →
      planLocalSelections rec obj S sels acc after =
        .ok (acc ++ withTypenameSelections e r sels, after) := by
  intro sels
  induction sels with
  | nil => intro acc after _ _ _; simp [planLocalSelections, withTypenameSelections]
  | cons sel rest ih =>
    intro acc after hleaf hfield hnested
    have hleaf1 := fun s hs => hleaf s (List.mem_cons_of_mem _ hs)
    have hfield1 := fun s hs => hfield s (List.mem_cons_of_mem _ hs)
    have hnested1 := fun s hs => hnested s (List.mem_cons_of_mem _ hs)
    cases sel with
    | mk n a args o =>
      cases o with
      | none =>
        simp only [planLocalSelections, selection_selectionSet_mk, withTypenameSelections,
          selection_name_mk, selection_alias_mk, selection_args_mk]
        rw [ih _ _ hleaf1 hfield1 hnested1]
        simp
      | some ss =>
        have hn : n ≠ "__typename" := by
          intro hn
          have := hleaf (RawSelection.mk n a args (some ss)) (by simp) hn
          simp at this
        obtain ⟨field, hf⟩ := hfield (RawSelection.mk n a args (some ss)) (by simp) hn
        obtain ⟨p, hp, hpss, hpa⟩ :=
          hnested (RawSelection.mk n a args (some ss)) (by simp) field ss hn hf rfl
        simp only [selection_name_mk] at hf
        have hft : fieldType e r n = field.Typ := by simp [fieldType, ho, hf]
        simp only [planLocalSelections, selection_selectionSet_mk, withTypenameSelections,
          selection_name_mk, selection_alias_mk, selection_args_mk, hf, hp, hpss, hpa, hft]
        rw [List.map_nil, List.append_nil, ih _ _ hleaf1 hfield1 hnested1]
        simp

theorem planFragments_resolved (e : Executor)
    (rec : Typ → RawSelectionSet → String → Except Err Plan) (r : Ref) (u : Union)
    (S : String) (hu : e.unions r = some u) :
    ∀ (frags : List RawFragment) (seen : List String) (acc : List RawFragment)
      (after : List Plan),
      (frags.map RawFragment.On).Nodup → (∀ f ∈ frags, f.On ∉ seen) →
      (∀ f ∈ frags, ∃ objRef obj, u.Types f.On = some objRef ∧
        e.objects objRef = some obj ∧ obj.Name = f.On ∧
        ∃ p, rec (.Object objRef) f.SelectionSet S = .ok p ∧
          p.SelectionSet = withTypename e (.Object objRef) f.SelectionSet ∧ p.After = []) →
      planFragments e rec r S frags seen acc after =
        .ok (acc ++ withTypenameFragments e r frags, after) := by
  intro frags
  induction frags with
  | nil => intro seen acc after _ _ _; simp [planFragments, withTypenameFragments]
  | cons f rest ih =>
    intro seen acc after hnd hseen hall
    obtain ⟨objRef, obj, hT, ho, hname, p, hp, hpss, hpa⟩ := hall f (by simp)
    have hnd1 : (rest.map RawFragment.On).Nodup := (List.nodup_cons.1 hnd).2
    have hnotin : f.On ∉ rest.map RawFragment.On := (List.nodup_cons.1 hnd).1
    have hseen1 : ∀ g ∈ rest, g.On ∉ f.On :: seen := by
      intro g hg hmem
      rcases List.mem_cons.1 hmem with h | h
      · exact hnotin (h ▸ List.mem_map_of_mem _ hg)
      · exact hseen g (List.mem_cons_of_mem _ hg) h
    have hall1 := fun g hg => hall g (List.mem_cons_of_mem _ hg)
    have hfs : f.On ∉ seen := hseen f (by simp)
    cases f with
    | mk target fss =>
      simp only [RawFragment.On, RawFragment.SelectionSet] at hT hname hp hpss hfs
      have hmt : memberType e r target = .Object objRef := by simp [memberType, hu, hT]
      simp only [planFragments, RawFragment.On, RawFragment.SelectionSet, hfs, if_false, hu, hT,
        hp, ho, hpa, hpss, hname, withTypenameFragments, hmt]
      simp only [List.map_nil, List.append_nil]
      rw [ih (target :: seen) _ after hnd1 hseen1 hall1]
      simp

theorem withTypename_nonNull (e : Executor) (t : Typ) (ss : RawSelectionSet) :
    withTypename e (.NonNull t) ss = withTypename e t ss := by
  cases ss
  simp [withTypename, Typ.unwrap]

theorem withTypename_list (e : Executor) (t : Typ) (ss : RawSelectionSet) :
    withTypename e (.List t) ss = withTypename e t ss := by
  cases ss
  simp [withTypename, Typ.unwrap]

/-- A selection set resolvable by `S` is planned on `S`, by every large enough
recursion budget, into a Plan without `After` entries whose selection set is the
input with `__typename` put in front of the union-level selection sets. -/
theorem plan_resolvable (e : Executor) (S : String) (t : Typ) (ss : RawSelectionSet)
    (h : Resolvable e S t ss) :
    ∃ N, ∀ m, N ≤ m → ∃ p, plan e m t ss S = .ok p ∧
      p.SelectionSet = withTypename e t ss ∧ p.After = [] := by
  induction h with
  | nonNull _ ih =>
    obtain ⟨N, hN⟩ := ih
    refine ⟨N + 1, fun m hm => ?_⟩
    obtain ⟨k, rfl⟩ : ∃ k, m = k + 1 := ⟨m - 1, by omega⟩
    obtain ⟨p, hp, h1, h2⟩ := hN k (by omega)
    exact ⟨p, by simpa [plan] using hp, by rw [withTypename_nonNull]; exact h1, h2⟩
  | list _ ih =>
    obtain ⟨N, hN⟩ := ih
    refine ⟨N + 1, fun m hm => ?_⟩
    obtain ⟨k, rfl⟩ : ∃ k, m = k + 1 := ⟨m - 1, by omega⟩
    obtain ⟨p, hp, h1, h2⟩ := hN k (by omega)
    exact ⟨p, by simpa [plan] using hp, by rw [withTypename_list]; exact h1, h2⟩
  | @object r obj sels ho hleaf hfield _ ih =>
    obtain ⟨N, hN⟩ := exists_common_bound sels
      (fun sel m => ∀ field ss, sel.Name ≠ "__typename" → obj.Fields sel.Name = some field →
        sel.SelectionSet = some ss →
        ∃ p, plan e m field.Typ ss S = .ok p ∧ p.SelectionSet = withTypename e field.Typ ss ∧
          p.After = [])
      (by
        intro sel hsel
        by_cases hn : sel.Name = "__typename"
        · exact ⟨0, fun m _ field ss hn1 _ _ => absurd hn hn1⟩
        · cases hf : obj.Fields sel.Name with
          | none => exact ⟨0, fun m _ field ss _ hf1 _ => by rw [hf] at hf1; cases hf1⟩
          | some field =>
            cases hss : sel.SelectionSet with
            | none => exact ⟨0, fun m _ field ss _ _ hss1 => by rw [hss] at hss1; cases hss1⟩
            | some ss =>
              obtain ⟨N, hN⟩ := ih sel hsel field ss hn hf hss
              refine ⟨N, fun m hm field1 ss1 _ hf1 hss1 => ?_⟩
              rw [hf] at hf1
              rw [hss] at hss1
              injection hf1 with hf1
              injection hss1 with hss1
              subst hf1
              subst hss1
              exact hN m hm)
    refine ⟨N + 1, fun m hm => ?_⟩
    obtain ⟨k, rfl⟩ : ∃ k, m = k + 1 := ⟨m - 1, by omega⟩
    have hlocal : ∀ sel ∈ sels, isLocal e obj S sel = true := by
      intro sel hsel
      by_cases hn : sel.Name = "__typename"
      · exact isLocal_typename e obj S sel hn
      · obtain ⟨field, info, hf, hi, hs⟩ := hfield sel hsel hn
        simp [isLocal, hn, hf, hi, hs]
    have hpart := partitionSelections_all_local e obj S sels [] [] hlocal
    have hloc := planLocalSelections_resolved e (plan e k) r obj S ho sels [] [] hleaf
      (fun sel hsel hn => by
        obtain ⟨field, _, hf, _⟩ := hfield sel hsel hn
        exact ⟨field, hf⟩)
      (fun sel hsel => hN k (by omega) sel hsel)
    simp only [List.nil_append] at hpart hloc
    refine ⟨{ Path := [], Service := S, Kind := .QUERY, TypeName := obj.Name
              SelectionSet := .mk (withTypenameSelections e r sels) [], After := [] },
      ?_, ?_, ?_⟩
    · simp only [plan, planObjectWith, ho, RawSelectionSet.Fragments, RawSelectionSet.Selections,
        hpart, hloc]
      simp [Buckets.keys, sortStrings, planBuckets]
    · simp [withTypename, Typ.unwrap]
    · rfl
  | @union r u sels frags hu hsel hnodup hmem _ ih =>
    obtain ⟨N, hN⟩ := exists_common_bound frags
      (fun f m => ∀ objRef, u.Types f.On = some objRef →
        ∃ p, plan e m (.Object objRef) f.SelectionSet S = .ok p ∧
          p.SelectionSet = withTypename e (.Object objRef) f.SelectionSet ∧ p.After = [])
      (by
        intro f hf
        obtain ⟨objRef, obj, hT, -, -⟩ := hmem f hf
        obtain ⟨N, hN⟩ := ih f hf objRef hT
        refine ⟨N, fun m hm objRef1 hT1 => ?_⟩
        rw [hT] at hT1
        injection hT1 with hT1
        subst hT1
        exact hN m hm)
    refine ⟨N + 1, fun m hm => ?_⟩
    obtain ⟨k, rfl⟩ : ∃ k, m = k + 1 := ⟨m - 1, by omega⟩
    have hs := unionSelections_typename sels [typenameSelection] hsel
    have hf := planFragments_resolved e (plan e k) r u S hu frags [] [] [] hnodup (by simp)
      (fun f hf => by
        obtain ⟨objRef, obj, hT, ho, hname⟩ := hmem f hf
        exact ⟨objRef, obj, hT, ho, hname, hN k (by omega) f hf objRef hT⟩)
    simp only [List.nil_append] at hf
    refine ⟨{ Path := [], Service := "", Kind := .QUERY, TypeName := ""
              SelectionSet := .mk (typenameSelection :: sels) (withTypenameFragments e r frags)
              After := [] }, ?_, ?_, ?_⟩
    · simp only [plan, planUnionWith, RawSelectionSet.Selections, RawSelectionSet.Fragments,
        hs, hf]
      rfl
    · simp [withTypename, Typ.unwrap]
    · rfl

theorem partitionSelections_all_remote (e : Executor) (typ : Object) (service S : String) :
    ∀ (sels loc acc : List RawSelection),
      (∀ sel ∈ sels, homeService e typ sel = some S ∧ isLocal e typ service sel = false) →
      partitionSelections e typ service sels loc [(S, acc)] = .ok (loc, [(S, acc ++ sels)]) := by
  intro sels
  induction sels with
  | nil => intro loc acc _; simp [partitionSelections]
  | cons sel rest ih =>
    intro loc acc h
    obtain ⟨hh, hl⟩ := h sel (by simp)
    have hrest := fun s hs => h s (List.mem_cons_of_mem _ hs)
    simp only [partitionSelections]
    by_cases hn : sel.Name = "__typename"
    · simp [homeService, hn] at hh
    · simp only [hn, if_false]
      simp only [homeService, hn, if_false] at hh
      simp only [isLocal, hn, if_false] at hl
      cases hf : typ.Fields sel.Name with
      | none => simp [hf] at hh
      | some field =>
        simp only [hf] at hh hl ⊢
        cases hi : e.schema.Fields field with
        | none => simp [hi] at hh
        | some info =>
          simp only [hi] at hh hl ⊢
          injection hh with hh
          simp only [hl, hh, Buckets.add, if_true]
          rw [ih loc (acc ++ [sel]) hrest]
          simp

theorem partitionSelections_first_remote (e : Executor) (typ : Object) (service S : String)
    (sels : List RawSelection) (hne : sels ≠ [])
    (h : ∀ sel ∈ sels, homeService e typ sel = some S ∧ isLocal e typ service sel = false) :
    partitionSelections e typ service sels [] [] = .ok ([], [(S, sels)]) := by
  cases sels with
  | nil => exact absurd rfl hne
  | cons sel rest =>
    obtain ⟨hh, hl⟩ := h sel (by simp)
    have hrest := fun s hs => h s (List.mem_cons_of_mem _ hs)
    simp only [partitionSelections]
    by_cases hn : sel.Name = "__typename"
    · simp [homeService, hn] at hh
    · simp only [hn, if_false]
      simp only [homeService, hn, if_false] at hh
      simp only [isLocal, hn, if_false] at hl
      cases hf : typ.Fields sel.Name with
      | none => simp [hf] at hh
      | some field =>
        simp only [hf] at hh hl ⊢
        cases hi : e.schema.Fields field with
        | none => simp [hi] at hh
        | some info =>
          simp only [hi] at hh hl ⊢
          injection hh with hh
          simp only [hl, hh, Buckets.add]
          rw [partitionSelections_all_remote e typ service S rest [] [sel] hrest]
          simp

theorem not_key_typenameSelection : isFederationKey typenameSelection = false := by decide

mutual
theorem withTypename_keys (e : Executor) :
    ∀ (t : Typ) (ss : RawSelectionSet),
      (withTypename e t ss).all.countP isFederationKey = ss.all.countP isFederationKey
  | t, .mk selections fragments => by
    unfold withTypename
    cases t.unwrap with
    | NonNull _ => rfl
    | List _ => rfl
    | Other => rfl
    | Object r =>
      simp only [RawSelectionSet.all, List.countP_append,
        withTypenameSelections_keys e r selections]
    | Union u =>
      simp only [RawSelectionSet.all, RawSelection.allOfList, List.countP_append,
        withTypenameFragments_keys e u fragments]
      have : (RawSelection.all typenameSelection).countP isFederationKey = 0 := by decide
      rw [this]
      simp
theorem withTypenameSelections_keys (e : Executor) :
    ∀ (r : Ref) (selections : List RawSelection),
      (RawSelection.allOfList (withTypenameSelections e r selections)).countP isFederationKey =
        (RawSelection.allOfList selections).countP isFederationKey
  | _, [] => by simp [withTypenameSelections]
  | r, .mk name al args none :: rest => by
    simp only [withTypenameSelections, RawSelection.allOfList, List.countP_append,
      withTypenameSelections_keys e r rest]
  | r, .mk name al args (some selectionSet) :: rest => by
    simp only [withTypenameSelections, RawSelection.allOfList, RawSelection.all,
      List.countP_append, List.countP_cons, withTypenameSelections_keys e r rest,
      withTypename_keys e (fieldType e r name) selectionSet]
    simp [isFederationKey]
theorem withTypenameFragments_keys (e : Executor) :
    ∀ (u : Ref) (fragments : List RawFragment),
      (RawFragment.allOfList (withTypenameFragments e u fragments)).countP isFederationKey =
        (RawFragment.allOfList fragments).countP isFederationKey
  | _, [] => by simp [withTypenameFragments]
  | u, .mk target selectionSet :: rest => by
    simp only [withTypenameFragments, RawFragment.allOfList, List.countP_append,
      withTypenameFragments_keys e u rest,
      withTypename_keys e (memberType e u target) selectionSet]
end

theorem withTypenameSelections_id (e : Executor) (r : Ref) (obj : Object)
    (ho : e.objects r = some obj) :
    ∀ sels : List RawSelection,
      (∀ sel ∈ sels, ∀ field ss, obj.Fields sel.Name = some field → sel.SelectionSet = some ss →
        withTypename e field.Typ ss = ss) →
      (∀ sel ∈ sels, ∀ ss, sel.SelectionSet = some ss → ∃ field, obj.Fields sel.Name = some field) →
      withTypenameSelections e r sels = sels := by
  intro sels
  induction sels with
  | nil => intro _ _; simp [withTypenameSelections]
  | cons sel rest ih =>
    intro h hf
    have ih1 := ih (fun s hs => h s (List.mem_cons_of_mem _ hs))
      (fun s hs => hf s (List.mem_cons_of_mem _ hs))
    cases sel with
    | mk n a args o =>
      cases o with
      | none => simp [withTypenameSelections, ih1]
      | some ss =>
        obtain ⟨field, hfield⟩ := hf (RawSelection.mk n a args (some ss)) (by simp) ss rfl
        have := h (RawSelection.mk n a args (some ss)) (by simp) field ss hfield rfl
        simp only [selection_name_mk] at hfield
        have hft : fieldType e r n = field.Typ := by simp [fieldType, ho, hfield]
        simp [withTypenameSelections, ih1, hft, this]

/-- Without union types in the schema nothing is added to a resolvable selection set. -/
theorem withTypename_id (e : Executor) (S : String) (t : Typ) (ss : RawSelectionSet)
    (h : Resolvable e S t ss) (hno : ∀ u, e.unions u = none) : withTypename e t ss = ss := by
  induction h with
  | nonNull _ ih => rw [withTypename_nonNull]; exact ih
  | list _ ih => rw [withTypename_list]; exact ih
  | @object r obj sels ho hleaf hfield _ ih =>
    simp only [withTypename, Typ.unwrap]
    rw [withTypenameSelections_id e r obj ho sels]
    · intro sel hsel field ss hf hss
      have hn : sel.Name ≠ "__typename" := by
        intro hn
        rw [hleaf sel hsel hn] at hss
        cases hss
      exact ih sel hsel field ss hn hf hss
    · intro sel hsel ss hss
      have hn : sel.Name ≠ "__typename" := by
        intro hn
        rw [hleaf sel hsel hn] at hss
        cases hss
      obtain ⟨field, _, hf, _⟩ := hfield sel hsel hn
      exact ⟨field, hf⟩
  | @union r u sels frags hu _ _ _ _ _ =>
    rw [hno r] at hu
    cases hu

/-- C4: a non-empty flattened selection set on an object root type whose top-level
fields all have home service `S` and which is resolvable by `S` at every depth is
planned from the (ineligible) sentinel service, by every large enough recursion
budget, into a root Plan with exactly one `After` entry; the entry is on service
`S`, has no `After` entries, and its selection set is the input with the synthetic
`__typename` put in front of every union-level selection set (the input itself when
the schema has no unions); it has as many `__federation` selections, at any depth, as
the input has: none is injected. -/
theorem single_service_plan (e : Executor) (S : String) (typ : Ref) (obj : Object)
    (selections : List RawSelection)
    (ho : e.objects typ = some obj) (hs : SentinelIneligible e) (hne : selections ≠ [])
    (hhome : ∀ sel ∈ selections, homeService e obj sel = some S)
    (hres : Resolvable e S (.Object typ) (.mk selections [])) :
    ∃ N, ∀ fuel, N ≤ fuel → ∃ root entry,
      plan e fuel (.Object typ) (.mk selections []) sentinel = .ok root ∧
      root.After = [entry] ∧ entry.Service = S ∧ entry.After = [] ∧
      entry.SelectionSet = withTypename e (.Object typ) (.mk selections []) ∧
      entry.SelectionSet.all.countP isFederationKey =
        (RawSelectionSet.mk selections []).all.countP isFederationKey ∧
      ((∀ u, e.unions u = none) → entry.SelectionSet = .mk selections []) := by
  obtain ⟨N, hN⟩ := plan_resolvable e S _ _ hres
  refine ⟨N + 1, fun fuel hfuel => ?_⟩
  obtain ⟨k, rfl⟩ : ∃ k, fuel = k + 1 := ⟨fuel - 1, by omega⟩
  obtain ⟨entry, hentry, hss, hafter⟩ := hN k (by omega)
  have hserv : entry.Service = S := ((plan_good e k _ _ _ _ hentry).2.1 typ rfl).1
  have hremote : ∀ sel ∈ selections,
      homeService e obj sel = some S ∧ isLocal e obj sentinel sel = false := by
    intro sel hsel
    refine ⟨hhome sel hsel, ?_⟩
    cases hl : isLocal e obj sentinel sel with
    | false => rfl
    | true =>
      have hn := (isLocal_sentinel e hs obj sel).1 hl
      have := hhome sel hsel
      simp [homeService, hn] at this
  have hpart := partitionSelections_first_remote e obj sentinel S selections hne hremote
  refine ⟨{ Path := [], Service := sentinel, Kind := .QUERY, TypeName := obj.Name
            SelectionSet := .mk [federationKey] [], After := [entry] }, entry,
    ?_, rfl, hserv, hafter, hss, ?_, ?_⟩
  · simp only [plan, planObjectWith, ho, RawSelectionSet.Fragments, RawSelectionSet.Selections,
      hpart]
    simp [planLocalSelections, Buckets.keys, sortStrings, planBuckets, Buckets.get, hentry,
      isFederationKey]
  · rw [hss, withTypename_keys]
  · intro hno
    rw [hss, withTypename_id e S _ _ hres hno]

theorem petShop_sentinel : SentinelIneligible petShop := by
  intro field info h
  simp only [petShop] at h
  injection h with h
  subst h
  decide

theorem petSelections_resolvable :
    Resolvable petShop "pets" (.Object 3) (.mk petSelections []) := by
  refine @Resolvable.object _ _ 3
    { Name := "Query", Fields := mapOf [("pets", ⟨2, .List (.Union 0)⟩)] } _ rfl ?_ ?_ ?_
  · intro sel hsel hn
    simp [petSelections] at hsel
    subst hsel
    exact absurd hn (by decide)
  · intro sel hsel _
    simp [petSelections] at hsel
    subst hsel
    exact ⟨⟨2, .List (.Union 0)⟩, ownedBy "pets", rfl, rfl, rfl⟩
  · intro sel hsel field ss _ hf hss
    simp [petSelections] at hsel
    subst hsel
    injection hf with hf
    injection hss with hss
    subst hf
    subst hss
    refine Resolvable.list (@Resolvable.union _ _ 0
      { Name := "Pet", Types := mapOf [("Cat", 1), ("Dog", 2)] } _ _
      rfl (by simp) (by simp [RawFragment.On]) ?_ ?_)
    · intro f hf
      simp at hf
      subst hf
      exact ⟨1, { Name := "Cat", Fields := mapOf [("name", ⟨0, .Other⟩)] }, rfl, rfl, rfl⟩
    · intro f hf objRef hT
      simp at hf
      subst hf
      injection hT with hT
      subst hT
      refine @Resolvable.object _ _ 1
        { Name := "Cat", Fields := mapOf [("name", ⟨0, .Other⟩)] } _ rfl ?_ ?_ ?_
      · intro sel hsel hn
        simp at hsel
        subst hsel
        rfl
      · intro sel hsel _
        simp at hsel
        subst hsel
        exact ⟨⟨0, .Other⟩, ownedBy "pets", rfl, rfl, rfl⟩
      · intro sel hsel field ss _ _ hss
        simp at hsel
        subst hsel
        cases hss

/-- The query `{pets{... on Cat{name}}}` on `petShop`, entirely resolvable by service
`pets`, through `single_service_plan`: the entry carries
`{pets{__typename ... on Cat{name}}}`. -/
theorem single_service_plan_witness :
    ∃ N, ∀ fuel, N ≤ fuel → ∃ root entry,
      plan petShop fuel (.Object 3) (.mk petSelections []) sentinel = .ok root ∧
      root.After = [entry] ∧ entry.Service = "pets" ∧ entry.After = [] ∧
      entry.SelectionSet =
        .mk [RawSelection.mk "pets" "pets" []
          (some (RawSelectionSet.mk [typenameSelection]
            [RawFragment.mk "Cat" (RawSelectionSet.mk [leaf "name"] [])]))] [] ∧
      entry.SelectionSet.all.countP isFederationKey =
        (RawSelectionSet.mk petSelections []).all.countP isFederationKey ∧
      ((∀ u, petShop.unions u = none) → entry.SelectionSet = .mk petSelections []) :=
  single_service_plan petShop "pets" 3
    { Name := "Query", Fields := mapOf [("pets", ⟨2, .List (.Union 0)⟩)] }
    petSelections rfl petShop_sentinel (by simp [petSelections])
    (by
      intro sel hsel
      simp [petSelections] at hsel
      subst hsel
      rfl)
    petSelections_resolvable

/-! ### Fragments of a union -/

/-- C11: when all selections are `__typename`, the fragments before it were planned
without failure and one of them targets the same type name, a fragment makes
`planUnion` fail with `DuplicateFragment` naming that type. -/
theorem planUnion_duplicate_fragment (e : Executor) (fuel : Nat) (typ : Ref)
    (service : String) (selections : List RawSelection) (pre post : List RawFragment)
    (fragment : RawFragment) (frags1 : List RawFragment) (after1 : List Plan)
    (hsel : ∀ sel ∈ selections, sel.Name = "__typename")
    (hpre : planFragments e (plan e fuel) typ service pre [] [] [] = .ok (frags1, after1))
    (hdup : fragment.On ∈ pre.map RawFragment.On) :
    planUnion e fuel typ (RawSelectionSet.mk selections (pre ++ fragment :: post)) service =
      .error (.DuplicateFragment fragment.On) := by
  have hs := unionSelections_typename selections [typenameSelection] hsel
  have hf : planFragments e (plan e fuel) typ service (pre ++ fragment :: post) [] [] [] =
      .error (.DuplicateFragment fragment.On) := by
    rw [planFragments_append e (plan e fuel) typ service pre (fragment :: post) [] [] frags1 []
      after1 hpre]
    simp only [planFragments]
    have : fragment.On ∈ (pre.map RawFragment.On).reverse ++ [] := by simpa using hdup
    simp only [this, if_true]
  simp only [planUnion, planUnionWith, RawSelectionSet.Selections, RawSelectionSet.Fragments,
    hs, hf]

/-- Two fragments on `Cat` under the union `Pet`, through `planUnion_duplicate_fragment`. -/
theorem planUnion_duplicate_fragment_witness :
    planUnion petShop 1 0 (RawSelectionSet.mk [leaf "__typename"] [catFragment, catFragment])
      "pets" = .error (.DuplicateFragment "Cat") :=
  planUnion_duplicate_fragment petShop 1 0 "pets" [leaf "__typename"] [catFragment] []
    catFragment _ _ (by intro sel hs; simp at hs; subst hs; rfl) rfl (by simp)

theorem planFragments_distinct (e : Executor)
    (rec : Typ → RawSelectionSet → String → Except Err Plan) (typ : Ref) (u : Union)
    (service : String) (hu : e.unions typ = some u)
    (hrec : ∀ t ss s p, rec t ss s = .ok p → Good e t s p) :
    ∀ (frags : List RawFragment) (seen : List String) (acc : List RawFragment)
      (after : List Plan),
      (frags.map RawFragment.On).Nodup → (∀ f ∈ frags, f.On ∉ seen) →
      (∀ f ∈ frags, ∃ objRef p, u.Types f.On = some objRef ∧
        rec (.Object objRef) f.SelectionSet service = .ok p) →
      ∃ outs promoted, planFragments e rec typ service frags seen acc after =
          .ok (acc ++ outs, after ++ promoted) ∧
        List.Forall₂ (fun (f out : RawFragment) =>
          ∃ objRef obj p, u.Types f.On = some objRef ∧ e.objects objRef = some obj ∧
            rec (.Object objRef) f.SelectionSet service = .ok p ∧
            out = RawFragment.mk obj.Name p.SelectionSet) frags outs := by
  intro frags
  induction frags with
  | nil =>
    intro seen acc after _ _ _
    exact ⟨[], [], by simp [planFragments], List.Forall₂.nil⟩
  | cons f rest ih =>
    intro seen acc after hnd hseen hall
    obtain ⟨objRef, p, hT, hp⟩ := hall f (by simp)
    obtain ⟨-, obj, ho, -⟩ := (hrec _ _ _ _ hp).2.1 objRef rfl
    have hnd1 : (rest.map RawFragment.On).Nodup := (List.nodup_cons.1 hnd).2
    have hnotin : f.On ∉ rest.map RawFragment.On := (List.nodup_cons.1 hnd).1
    have hseen1 : ∀ g ∈ rest, g.On ∉ f.On :: seen := by
      intro g hg hmem
      rcases List.mem_cons.1 hmem with h | h
      · exact hnotin (h ▸ List.mem_map_of_mem _ hg)
      · exact hseen g (List.mem_cons_of_mem _ hg) h
    have hall1 := fun g hg => hall g (List.mem_cons_of_mem _ hg)
    have hfs : f.On ∉ seen := hseen f (by simp)
    obtain ⟨outs, promoted, h1, h2⟩ := ih (f.On :: seen)
      (acc ++ [RawFragment.mk obj.Name p.SelectionSet])
      (after ++ p.After.map (Plan.appendStep ⟨.KindType, obj.Name⟩)) hnd1 hseen1 hall1
    refine ⟨RawFragment.mk obj.Name p.SelectionSet :: outs,
      p.After.map (Plan.appendStep ⟨.KindType, obj.Name⟩) ++ promoted, ?_,
      List.Forall₂.cons ⟨objRef, obj, p, hT, ho, hp, rfl⟩ h2⟩
    simp only [planFragments, hfs, if_false, hu, hT, hp, ho, h1]
    simp

/-- C12: for a union whose input selections are all `__typename` and whose fragments
target pairwise distinct members with successful concrete plans, `planUnion` returns
a Plan whose selections are the synthetic `__typename` followed by the input
selections, and whose fragments correspond one to one, in order, to the input
fragments, each keyed by the name of the concrete type and carrying the selection
set of the concrete plan; no other fragment is emitted. -/
theorem planUnion_fragments (e : Executor) (fuel : Nat) (typ : Ref) (u : Union)
    (service : String) (selections : List RawSelection) (fragments : List RawFragment)
    (hu : e.unions typ = some u)
    (hsel : ∀ sel ∈ selections, sel.Name = "__typename")
    (hnd : (fragments.map RawFragment.On).Nodup)
    (hplans : ∀ f ∈ fragments, ∃ objRef p, u.Types f.On = some objRef ∧
      plan e fuel (.Object objRef) f.SelectionSet service = .ok p) :
    ∃ result, planUnion e fuel typ (RawSelectionSet.mk selections fragments) service =
        .ok result ∧
      result.SelectionSet.Selections =
        RawSelection.mk "__typename" "__typename" [] none :: selections ∧
      result.SelectionSet.Fragments.length = fragments.length ∧
      List.Forall₂ (fun (f out : RawFragment) =>
        ∃ objRef obj p, u.Types f.On = some objRef ∧ e.objects objRef = some obj ∧
          plan e fuel (.Object objRef) f.SelectionSet service = .ok p ∧
          out = RawFragment.mk obj.Name p.SelectionSet) fragments
        result.SelectionSet.Fragments := by
  have hs := unionSelections_typename selections [typenameSelection] hsel
  obtain ⟨outs, promoted, h1, h2⟩ := planFragments_distinct e (plan e fuel) typ u service hu
    (plan_good e fuel) fragments [] [] [] hnd (by simp) hplans
  simp only [List.nil_append] at h1
  refine ⟨{ Path := [], Service := "", Kind := .QUERY, TypeName := ""
            SelectionSet := RawSelectionSet.mk ([typenameSelection] ++ selections) outs
            After := promoted }, ?_, rfl, ?_, h2⟩
  · simp only [planUnion, planUnionWith, RawSelectionSet.Selections, RawSelectionSet.Fragments,
      hs, h1]
  · exact h2.length_eq.symm

/-- The union `Pet = Cat | Dog` queried with a fragment on `Dog` only, through
`planUnion_fragments`: the output has the `Dog` fragment and no `Cat` fragment. -/
theorem planUnion_fragments_witness :
    ∃ result, planUnion petShop 1 0 (RawSelectionSet.mk [leaf "__typename"] [dogFragment])
        "pets" = .ok result ∧
      result.SelectionSet.Selections =
        RawSelection.mk "__typename" "__typename" [] none :: [leaf "__typename"] ∧
      result.SelectionSet.Fragments.length = [dogFragment].length ∧
      List.Forall₂ (fun (f out : RawFragment) =>
        ∃ objRef obj p, mapOf [("Cat", 1), ("Dog", 2)] f.On = some objRef ∧
          petShop.objects objRef = some obj ∧
          plan petShop 1 (.Object objRef) f.SelectionSet "pets" = .ok p ∧
          out = RawFragment.mk obj.Name p.SelectionSet) [dogFragment]
        result.SelectionSet.Fragments :=
  planUnion_fragments petShop 1 0 { Name := "Pet", Types := mapOf [("Cat", 1), ("Dog", 2)] }
    "pets" [leaf "__typename"] [dogFragment] rfl
    (by intro sel hs; simp at hs; subst hs; rfl) (by simp)
    (by
      intro f hf
      simp at hf
      subst hf
      exact ⟨2, _, rfl, rfl⟩)

/-! ### The dispatcher -/

theorem plan_unwrap (e : Executor) (selectionSet : RawSelectionSet) (service : String) :
    ∀ (t : Typ) (fuel : Nat),
      plan e (fuel + t.wrappers) t selectionSet service =
        plan e fuel t.unwrap selectionSet service := by
  intro t
  induction t with
  | NonNull inner ih =>
    intro fuel
    simp only [Typ.wrappers, Typ.unwrap, ← Nat.add_assoc, plan]
    exact ih fuel
  | List inner ih =>
    intro fuel
    simp only [Typ.wrappers, Typ.unwrap, ← Nat.add_assoc, plan]
    exact ih fuel
  | Object r => intro fuel; rfl
  | Union r => intro fuel; rfl
  | Other => intro fuel; rfl

theorem plan_returns_unwrap (e : Executor) (selectionSet : RawSelectionSet) (service : String)
    (res : Except Err Plan) (hres : res ≠ .error .outOfFuel) :
    ∀ t : Typ, (∃ fuel, plan e fuel t selectionSet service = res) ↔
      (∃ fuel, plan e fuel t.unwrap selectionSet service = res) := by
  intro t
  induction t with
  | NonNull inner ih =>
    simp only [Typ.unwrap]
    rw [← ih]
    constructor
    · rintro ⟨fuel, h⟩
      cases fuel with
      | zero => exact absurd h.symm (by simpa [plan] using hres)
      | succ k => exact ⟨k, by simpa [plan] using h⟩
    · rintro ⟨fuel, h⟩
      exact ⟨fuel + 1, by simpa [plan] using h⟩
  | List inner ih =>
    simp only [Typ.unwrap]
    rw [← ih]
    constructor
    · rintro ⟨fuel, h⟩
      cases fuel with
      | zero => exact absurd h.symm (by simpa [plan] using hres)
      | succ k => exact ⟨k, by simpa [plan] using h⟩
    · rintro ⟨fuel, h⟩
      exact ⟨fuel + 1, by simpa [plan] using h⟩
  | Object r => rfl
  | Union r => rfl
  | Other => rfl

/-- C15: the dispatcher looks through `NonNull` and `List`: one wrapper costs one
level of recursion and nothing else, so a wrapped type is planned exactly as the
type with all wrappers removed, for the same selection set and service, at any depth
of wrapping and independently of the recursion budget; an object is planned by
`planObject`, a union by `planUnion`, and every other kind of type fails with
`UnsupportedType` for every selection set and service. -/
theorem plan_dispatch (e : Executor) (selectionSet : RawSelectionSet) (service : String) :
    (∀ fuel t, plan e (fuel + 1) (.NonNull t) selectionSet service =
      plan e fuel t selectionSet service) ∧
    (∀ fuel t, plan e (fuel + 1) (.List t) selectionSet service =
      plan e fuel t selectionSet service) ∧
    (∀ fuel t, plan e (fuel + t.wrappers) t selectionSet service =
      plan e fuel t.unwrap selectionSet service) ∧
    (∀ t res, res ≠ .error .outOfFuel →
      ((∃ fuel, plan e fuel t selectionSet service = res) ↔
       (∃ fuel, plan e fuel t.unwrap selectionSet service = res))) ∧
    (∀ fuel r, plan e (fuel + 1) (.Object r) selectionSet service =
      planObject e fuel r selectionSet service) ∧
    (∀ fuel r, plan e (fuel + 1) (.Union r) selectionSet service =
      planUnion e fuel r selectionSet service) ∧
    (∀ fuel t, t.unwrap = .Other →
      plan e (fuel + 1 + t.wrappers) t selectionSet service = .error .UnsupportedType) := by
  refine ⟨fun _ _ => rfl, fun _ _ => rfl, fun fuel t => plan_unwrap e selectionSet service t fuel,
    fun t res hres => plan_returns_unwrap e selectionSet service res hres t,
    fun _ _ => rfl, fun _ _ => rfl, ?_⟩
  intro fuel t ht
  rw [plan_unwrap, ht]
  rfl

/-- A list of non-null scalars, which is no object and no union, through
`plan_dispatch`: planning it fails with `UnsupportedType`. -/
theorem plan_dispatch_witness :
    plan orderShop 3 (.List (.NonNull .Other)) orderQuery "orders" = .error .UnsupportedType :=
  (plan_dispatch orderShop orderQuery "orders").2.2.2.2.2.2 0 (.List (.NonNull .Other)) rfl

/-! ### The selections a Plan keeps -/

theorem rebuilt_any_key (loc rebuilt : List RawSelection)
    (h : List.Forall₂ (fun old new : RawSelection =>
          new.Name = old.Name ∧ new.Alias = old.Alias ∧ new.Args = old.Args ∧
          (new.SelectionSet = none ↔ old.SelectionSet = none)) loc rebuilt) :
    rebuilt.any isFederationKey = loc.any isFederationKey := by
  induction h with
  | nil => rfl
  | @cons a b l1 l2 hab _ ih =>
    have : isFederationKey b = isFederationKey a := by
      simp [isFederationKey, hab.1, hab.2.1]
    simp [List.any_cons, this, ih]

theorem partitionSelections_keys_ne_nil (e : Executor) (typ : Object) (service : String)
    (sels loc : List RawSelection) (b : Buckets)
    (h : partitionSelections e typ service sels [] [] = .ok (loc, b)) :
    sortStrings b.keys ≠ [] ↔ ∃ sel ∈ sels, isLocal e typ service sel = false := by
  obtain ⟨-, -, hkeys, -⟩ := partitionSelections_spec e typ service _ _ _ _ _ h
  constructor
  · intro hne
    cases hs : sortStrings b.keys with
    | nil => exact absurd hs hne
    | cons k rest =>
      have hk : k ∈ b.keys := (mem_sortStrings b.keys k).1 (by rw [hs]; simp)
      rw [hkeys k] at hk
      rcases hk with hk | hk
      · simp [Buckets.keys] at hk
      · simp only [remoteServices, homeServices, List.mem_filterMap, List.mem_filter] at hk
        obtain ⟨sel, ⟨hsel, hl⟩, -⟩ := hk
        exact ⟨sel, hsel, by simpa using hl⟩
  · rintro ⟨sel, hsel, hnl⟩ h0
    have hn : sel.Name ≠ "__typename" := by
      intro hn
      rw [isLocal_typename e typ service sel hn] at hnl
      cases hnl
    obtain ⟨k, hk⟩ := partitionSelections_home e typ service _ _ _ _ _ h sel hsel hn
    have hkmem : k ∈ b.keys := by
      rw [hkeys k]
      right
      simp only [remoteServices, homeServices, List.mem_filterMap, List.mem_filter]
      exact ⟨sel, ⟨hsel, by simp [hnl]⟩, hk⟩
    have := (mem_sortStrings b.keys k).2 hkmem
    rw [h0] at this
    cases this

/-- C14: the top-level selections of the Plan returned by `planObject` are the
local input selections (`__typename`, or a field whose eligible services include
the service), in input order and with their name, alias and arguments, followed by
the synthetic `__federation` selection (empty arguments) exactly when some input
selection is not local and no local one has both name and alias `__federation`;
nothing else, in particular no selection that is not local, is among them. -/
theorem planObject_selections (e : Executor) (fuel : Nat) (typ : Ref) (obj : Object)
    (selectionSet : RawSelectionSet) (service : String) (p : Plan)
    (ho : e.objects typ = some obj)
    (h : planObject e fuel typ selectionSet service = .ok p) :
    ∃ kept : List RawSelection,
      List.Forall₂ (fun old new : RawSelection =>
          new.Name = old.Name ∧ new.Alias = old.Alias ∧ new.Args = old.Args ∧
          (new.SelectionSet = none ↔ old.SelectionSet = none))
        (selectionSet.Selections.filter (isLocal e obj service)) kept ∧
      p.SelectionSet.Fragments = [] ∧
      (((∃ sel ∈ selectionSet.Selections, isLocal e obj service sel = false) ∧
        (∀ sel ∈ selectionSet.Selections, isLocal e obj service sel = true →
          ¬ (sel.Name = "__federation" ∧ sel.Alias = "__federation"))) →
        p.SelectionSet.Selections =
          kept ++ [RawSelection.mk "__federation" "__federation" [] none]) ∧
      (¬ ((∃ sel ∈ selectionSet.Selections, isLocal e obj service sel = false) ∧
        (∀ sel ∈ selectionSet.Selections, isLocal e obj service sel = true →
          ¬ (sel.Name = "__federation" ∧ sel.Alias = "__federation"))) →
        p.SelectionSet.Selections = kept) := by
  obtain ⟨obj1, loc, b, sels, promoted, after, ho1, -, hpart, hloc, hb, rfl⟩ :=
    planObjectWith_ok e (plan e fuel) typ selectionSet service p h
  rw [ho] at ho1
  injection ho1 with ho1
  subst ho1
  obtain ⟨hlocEq, -, -, -⟩ := partitionSelections_spec e obj service _ _ _ _ _ hpart
  obtain ⟨rebuilt, hreb, hforall⟩ :=
    planLocalSelections_selections (plan e fuel) obj service _ _ _ _ _ hloc
  simp only [List.nil_append] at hreb hlocEq
  subst hreb
  have hneed := partitionSelections_keys_ne_nil e obj service _ _ _ hpart
  have hany := rebuilt_any_key loc sels hforall
  have hkey : sels.any isFederationKey = false ↔
      ∀ sel ∈ selectionSet.Selections, isLocal e obj service sel = true →
        ¬ (sel.Name = "__federation" ∧ sel.Alias = "__federation") := by
    rw [hany, hlocEq]
    constructor
    · intro h0 sel hsel hl hk
      have : (selectionSet.Selections.filter (isLocal e obj service)).any isFederationKey
          = true :=
        List.any_eq_true.2 ⟨sel, List.mem_filter.2 ⟨hsel, hl⟩, (isFederationKey_iff sel).2 hk⟩
      rw [h0] at this
      cases this
    · intro hall
      cases hc : (selectionSet.Selections.filter (isLocal e obj service)).any isFederationKey with
      | false => rfl
      | true =>
        obtain ⟨sel, hsel, hk⟩ := List.any_eq_true.1 hc
        rw [List.mem_filter] at hsel
        exact absurd ((isFederationKey_iff sel).1 hk) (hall sel hsel.1 hsel.2)
  refine ⟨sels, by rw [← hlocEq]; exact hforall, rfl, ?_, ?_⟩
  · rintro ⟨hremote, hnokey⟩
    have h1 : (sortStrings b.keys).isEmpty = false := by
      cases hs : sortStrings b.keys with
      | nil => exact absurd hs (hneed.2 hremote)
      | cons _ _ => rfl
    have h2 : sels.any isFederationKey = false := hkey.2 hnokey
    simp [RawSelectionSet.Selections, h1, h2, federationKey]
  · intro hnot
    by_cases hremote : ∃ sel ∈ selectionSet.Selections, isLocal e obj service sel = false
    · have h2 : sels.any isFederationKey = true := by
        cases hc : sels.any isFederationKey with
        | true => rfl
        | false => exact absurd ⟨hremote, hkey.1 hc⟩ hnot
      simp [RawSelectionSet.Selections, h2]
    · have h1 : sortStrings b.keys = [] := by
        by_contra hne
        exact hremote (hneed.1 hne)
      simp [RawSelectionSet.Selections, h1]

/-- The worked example `{id, total, customer{name}}` planned from `orders`, through
`planObject_selections`: `id` and `total` are kept, `customer` is not, and the key is
appended. -/
theorem planObject_selections_witness :
    ∃ p kept : List RawSelection,
      List.Forall₂ (fun old new : RawSelection =>
          new.Name = old.Name ∧ new.Alias = old.Alias ∧ new.Args = old.Args ∧
          (new.SelectionSet = none ↔ old.SelectionSet = none))
        [leaf "id", leaf "total"] kept ∧
      p = kept ++ [RawSelection.mk "__federation" "__federation" [] none] :=
  ⟨[leaf "id", leaf "total", federationKey],
    (planObject_selections orderShop 2 0
      { Name := "Order"
        Fields := mapOf [("id", ⟨0, .Other⟩), ("total", ⟨1, .Other⟩),
                         ("customer", ⟨2, .Object 1⟩)] }
      orderQuery "orders"
      { Path := [], Service := "orders", Kind := .QUERY, TypeName := "Order"
        SelectionSet := RawSelectionSet.mk [leaf "id", leaf "total", federationKey] []
        After := [{ Path := [], Service := "users", Kind := .QUERY, TypeName := "Order"
                    SelectionSet := RawSelectionSet.mk [node "customer" [leaf "name"]] []
                    After := [] }] }
      rfl rfl).imp (fun kept hk => ⟨hk.1, hk.2.2.1
        ⟨⟨node "customer" [leaf "name"], by simp [orderQuery, RawSelectionSet.Selections], rfl⟩,
          by
            intro sel hsel _
            simp [orderQuery, RawSelectionSet.Selections] at hsel
            rcases hsel with rfl | rfl | rfl <;> decide⟩⟩)⟩

/-! ### When `planObject` fails on leaf selections -/

theorem planLocalSelections_leaves
    (rec : Typ → RawSelectionSet → String → Except Err Plan) (typ : Object) (service : String) :
    ∀ (loc acc : List RawSelection) (after : List Plan),
      (∀ sel ∈ loc, sel.SelectionSet = none) →
      planLocalSelections rec typ service loc acc after =
        .ok (acc ++ loc.map (fun sel => RawSelection.mk sel.Name sel.Alias sel.Args none),
          after) := by
  intro loc
  induction loc with
  | nil => intro acc after _; simp [planLocalSelections]
  | cons sel rest ih =>
    intro acc after h
    have hs := h sel (by simp)
    simp only [planLocalSelections, hs]
    rw [ih _ _ (fun s hs => h s (List.mem_cons_of_mem _ hs))]
    simp

theorem planBuckets_total
    (rec : Typ → RawSelectionSet → String → Except Err Plan) (typ : Ref) (b : Buckets) :
    ∀ (others : List String) (after : List Plan),
      (∀ other ∈ others, ∃ p,
        rec (.Object typ) (RawSelectionSet.mk (b.get other) []) other = .ok p) →
      ∃ after1, planBuckets rec typ b others after = .ok after1 := by
  intro others
  induction others with
  | nil => intro after _; exact ⟨after, rfl⟩
  | cons other rest ih =>
    intro after h
    obtain ⟨p, hp⟩ := h other (by simp)
    obtain ⟨after1, h1⟩ := ih (after ++ [p]) (fun o ho => h o (List.mem_cons_of_mem _ ho))
    exact ⟨after1, by simp only [planBuckets, hp, h1]⟩

theorem partitionSelections_total (e : Executor) (typ : Object) (service : String) :
    ∀ (sels loc : List RawSelection) (b : Buckets),
      (∀ sel ∈ sels, sel.Name ≠ "__typename" →
        ∃ field info, typ.Fields sel.Name = some field ∧ e.schema.Fields field = some info) →
      ∃ loc1 b1, partitionSelections e typ service sels loc b = .ok (loc1, b1) := by
  intro sels
  induction sels with
  | nil => intro loc b _; exact ⟨loc, b, rfl⟩
  | cons sel rest ih =>
    intro loc b h
    have hrest := fun s hs => h s (List.mem_cons_of_mem _ hs)
    simp only [partitionSelections]
    by_cases hn : sel.Name = "__typename"
    · simp only [hn, if_true]
      exact ih _ _ hrest
    · obtain ⟨field, info, hf, hi⟩ := h sel (by simp) hn
      simp only [hn, if_false, hf, hi]
      split
      · exact ih _ _ hrest
      · exact ih _ _ hrest

theorem partitionSelections_unknown (e : Executor) (typ : Object) (service : String)
    (hcover : ∀ name field, typ.Fields name = some field →
      ∃ info, e.schema.Fields field = some info) :
    ∀ sels : List RawSelection,
      (∃ sel ∈ sels, sel.Name ≠ "__typename" ∧ typ.Fields sel.Name = none) →
      ∃ sel ∈ sels, sel.Name ≠ "__typename" ∧ typ.Fields sel.Name = none ∧
        ∀ loc b, partitionSelections e typ service sels loc b =
          .error (.UnknownField typ.Name sel.Name) := by
  intro sels
  induction sels with
  | nil => rintro ⟨sel, hsel, -⟩; simp at hsel
  | cons s rest ih =>
    rintro ⟨sel, hsel, hn, hf⟩
    by_cases hsn : s.Name = "__typename"
    · have hrest : ∃ sel ∈ rest, sel.Name ≠ "__typename" ∧ typ.Fields sel.Name = none := by
        rcases List.mem_cons.1 hsel with rfl | hsel
        · exact absurd hsn hn
        · exact ⟨sel, hsel, hn, hf⟩
      obtain ⟨x, hx, hxn, hxf, hxe⟩ := ih hrest
      exact ⟨x, List.mem_cons_of_mem _ hx, hxn, hxf, fun loc b => by
        simp only [partitionSelections, hsn, if_true]
        exact hxe _ _⟩
    · cases hsf : typ.Fields s.Name with
      | none =>
        exact ⟨s, by simp, hsn, hsf, fun loc b => by
          simp only [partitionSelections, hsn, if_false, hsf]⟩
      | some field =>
        obtain ⟨info, hi⟩ := hcover _ _ hsf
        have hrest : ∃ sel ∈ rest, sel.Name ≠ "__typename" ∧ typ.Fields sel.Name = none := by
          rcases List.mem_cons.1 hsel with rfl | hsel
          · rw [hsf] at hf
            cases hf
          · exact ⟨sel, hsel, hn, hf⟩
        obtain ⟨x, hx, hxn, hxf, hxe⟩ := ih hrest
        exact ⟨x, List.mem_cons_of_mem _ hx, hxn, hxf, fun loc b => by
          simp only [partitionSelections, hsn, if_false, hsf, hi]
          split
          · exact hxe _ _
          · exact hxe _ _⟩

theorem planObjectWith_local_leaves (e : Executor)
    (rec : Typ → RawSelectionSet → String → Except Err Plan) (typ : Ref) (obj : Object)
    (sels : List RawSelection) (service : String) (ho : e.objects typ = some obj)
    (hlocal : ∀ sel ∈ sels, isLocal e obj service sel = true)
    (hleaves : ∀ sel ∈ sels, sel.SelectionSet = none) :
    ∃ p, planObjectWith e rec typ (RawSelectionSet.mk sels []) service = .ok p := by
  have hpart := partitionSelections_all_local e obj service sels [] [] hlocal
  have hloc := planLocalSelections_leaves rec obj service sels [] [] hleaves
  simp only [List.nil_append] at hpart hloc
  simp only [planObjectWith, ho, RawSelectionSet.Fragments, RawSelectionSet.Selections, hpart,
    hloc]
  simp [Buckets.keys, sortStrings, planBuckets]

theorem isLocal_home (e : Executor) (typ : Object) (sel : RawSelection) (k : String)
    (hhome : ∀ field info, e.schema.Fields field = some info →
      info.Services info.Service = true)
    (h : homeService e typ sel = some k) : isLocal e typ k sel = true := by
  unfold homeService at h
  unfold isLocal
  by_cases hn : sel.Name = "__typename"
  · simp [hn]
  · simp only [hn, if_false] at h ⊢
    cases hf : typ.Fields sel.Name with
    | none => simp [hf] at h
    | some field =>
      simp only [hf] at h ⊢
      cases hi : e.schema.Fields field with
      | none => simp [hi] at h
      | some info =>
        simp only [hi] at h ⊢
        injection h with h
        rw [← h]
        exact hhome field info hi

/-- C13: for an object type whose fields all have an ownership entry with the
home service among the eligible ones, and a selection set without nested selection
sets, `planObject` fails exactly when the selection set carries a fragment or names
(outside `__typename`) a field the object does not have; with a fragment the error
is `UnflattenedQuery`, whatever the selections, and otherwise it is `UnknownField`
for the object and such a field. -/
theorem planObject_fails_iff (e : Executor) (fuel : Nat) (typ : Ref) (obj : Object)
    (selectionSet : RawSelectionSet) (service : String)
    (ho : e.objects typ = some obj)
    (hleaves : ∀ sel ∈ selectionSet.Selections, sel.SelectionSet = none)
    (hcover : ∀ name field, obj.Fields name = some field →
      ∃ info, e.schema.Fields field = some info)
    (hhome : ∀ field info, e.schema.Fields field = some info →
      info.Services info.Service = true) :
    ((∃ err, planObject e (fuel + 1) typ selectionSet service = .error err) ↔
      (selectionSet.Fragments ≠ [] ∨
        ∃ sel ∈ selectionSet.Selections, sel.Name ≠ "__typename" ∧
          obj.Fields sel.Name = none)) ∧
    (selectionSet.Fragments ≠ [] →
      planObject e (fuel + 1) typ selectionSet service = .error .UnflattenedQuery) ∧
    (selectionSet.Fragments = [] →
      (∃ sel ∈ selectionSet.Selections, sel.Name ≠ "__typename" ∧
        obj.Fields sel.Name = none) →
      ∃ sel ∈ selectionSet.Selections, sel.Name ≠ "__typename" ∧ obj.Fields sel.Name = none ∧
        planObject e (fuel + 1) typ selectionSet service =
          .error (.UnknownField obj.Name sel.Name)) := by
  have hfrag : selectionSet.Fragments ≠ [] →
      planObject e (fuel + 1) typ selectionSet service = .error .UnflattenedQuery := by
    intro hne
    have : selectionSet.Fragments.length > 0 := List.length_pos.2 hne
    simp only [planObject, planObjectWith, ho, this, if_true]
  have hunknown : selectionSet.Fragments = [] →
      (∃ sel ∈ selectionSet.Selections, sel.Name ≠ "__typename" ∧
        obj.Fields sel.Name = none) →
      ∃ sel ∈ selectionSet.Selections, sel.Name ≠ "__typename" ∧ obj.Fields sel.Name = none ∧
        planObject e (fuel + 1) typ selectionSet service =
          .error (.UnknownField obj.Name sel.Name) := by
    intro hnil hex
    obtain ⟨sel, hsel, hn, hf, herr⟩ :=
      partitionSelections_unknown e obj service hcover selectionSet.Selections hex
    refine ⟨sel, hsel, hn, hf, ?_⟩
    simp only [planObject, planObjectWith, ho, hnil, List.length_nil, gt_iff_lt,
      lt_self_iff_false, if_false, herr]
  refine ⟨⟨?_, ?_⟩, hfrag, hunknown⟩
  · rintro ⟨err, herr⟩
    by_contra hnot
    have hnil : selectionSet.Fragments = [] := by
      by_contra hne
      exact hnot (Or.inl hne)
    have hknown : ∀ sel ∈ selectionSet.Selections, sel.Name ≠ "__typename" →
        ∃ field info, obj.Fields sel.Name = some field ∧ e.schema.Fields field = some info := by
      intro sel hsel hn
      cases hf : obj.Fields sel.Name with
      | none => exact absurd (Or.inr ⟨sel, hsel, hn, hf⟩) hnot
      | some field =>
        obtain ⟨info, hi⟩ := hcover _ _ hf
        exact ⟨field, info, rfl, hi⟩
    obtain ⟨loc, b, hpart⟩ :=
      partitionSelections_total e obj service selectionSet.Selections [] [] hknown
    obtain ⟨hlocEq, -, -, hget⟩ := partitionSelections_spec e obj service _ _ _ _ _ hpart
    have hloc := planLocalSelections_leaves (plan e (fuel + 1)) obj service loc [] [] (by
      intro sel hsel
      rw [hlocEq] at hsel
      simp only [List.nil_append, List.mem_filter] at hsel
      exact hleaves sel hsel.1)
    obtain ⟨after1, hb⟩ := planBuckets_total (plan e (fuel + 1)) typ b (sortStrings b.keys) []
      (by
        intro other _
        simp only [plan]
        apply planObjectWith_local_leaves e (plan e fuel) typ obj _ other ho
        · intro sel hsel
          rw [hget other] at hsel
          simp only [Buckets.get, List.nil_append, List.mem_filter, Bool.and_eq_true,
            decide_eq_true_eq] at hsel
          exact isLocal_home e obj sel other hhome hsel.2.2
        · intro sel hsel
          rw [hget other] at hsel
          simp only [Buckets.get, List.nil_append, List.mem_filter] at hsel
          exact hleaves sel hsel.1)
    simp only [planObject, planObjectWith, ho, hnil, List.length_nil, gt_iff_lt,
      lt_self_iff_false, if_false, hpart, hloc, hb] at herr
    cases herr
  · rintro (hne | hex)
    · exact ⟨_, hfrag hne⟩
    · by_cases hnil : selectionSet.Fragments = []
      · obtain ⟨sel, -, -, -, herr⟩ := hunknown hnil hex
        exact ⟨_, herr⟩
      · exact ⟨_, hfrag hnil⟩

/-- The object `Cat` of `petShop` planned from service `x`, through
`planObject_fails_iff`: the selection of the unknown field `age` under a fragment
fails as `UnflattenedQuery`. -/
theorem planObject_fails_iff_witness :
    planObject petShop 1 1 (RawSelectionSet.mk [leaf "name", leaf "age"] [catFragment]) "x" =
      .error .UnflattenedQuery :=
  (planObject_fails_iff petShop 0 1 { Name := "Cat", Fields := mapOf [("name", ⟨0, .Other⟩)] }
    (RawSelectionSet.mk [leaf "name", leaf "age"] [catFragment]) "x" rfl
    (by
      intro sel hsel
      simp [RawSelectionSet.Selections] at hsel
      rcases hsel with rfl | rfl <;> rfl)
    (fun _ _ _ => ⟨ownedBy "pets", rfl⟩)
    (by
      intro field info h
      simp only [petShop] at h
      injection h with h
      subst h
      decide)).2.1 (by simp [RawSelectionSet.Fragments])

/-! ### Sibling services -/

/-- C16 (amended): in every Plan returned by `planObject` and at every node of a
tree returned by `planRoot`, the `After` list consists of the promoted entries (with
a non-empty path) followed by the entries created for the remote buckets of the node
(with an empty path), and the entries of this second part target pairwise distinct
services; promoted entries may repeat a service. -/
theorem bucket_services_distinct (e : Executor) (fuel : Nat) (query : Query) (typ : Ref)
    (ss : RawSelectionSet) (s : String) (r : Plan)
    (h : planRoot e fuel query = .ok r ∨ planObject e fuel typ ss s = .ok r) :
    ∀ n ∈ r.nodes, ∃ promoted buckets : List Plan,
      n.After = promoted ++ buckets ∧
      (∀ c ∈ promoted, c.Path ≠ []) ∧
      (∀ c ∈ buckets, c.Path = []) ∧
      (buckets.map Plan.Service).Nodup ∧
      (∀ c1 ∈ buckets, ∀ c2 ∈ buckets, c1.Service = c2.Service → c1 = c2) := by
  intro n hn
  have hshape : n.AfterShape := by
    rcases h with h | h
    · exact planRoot_allShape e fuel query r h n hn
    · exact (planObjectWith_good e (plan e fuel) typ ss s r (plan_good e fuel) h).2.2 n hn
  obtain ⟨promoted, buckets, h1, h2, h3, h4⟩ := hshape
  have hnd : (buckets.map Plan.Service).Nodup := h4.imp (fun hab => ne_of_lt hab)
  exact ⟨promoted, buckets, h1, h2, fun c hc => (h3 c hc).1, hnd,
    fun c1 h1 c2 h2 heq => List.inj_on_of_nodup_map hnd h1 h2 heq⟩

/-- The root Plan of `{id, total, customer{name}}` on `orderShop`, through
`bucket_services_distinct`. -/
theorem bucket_services_distinct_witness :
    planRoot orderShop 3 ⟨"query", orderQuery⟩ = .ok orderRootPlan ∧
    ∃ promoted buckets : List Plan,
      orderRootPlan.After = promoted ++ buckets ∧
      (∀ c ∈ promoted, c.Path ≠ []) ∧
      (∀ c ∈ buckets, c.Path = []) ∧
      (buckets.map Plan.Service).Nodup ∧
      (∀ c1 ∈ buckets, ∀ c2 ∈ buckets, c1.Service = c2.Service → c1 = c2) :=
  ⟨rfl, bucket_services_distinct orderShop 3 ⟨"query", orderQuery⟩ 0 orderQuery ""
    orderRootPlan (Or.inl rfl) orderRootPlan (Plan.self_mem_nodes orderRootPlan)⟩

/-- C16 (as stated) fails: on `fanShop`, `planObject` of `{a{x}, c: a{x}}` on service
`s` returns a Plan whose two `After` entries are both on service `z`. -/
theorem sibling_services_repeat :
    ∃ p, planObject fanShop 3 0 twinSelections "s" = .ok p ∧
      p.After.map Plan.Service = ["z", "z"] ∧ ¬ (p.After.map Plan.Service).Nodup :=
  ⟨twinPlanS, rfl, rfl, by simp [twinPlanS, fanPlanZ]⟩

/-! ### Paths lead to the key -/

theorem Plan.routed_appendStep (step : PathStep) (c : Plan) (h : c.Routed) :
    (Plan.appendStep step c).Routed := h

theorem Plan.allRouted_appendStep (step : PathStep) (c : Plan)
    (h : ∀ n ∈ c.nodes, n.Routed) : ∀ n ∈ (Plan.appendStep step c).nodes, n.Routed := by
  intro n hn
  rw [Plan.nodes_eq] at hn
  rcases List.mem_cons.1 hn with rfl | hn
  · exact Plan.routed_appendStep step c (h c (Plan.self_mem_nodes c))
  · apply h
    rw [Plan.nodes_eq]
    exact List.mem_cons_of_mem _ hn

theorem Plan.allRouted_child (p c : Plan) (h : ∀ n ∈ p.nodes, n.Routed) (hc : c ∈ p.After) :
    ∀ n ∈ c.nodes, n.Routed := by
  intro n hn
  apply h
  rw [Plan.nodes_eq]
  exact List.mem_cons_of_mem _ ((Plan.mem_nodesAll _ _).2 ⟨c, hc, hn⟩)

theorem planLocalSelections_routes
    (rec : Typ → RawSelectionSet → String → Except Err Plan) (typ : Object) (service : String)
    (hrec : ∀ t ss s p, rec t ss s = .ok p → ∀ n ∈ p.nodes, n.Routed) :
    ∀ (loc sels : List RawSelection) (after : List Plan) (sels1 : List RawSelection)
      (after1 : List Plan),
      planLocalSelections rec typ service loc sels after = .ok (sels1, after1) →
      ∃ rebuilt promoted, sels1 = sels ++ rebuilt ∧ after1 = after ++ promoted ∧
        ∀ c ∈ promoted,
          (∃ sel ∈ rebuilt, ∃ nested rest, sel.SelectionSet = some nested ∧
            c.Path.reverse = ⟨.KindField, sel.Alias⟩ :: rest ∧ RouteToKey nested rest) ∧
          ∀ n ∈ c.nodes, n.Routed := by
  intro loc
  induction loc with
  | nil =>
    intro sels after sels1 after1 h
    simp [planLocalSelections] at h
    exact ⟨[], [], by simp [h.1], by simp [h.2], by simp⟩
  | cons sel rest ih =>
    intro sels after sels1 after1 h
    simp only [planLocalSelections] at h
    cases hss : sel.SelectionSet with
    | none =>
      simp only [hss] at h
      obtain ⟨rebuilt, promoted, h1, h2, h3⟩ := ih _ _ _ _ h
      refine ⟨RawSelection.mk sel.Name sel.Alias sel.Args none :: rebuilt, promoted,
        by simp [h1], h2, ?_⟩
      intro c hc
      obtain ⟨⟨s0, hs0, hr⟩, hn⟩ := h3 c hc
      exact ⟨⟨s0, List.mem_cons_of_mem _ hs0, hr⟩, hn⟩
    | some ss =>
      simp only [hss] at h
      cases hf : typ.Fields sel.Name with
      | none => simp [hf] at h
      | some field =>
        simp only [hf] at h
        cases hp : rec field.Typ ss service with
        | error err => simp [hp] at h
        | ok child =>
          simp only [hp] at h
          obtain ⟨rebuilt, promoted, h1, h2, h3⟩ := ih _ _ _ _ h
          have hchild := hrec _ _ _ _ hp
          refine ⟨RawSelection.mk sel.Name sel.Alias sel.Args (some child.SelectionSet) ::
              rebuilt,
            child.After.map (Plan.appendStep ⟨.KindField, sel.Alias⟩) ++ promoted,
            by simp [h1], by simp [h2], ?_⟩
          intro c hc
          rcases List.mem_append.1 hc with hc | hc
          · obtain ⟨c0, hc0, rfl⟩ := List.mem_map.1 hc
            refine ⟨⟨_, List.mem_cons_self _ _, child.SelectionSet, c0.Path.reverse, rfl, ?_,
              hchild child (Plan.self_mem_nodes child) c0 hc0⟩,
              Plan.allRouted_appendStep _ _ (Plan.allRouted_child child c0 hchild hc0)⟩
            simp [Plan.appendStep]
          · obtain ⟨⟨s0, hs0, hr⟩, hn⟩ := h3 c hc
            exact ⟨⟨s0, List.mem_cons_of_mem _ hs0, hr⟩, hn⟩

theorem planBuckets_routes
    (rec : Typ → RawSelectionSet → String → Except Err Plan) (typ : Ref) (b : Buckets)
    (hrec : ∀ t ss s p, rec t ss s = .ok p → ∀ n ∈ p.nodes, n.Routed) :
    ∀ (others : List String) (after after1 : List Plan),
      planBuckets rec typ b others after = .ok after1 →
      ∃ plans, after1 = after ++ plans ∧ ∀ c ∈ plans, ∀ n ∈ c.nodes, n.Routed := by
  intro others
  induction others with
  | nil =>
    intro after after1 h
    simp [planBuckets] at h
    exact ⟨[], by simp [h], by simp⟩
  | cons other rest ih =>
    intro after after1 h
    simp only [planBuckets] at h
    cases hp : rec (.Object typ) (RawSelectionSet.mk (b.get other) []) other with
    | error err => simp [hp] at h
    | ok sub =>
      simp only [hp] at h
      obtain ⟨plans, h1, h2⟩ := ih _ _ h
      refine ⟨sub :: plans, by simp [h1], ?_⟩
      intro c hc
      rcases List.mem_cons.1 hc with rfl | hc
      · exact hrec _ _ _ _ hp
      · exact h2 c hc

theorem planObjectWith_routed (e : Executor)
    (rec : Typ → RawSelectionSet → String → Except Err Plan) (typ : Ref)
    (selectionSet : RawSelectionSet) (service : String) (p : Plan)
    (hgood : ∀ t ss s p, rec t ss s = .ok p → Good e t s p)
    (hrec : ∀ t ss s p, rec t ss s = .ok p → ∀ n ∈ p.nodes, n.Routed)
    (h : planObjectWith e rec typ selectionSet service = .ok p) :
    ∀ n ∈ p.nodes, n.Routed := by
  obtain ⟨obj, loc, b, sels, promoted, after, ho, -, hpart, hloc, hb, rfl⟩ :=
    planObjectWith_ok e rec typ selectionSet service p h
  obtain ⟨rebuilt, prom, hreb, hprom, hprom2⟩ :=
    planLocalSelections_routes rec obj service hrec _ _ _ _ _ hloc
  obtain ⟨plans, hplans, hserv, hplans2⟩ := planBuckets_after e rec typ b hgood _ _ _ hb
  obtain ⟨plans1, hplans1, hplans3⟩ := planBuckets_routes rec typ b hrec _ _ _ hb
  simp only [List.nil_append] at hreb hprom
  subst hreb
  subst hprom
  have hpl : plans1 = plans := List.append_cancel_left (hplans1.symm.trans hplans)
  subst hpl
  subst hplans
  intro n hn
  rw [Plan.nodes_eq] at hn
  rcases List.mem_cons.1 hn with rfl | hn
  · intro c hc
    rcases List.mem_append.1 hc with hc | hc
    · obtain ⟨⟨sel, hsel, nested, rest, hss, hpath, target, hroute, hkey⟩, -⟩ := hprom2 c hc
      rw [hpath]
      refine ⟨target, Route.field ?_ hss hroute, hkey⟩
      simp only [RawSelectionSet.Selections]
      split
      · exact List.mem_append_left _ hsel
      · exact hsel
    · have hpath : c.Path = [] := (hplans2 c hc).1.1
      have hne : sortStrings b.keys ≠ [] := by
        intro h0
        rw [h0] at hserv
        rw [List.map_eq_nil_iff] at hserv
        rw [hserv] at hc
        cases hc
      have hempty : (sortStrings b.keys).isEmpty = false := by
        cases hs : sortStrings b.keys with
        | nil => exact absurd hs hne
        | cons _ _ => rfl
      rw [hpath]
      refine ⟨_, Route.done _, ?_⟩
      simp only [HasKey, RawSelectionSet.Selections, hempty, Bool.not_false, Bool.true_and]
      cases hany : sels.any isFederationKey with
      | true =>
        simp only [Bool.not_true]
        obtain ⟨s, hs, hk⟩ := List.any_eq_true.1 hany
        exact ⟨s, hs, (isFederationKey_iff s).1 hk⟩
      | false =>
        simp only [Bool.not_false, if_true]
        exact ⟨federationKey, by simp, rfl, rfl⟩
  · obtain ⟨c, hc, hn⟩ := (Plan.mem_nodesAll _ _).1 hn
    rcases List.mem_append.1 hc with hc | hc
    · exact (hprom2 c hc).2 n hn
    · exact hplans3 c hc n hn

theorem planFragments_routes (e : Executor)
    (rec : Typ → RawSelectionSet → String → Except Err Plan) (typ : Ref) (service : String)
    (hrec : ∀ t ss s p, rec t ss s = .ok p → ∀ n ∈ p.nodes, n.Routed) :
    ∀ (fragments : List RawFragment) (seen : List String) (frags : List RawFragment)
      (after : List Plan) (frags1 : List RawFragment) (after1 : List Plan),
      planFragments e rec typ service fragments seen frags after = .ok (frags1, after1) →
      ∃ outs promoted, frags1 = frags ++ outs ∧ after1 = after ++ promoted ∧
        ∀ c ∈ promoted,
          (∃ fragment ∈ outs, ∃ rest, c.Path.reverse = ⟨.KindType, fragment.On⟩ :: rest ∧
            RouteToKey fragment.SelectionSet rest) ∧
          ∀ n ∈ c.nodes, n.Routed := by
  intro fragments
  induction fragments with
  | nil =>
    intro seen frags after frags1 after1 h
    simp [planFragments] at h
    exact ⟨[], [], by simp [h.1], by simp [h.2], by simp⟩
  | cons f rest ih =>
    intro seen frags after frags1 after1 h
    simp only [planFragments] at h
    split at h
    · simp at h
    · split at h
      · simp at h
      · split at h
        · simp at h
        · split at h
          · simp at h
          · rename_i child hp
            split at h
            · simp at h
            · rename_i obj ho
              obtain ⟨outs, promoted, h1, h2, h3⟩ := ih _ _ _ _ _ h
              have hchild := hrec _ _ _ _ hp
              refine ⟨RawFragment.mk obj.Name child.SelectionSet :: outs,
                child.After.map (Plan.appendStep ⟨.KindType, obj.Name⟩) ++ promoted,
                by simp [h1], by simp [h2], ?_⟩
              intro c hc
              rcases List.mem_append.1 hc with hc | hc
              · obtain ⟨c0, hc0, rfl⟩ := List.mem_map.1 hc
                refine ⟨⟨_, List.mem_cons_self _ _, c0.Path.reverse, ?_,
                  hchild child (Plan.self_mem_nodes child) c0 hc0⟩,
                  Plan.allRouted_appendStep _ _ (Plan.allRouted_child child c0 hchild hc0)⟩
                simp [Plan.appendStep, RawFragment.On]
              · obtain ⟨⟨f0, hf0, hr⟩, hn⟩ := h3 c hc
                exact ⟨⟨f0, List.mem_cons_of_mem _ hf0, hr⟩, hn⟩

theorem planUnionWith_routed (e : Executor)
    (rec : Typ → RawSelectionSet → String → Except Err Plan) (typ : Ref)
    (selectionSet : RawSelectionSet) (service : String) (p : Plan)
    (hrec : ∀ t ss s p, rec t ss s = .ok p → ∀ n ∈ p.nodes, n.Routed)
    (h : planUnionWith e rec typ selectionSet service = .ok p) :
    ∀ n ∈ p.nodes, n.Routed := by
  obtain ⟨sels, frags, after, -, hf, rfl⟩ := planUnionWith_ok e rec typ selectionSet service p h
  obtain ⟨outs, promoted, hfr, hprom, hprom2⟩ :=
    planFragments_routes e rec typ service hrec _ _ _ _ _ _ hf
  simp only [List.nil_append] at hfr hprom
  subst hfr
  subst hprom
  intro n hn
  rw [Plan.nodes_eq] at hn
  rcases List.mem_cons.1 hn with rfl | hn
  · intro c hc
    obtain ⟨⟨fragment, hfrag, rest, hpath, target, hroute, hkey⟩, -⟩ := hprom2 c hc
    rw [hpath]
    exact ⟨target, Route.type hfrag hroute, hkey⟩
  · obtain ⟨c, hc, hn⟩ := (Plan.mem_nodesAll _ _).1 hn
    exact (hprom2 c hc).2 n hn

theorem plan_routed (e : Executor) :
    ∀ (fuel : Nat) (t : Typ) (ss : RawSelectionSet) (s : String) (p : Plan),
      plan e fuel t ss s = .ok p → ∀ n ∈ p.nodes, n.Routed := by
  intro fuel
  induction fuel with
  | zero =>
    intro t ss s p h
    simp [plan] at h
  | succ fuel ih =>
    intro t ss s p h
    cases t with
    | NonNull inner => exact ih _ _ _ _ (by simpa [plan] using h)
    | List inner => exact ih _ _ _ _ (by simpa [plan] using h)
    | Object r =>
      simp only [plan] at h
      exact planObjectWith_routed e _ r ss s p (plan_good e fuel) ih h
    | Union r =>
      simp only [plan] at h
      exact planUnionWith_routed e _ r ss s p ih h
    | Other => simp [plan] at h

theorem allRouted_setMutation (p : Plan) (h : ∀ n ∈ p.nodes, n.Routed) :
    ∀ n ∈ ({ p with After := p.After.map Plan.setMutation } : Plan).nodes, n.Routed := by
  intro n hn
  rw [Plan.nodes_eq] at hn
  rcases List.mem_cons.1 hn with rfl | hn
  · intro c hc
    obtain ⟨c0, hc0, rfl⟩ := List.mem_map.1 hc
    exact h p (Plan.self_mem_nodes p) c0 hc0
  · obtain ⟨c, hc, hn⟩ := (Plan.mem_nodesAll _ _).1 hn
    obtain ⟨c0, hc0, rfl⟩ := List.mem_map.1 hc
    rw [Plan.nodes_eq] at hn
    rcases List.mem_cons.1 hn with rfl | hn
    · exact h c0 (Plan.child_mem_nodes p c0 hc0)
    · apply Plan.allRouted_child p c0 h hc0
      rw [Plan.nodes_eq]
      exact List.mem_cons_of_mem _ hn

theorem reversePaths_selectionSet (p : Plan) :
    (reversePaths p).SelectionSet = p.SelectionSet := by
  cases p
  simp [reversePaths]

theorem routes_reversePaths (p : Plan) (h : ∀ n ∈ p.nodes, n.Routed) :
    ∀ n ∈ (reversePaths p).nodes, ∀ c ∈ n.After, RouteToKey n.SelectionSet c.Path := by
  intro n hn c hc
  rw [nodes_reversePaths] at hn
  obtain ⟨n0, hn0, rfl⟩ := List.mem_map.1 hn
  rw [reversePaths_after] at hc
  obtain ⟨c0, hc0, rfl⟩ := List.mem_map.1 hc
  rw [reversePaths_selectionSet, reversePaths_path]
  exact h n0 hn0 c0 hc0

/-- C17: in every plan tree returned by `planRoot`, the path of every `After` entry
of every Plan, read from its first step to its last, can be walked through the
selection set of that Plan (a field step into the nested selection set of a
selection with that alias, a type step into the fragment on that type name) and ends
at a selection set holding a selection with name and alias `__federation`; on the
result of `plan`, before the paths are reversed, the same holds for the reversed
path. -/
theorem paths_route_to_key (e : Executor) (fuel : Nat) :
    (∀ query r, planRoot e fuel query = .ok r →
      ∀ n ∈ r.nodes, ∀ c ∈ n.After, ∃ target, Route n.SelectionSet c.Path target ∧
        ∃ sel ∈ target.Selections, sel.Name = "__federation" ∧ sel.Alias = "__federation") ∧
    (∀ t ss s p, plan e fuel t ss s = .ok p →
      ∀ n ∈ p.nodes, ∀ c ∈ n.After, ∃ target, Route n.SelectionSet c.Path.reverse target ∧
        ∃ sel ∈ target.Selections, sel.Name = "__federation" ∧ sel.Alias = "__federation") := by
  constructor
  · intro query r h
    obtain ⟨root, flattened, p, -, -, hp, hr⟩ := planRoot_ok e fuel query r h
    have hrouted := plan_routed e fuel root flattened sentinel p hp
    rcases hr with ⟨-, -, rfl⟩ | ⟨-, rfl⟩
    · exact routes_reversePaths _ (allRouted_setMutation p hrouted)
    · exact routes_reversePaths _ hrouted
  · intro t ss s p h n hn c hc
    exact plan_routed e fuel t ss s p h n hn c hc

/-- The tree planned for `{a{x}, b{y}}` on `fanShop`, through `paths_route_to_key`:
the path `[field a]` of the entry on service `z` leads from the selection set of the
Plan on `s` to `{__federation}`. -/
theorem paths_route_to_key_witness :
    ∃ target, Route fanPlanS.SelectionSet [⟨.KindField, "a"⟩] target ∧
      ∃ sel ∈ target.Selections, sel.Name = "__federation" ∧ sel.Alias = "__federation" :=
  (paths_route_to_key fanShop 4).1 ⟨"query", fanSelections⟩ fanPlanRoot rfl fanPlanS
    (Plan.child_mem_nodes fanPlanRoot fanPlanS (by simp [fanPlanRoot]))
    { fanPlanZ with Path := [⟨.KindField, "a"⟩] } (by simp [fanPlanS])

/-! ### Selections at any depth -/

theorem mem_all_mk (sels : List RawSelection) (frags : List RawFragment) (x : RawSelection) :
    x ∈ (RawSelectionSet.mk sels frags).all ↔
      x ∈ RawSelection.allOfList sels ∨ x ∈ RawFragment.allOfList frags := by
  simp [RawSelectionSet.all]

theorem mem_selection_all (sel x : RawSelection) :
    x ∈ sel.all ↔ x = sel ∨ ∃ nested, sel.SelectionSet = some nested ∧ x ∈ nested.all := by
  cases sel with
  | mk n a args o =>
    cases o with
    | none => simp [RawSelection.all]
    | some ss => simp [RawSelection.all]

theorem mem_allOfList (sels : List RawSelection) (x : RawSelection) :
    x ∈ RawSelection.allOfList sels ↔ ∃ sel ∈ sels, x ∈ sel.all := by
  induction sels with
  | nil => simp [RawSelection.allOfList]
  | cons s rest ih => simp [RawSelection.allOfList, ih]

theorem mem_fragment_allOfList (frags : List RawFragment) (x : RawSelection) :
    x ∈ RawFragment.allOfList frags ↔ ∃ f ∈ frags, x ∈ f.SelectionSet.all := by
  induction frags with
  | nil => simp [RawFragment.allOfList]
  | cons f rest ih =>
    cases f with
    | mk target ss => simp [RawFragment.allOfList, ih, RawFragment.SelectionSet]

theorem allOfList_append (a b : List RawSelection) :
    RawSelection.allOfList (a ++ b) = RawSelection.allOfList a ++ RawSelection.allOfList b := by
  induction a with
  | nil => simp [RawSelection.allOfList]
  | cons s rest ih => simp [RawSelection.allOfList, ih]

theorem mem_all_of_selection (ss : RawSelectionSet) (sel : RawSelection)
    (h : sel ∈ ss.Selections) : sel ∈ ss.all := by
  cases ss with
  | mk sels frags =>
    rw [mem_all_mk]
    exact Or.inl ((mem_allOfList sels sel).2 ⟨sel, h, (mem_selection_all sel sel).2 (Or.inl rfl)⟩)

theorem mem_all_of_nested (ss nested : RawSelectionSet) (sel x : RawSelection)
    (h : sel ∈ ss.Selections) (hn : sel.SelectionSet = some nested) (hx : x ∈ nested.all) :
    x ∈ ss.all := by
  cases ss with
  | mk sels frags =>
    rw [mem_all_mk]
    exact Or.inl ((mem_allOfList sels x).2
      ⟨sel, h, (mem_selection_all sel x).2 (Or.inr ⟨nested, hn, hx⟩)⟩)

theorem mem_all_of_fragment (ss : RawSelectionSet) (f : RawFragment) (x : RawSelection)
    (h : f ∈ ss.Fragments) (hx : x ∈ f.SelectionSet.all) : x ∈ ss.all := by
  cases ss with
  | mk sels frags =>
    rw [mem_all_mk]
    exact Or.inr ((mem_fragment_allOfList frags x).2 ⟨f, h, hx⟩)

theorem LeafTypename.nested (ss nested : RawSelectionSet) (sel : RawSelection)
    (h : LeafTypename ss) (hsel : sel ∈ ss.Selections) (hn : sel.SelectionSet = some nested) :
    LeafTypename nested :=
  fun x hx => h x (mem_all_of_nested ss nested sel x hsel hn hx)

theorem LeafTypename.fragment (ss : RawSelectionSet) (f : RawFragment)
    (h : LeafTypename ss) (hf : f ∈ ss.Fragments) : LeafTypename f.SelectionSet :=
  fun x hx => h x (mem_all_of_fragment ss f x hf hx)

theorem LeafTypename.sublist (sels sub : List RawSelection)
    (h : LeafTypename (RawSelectionSet.mk sels [])) (hsub : ∀ sel ∈ sub, sel ∈ sels) :
    LeafTypename (RawSelectionSet.mk sub []) := by
  intro x hx
  apply h
  rw [mem_all_mk] at hx ⊢
  rcases hx with hx | hx
  · obtain ⟨sel, hsel, hxs⟩ := (mem_allOfList sub x).1 hx
    exact Or.inl ((mem_allOfList sels x).2 ⟨sel, hsub sel hsel, hxs⟩)
  · simp [RawFragment.allOfList] at hx

/-! ### No Plan asks its service for a field it cannot resolve -/

theorem eligibleField_of_isLocal (e : Executor) (typ : Ref) (obj : Object) (service : String)
    (ho : e.objects typ = some obj) (sel : RawSelection)
    (hn : sel.Name ≠ "__typename") (h : isLocal e obj service sel = true) :
    EligibleField e service typ sel.Name := by
  unfold isLocal at h
  simp only [hn, if_false] at h
  cases hf : obj.Fields sel.Name with
  | none => simp [hf] at h
  | some field =>
    simp only [hf] at h
    cases hi : e.schema.Fields field with
    | none => simp [hi] at h
    | some info =>
      simp only [hi] at h
      exact ⟨obj, field, info, ho, hf, hi, h⟩

theorem ServedNode.appendStep (e : Executor) (step : PathStep) (c : Plan)
    (h : ∀ n ∈ c.nodes, n.ServedNode e) :
    ∀ n ∈ (Plan.appendStep step c).nodes, n.ServedNode e := by
  intro n hn
  rw [Plan.nodes_eq] at hn
  rcases List.mem_cons.1 hn with rfl | hn
  · exact h c (Plan.self_mem_nodes c)
  · apply h
    rw [Plan.nodes_eq]
    exact List.mem_cons_of_mem _ hn

theorem planLocalSelections_servable (e : Executor)
    (rec : Typ → RawSelectionSet → String → Except Err Plan) (typ : Ref) (obj : Object)
    (service : String) (ho : e.objects typ = some obj)
    (hrec : ∀ t ss s p, rec t ss s = .ok p → LeafTypename ss → Served e t s p) :
    ∀ (loc sels : List RawSelection) (after : List Plan) (sels1 : List RawSelection)
      (after1 : List Plan),
      (∀ sel ∈ loc, isLocal e obj service sel = true) →
      (∀ sel ∈ loc, sel.Name = "__typename" → sel.SelectionSet = none) →
      (∀ sel ∈ loc, ∀ nested, sel.SelectionSet = some nested → LeafTypename nested) →
      planLocalSelections rec obj service loc sels after = .ok (sels1, after1) →
      ∃ rebuilt promoted, sels1 = sels ++ rebuilt ∧ after1 = after ++ promoted ∧
        (∀ x ∈ rebuilt, (x.Name = "__typename" ∧ x.SelectionSet = none) ∨
          EligibleField e service typ x.Name) ∧
        (∀ x ∈ rebuilt, ∀ nested, x.SelectionSet = some nested →
          Servable e service (fieldType e typ x.Name) nested) ∧
        ∀ c ∈ promoted, ∀ n ∈ c.nodes, n.ServedNode e := by
  intro loc
  induction loc with
  | nil =>
    intro sels after sels1 after1 _ _ _ h
    simp [planLocalSelections] at h
    exact ⟨[], [], by simp [h.1], by simp [h.2], by simp, by simp, by simp⟩
  | cons sel rest ih =>
    intro sels after sels1 after1 hlocal htn hleaf h
    have hlocal1 := fun s hs => hlocal s (List.mem_cons_of_mem _ hs)
    have htn1 := fun s hs => htn s (List.mem_cons_of_mem _ hs)
    have hleaf1 := fun s hs => hleaf s (List.mem_cons_of_mem _ hs)
    have hsl := hlocal sel (by simp)
    simp only [planLocalSelections] at h
    cases hss : sel.SelectionSet with
    | none =>
      simp only [hss] at h
      obtain ⟨rebuilt, promoted, h1, h2, h3, h4, h5⟩ := ih _ _ _ _ hlocal1 htn1 hleaf1 h
      refine ⟨RawSelection.mk sel.Name sel.Alias sel.Args none :: rebuilt, promoted,
        by simp [h1], h2, ?_, ?_, h5⟩
      · intro x hx
        rcases List.mem_cons.1 hx with rfl | hx
        · by_cases hn : sel.Name = "__typename"
          · exact Or.inl ⟨hn, rfl⟩
          · exact Or.inr (eligibleField_of_isLocal e typ obj service ho sel hn hsl)
        · exact h3 x hx
      · intro x hx nested hnested
        rcases List.mem_cons.1 hx with rfl | hx
        · cases hnested
        · exact h4 x hx nested hnested
    | some ss =>
      simp only [hss] at h
      have hn : sel.Name ≠ "__typename" := by
        intro hn
        have := htn sel (by simp) hn
        rw [hss] at this
        cases this
      cases hf : obj.Fields sel.Name with
      | none => simp [hf] at h
      | some field =>
        simp only [hf] at h
        cases hp : rec field.Typ ss service with
        | error err => simp [hp] at h
        | ok child =>
          simp only [hp] at h
          obtain ⟨rebuilt, promoted, h1, h2, h3, h4, h5⟩ :=
            ih _ _ _ _ hlocal1 htn1 hleaf1 h
          obtain ⟨hc1, hc2⟩ := hrec _ _ _ _ hp (hleaf sel (by simp) ss hss)
          refine ⟨RawSelection.mk sel.Name sel.Alias sel.Args (some child.SelectionSet) ::
              rebuilt,
            child.After.map (Plan.appendStep ⟨.KindField, sel.Alias⟩) ++ promoted,
            by simp [h1], by simp [h2], ?_, ?_, ?_⟩
          · intro x hx
            rcases List.mem_cons.1 hx with rfl | hx
            · exact Or.inr (eligibleField_of_isLocal e typ obj service ho sel hn hsl)
            · exact h3 x hx
          · intro x hx nested hnested
            rcases List.mem_cons.1 hx with rfl | hx
            · simp only [selection_selectionSet_mk, Option.some.injEq] at hnested
              subst hnested
              simp only [selection_name_mk, fieldType, ho, hf]
              exact hc1
            · exact h4 x hx nested hnested
          · intro c hc
            rcases List.mem_append.1 hc with hc | hc
            · obtain ⟨c0, hc0, rfl⟩ := List.mem_map.1 hc
              exact ServedNode.appendStep e _ c0 (hc2 c0 hc0)
            · exact h5 c hc

theorem planObjectWith_servable (e : Executor)
    (rec : Typ → RawSelectionSet → String → Except Err Plan) (typ : Ref)
    (selectionSet : RawSelectionSet) (service : String) (p : Plan)
    (hgood : ∀ t ss s p, rec t ss s = .ok p → Good e t s p)
    (hrec : ∀ t ss s p, rec t ss s = .ok p → LeafTypename ss → Served e t s p)
    (hleaf : LeafTypename selectionSet)
    (h : planObjectWith e rec typ selectionSet service = .ok p) :
    Served e (.Object typ) service p := by
  obtain ⟨obj, loc, b, sels, promoted, after, ho, -, hpart, hloc, hb, rfl⟩ :=
    planObjectWith_ok e rec typ selectionSet service p h
  obtain ⟨hlocEq, -, -, hget⟩ := partitionSelections_spec e obj service _ _ _ _ _ hpart
  simp only [List.nil_append] at hlocEq
  obtain ⟨rebuilt, prom, hreb, hprom, hel, hnest, hprom2⟩ :=
    planLocalSelections_servable e rec typ obj service ho hrec loc [] [] sels promoted
      (by
        intro sel hsel
        rw [hlocEq, List.mem_filter] at hsel
        exact hsel.2)
      (by
        intro sel hsel hn
        rw [hlocEq, List.mem_filter] at hsel
        exact hleaf sel (mem_all_of_selection selectionSet sel hsel.1) hn)
      (by
        intro sel hsel nested hn
        rw [hlocEq, List.mem_filter] at hsel
        exact LeafTypename.nested selectionSet nested sel hleaf hsel.1 hn)
      hloc
  obtain ⟨plans, hplans, -, hplans2⟩ := planBuckets_after e rec typ b hgood _ _ _ hb
  simp only [List.nil_append] at hreb hprom
  subst hreb
  subst hprom
  subst hplans
  constructor
  · refine Servable.object ho ?_ ?_
    · intro x hx
      split at hx
      · rcases List.mem_append.1 hx with hx | hx
        · rcases hel x hx with h1 | h1
          · exact Or.inl h1
          · exact Or.inr (Or.inr h1)
        · simp only [List.mem_singleton] at hx
          exact Or.inr (Or.inl hx)
      · rcases hel x hx with h1 | h1
        · exact Or.inl h1
        · exact Or.inr (Or.inr h1)
    · intro x hx nested hnested
      split at hx
      · rcases List.mem_append.1 hx with hx | hx
        · exact hnest x hx nested hnested
        · simp only [List.mem_singleton] at hx
          subst hx
          cases hnested
      · exact hnest x hx nested hnested
  · intro c hc
    rcases List.mem_append.1 hc with hc | hc
    · exact hprom2 c hc
    · obtain ⟨hgoodc, other, -, hrecc⟩ := hplans2 c hc
      obtain ⟨hs, obj1, ho1, htn⟩ := (hgood _ _ _ _ hrecc).2.1 typ rfl
      have hleafb : LeafTypename (RawSelectionSet.mk (b.get other) []) := by
        cases hss : selectionSet with
        | mk sels0 frags0 =>
          rw [hss] at hleaf hget
          have hsub : ∀ sel ∈ b.get other, sel ∈ sels0 := by
            intro sel hsel
            rw [hget other] at hsel
            simp only [Buckets.get, List.nil_append, List.mem_filter,
              RawSelectionSet.Selections] at hsel
            exact hsel.1
          intro x hx
          apply hleaf
          rw [mem_all_mk] at hx ⊢
          rcases hx with hx | hx
          · obtain ⟨sel, hsel, hxs⟩ := (mem_allOfList _ x).1 hx
            exact Or.inl ((mem_allOfList sels0 x).2 ⟨sel, hsub sel hsel, hxs⟩)
          · simp [RawFragment.allOfList] at hx
      obtain ⟨hs1, hs2⟩ := hrec _ _ _ _ hrecc hleafb
      intro n hn
      rw [Plan.nodes_eq] at hn
      rcases List.mem_cons.1 hn with rfl | hn
      · refine ⟨typ, obj1, ho1, htn.symm, ?_⟩
        rw [hs]
        exact hs1
      · obtain ⟨c1, hc1, hn1⟩ := (Plan.mem_nodesAll _ _).1 hn
        exact hs2 c1 hc1 n hn1

theorem unionSelections_ok (sels acc out : List RawSelection)
    (h : unionSelections sels acc = .ok out) :
    out = acc ++ sels ∧ ∀ sel ∈ sels, sel.Name = "__typename" := by
  induction sels generalizing acc with
  | nil =>
    simp [unionSelections] at h
    simp [h]
  | cons s rest ih =>
    simp only [unionSelections] at h
    by_cases hn : s.Name = "__typename"
    · simp only [hn, ne_eq, not_true_eq_false, if_false] at h
      obtain ⟨h1, h2⟩ := ih _ h
      refine ⟨by simp [h1], ?_⟩
      intro sel hsel
      rcases List.mem_cons.1 hsel with rfl | hsel
      · exact hn
      · exact h2 sel hsel
    · simp [hn] at h

theorem planFragments_servable (e : Executor)
    (rec : Typ → RawSelectionSet → String → Except Err Plan) (typ : Ref) (service : String)
    (hrec : ∀ t ss s p, rec t ss s = .ok p → LeafTypename ss → Served e t s p) :
    ∀ (fragments : List RawFragment) (seen : List String) (frags : List RawFragment)
      (after : List Plan) (frags1 : List RawFragment) (after1 : List Plan),
      (∀ f ∈ fragments, LeafTypename f.SelectionSet) →
      planFragments e rec typ service fragments seen frags after = .ok (frags1, after1) →
      ∃ outs promoted, frags1 = frags ++ outs ∧ after1 = after ++ promoted ∧
        (∀ f ∈ outs, ServableFragment e service typ f) ∧
        ∀ c ∈ promoted, ∀ n ∈ c.nodes, n.ServedNode e := by
  intro fragments
  induction fragments with
  | nil =>
    intro seen frags after frags1 after1 _ h
    simp [planFragments] at h
    exact ⟨[], [], by simp [h.1], by simp [h.2], by simp, by simp⟩
  | cons f rest ih =>
    intro seen frags after frags1 after1 hleaf h
    have hleaf1 := fun g hg => hleaf g (List.mem_cons_of_mem _ hg)
    simp only [planFragments] at h
    split at h
    · simp at h
    · split at h
      · simp at h
      · rename_i u hu
        split at h
        · simp at h
        · rename_i objRef hmem
          split at h
          · simp at h
          · rename_i child hp
            split at h
            · simp at h
            · rename_i obj ho
              obtain ⟨outs, promoted, h1, h2, h3, h4⟩ := ih _ _ _ _ _ hleaf1 h
              obtain ⟨hc1, hc2⟩ := hrec _ _ _ _ hp (hleaf f (by simp))
              refine ⟨RawFragment.mk obj.Name child.SelectionSet :: outs,
                child.After.map (Plan.appendStep ⟨.KindType, obj.Name⟩) ++ promoted,
                by simp [h1], by simp [h2], ?_, ?_⟩
              · intro g hg
                rcases List.mem_cons.1 hg with rfl | hg
                · exact ServableFragment.member hu hmem ho rfl hc1
                · exact h3 g hg
              · intro c hc
                rcases List.mem_append.1 hc with hc | hc
                · obtain ⟨c0, hc0, rfl⟩ := List.mem_map.1 hc
                  exact ServedNode.appendStep e _ c0 (hc2 c0 hc0)
                · exact h4 c hc

theorem planUnionWith_servable (e : Executor)
    (rec : Typ → RawSelectionSet → String → Except Err Plan) (typ : Ref)
    (selectionSet : RawSelectionSet) (service : String) (p : Plan)
    (hrec : ∀ t ss s p, rec t ss s = .ok p → LeafTypename ss → Served e t s p)
    (hleaf : LeafTypename selectionSet)
    (h : planUnionWith e rec typ selectionSet service = .ok p) :
    Served e (.Union typ) service p := by
  obtain ⟨sels, frags, after, hs, hf, rfl⟩ := planUnionWith_ok e rec typ selectionSet service p h
  obtain ⟨hsEq, hnames⟩ := unionSelections_ok _ _ _ hs
  obtain ⟨outs, promoted, hfr, hprom, hel, hprom2⟩ :=
    planFragments_servable e rec typ service hrec _ _ _ _ _ _
      (fun f hf => LeafTypename.fragment selectionSet f hleaf hf) hf
  simp only [List.nil_append] at hfr hprom
  subst hfr
  subst hprom
  subst hsEq
  constructor
  · refine Servable.union ?_ hel
    intro sel hsel
    rcases List.mem_append.1 hsel with hsel | hsel
    · simp only [List.mem_singleton] at hsel
      subst hsel
      exact ⟨rfl, rfl⟩
    · have hn := hnames sel hsel
      exact ⟨hn, hleaf sel (mem_all_of_selection selectionSet sel hsel) hn⟩
  · exact hprom2

theorem plan_servable (e : Executor) :
    ∀ (fuel : Nat) (t : Typ) (ss : RawSelectionSet) (s : String) (p : Plan),
      plan e fuel t ss s = .ok p → LeafTypename ss → Served e t s p := by
  intro fuel
  induction fuel with
  | zero =>
    intro t ss s p h
    simp [plan] at h
  | succ fuel ih =>
    intro t ss s p h hleaf
    cases t with
    | NonNull inner =>
      obtain ⟨h1, h2⟩ := ih _ _ _ _ (by simpa [plan] using h) hleaf
      exact ⟨Servable.nonNull h1, h2⟩
    | List inner =>
      obtain ⟨h1, h2⟩ := ih _ _ _ _ (by simpa [plan] using h) hleaf
      exact ⟨Servable.list h1, h2⟩
    | Object r =>
      simp only [plan] at h
      exact planObjectWith_servable e _ r ss s p (plan_good e fuel) ih hleaf h
    | Union r =>
      simp only [plan] at h
      exact planUnionWith_servable e _ r ss s p ih hleaf h
    | Other => simp [plan] at h

/-- Servability is typed: on `fanShop` the selection set `{x}` is not servable by `s`
on the object `A`, whose field `x` is eligible on `z` only, whatever other object has
a field of that name. -/
theorem servable_is_typed :
    ¬ Servable fanShop "s" (.Object 1) (RawSelectionSet.mk [leaf "x"] []) := by
  intro h
  cases h with
  | object ho hsel hnest =>
    rcases hsel (leaf "x") (by simp) with h1 | h1 | ⟨obj, field, info, h2, h3, h4, h5⟩
    · exact absurd h1.1 (by decide)
    · simp [leaf, federationKey] at h1
    · simp only [fanShop] at h2
      simp only [show ¬ ((1 : Nat) = 0) by decide, if_false, if_true, Option.some.injEq] at h2
      subst h2
      simp [mapOf, leaf] at h3
      subst h3
      simp only [fanShop] at h4
      simp at h4
      subst h4
      simp [ownedBy] at h5

/-- C19 (amended): in a tree produced by `plan` on an object type, for a query in
which `__typename` is selected as a leaf at every depth, the root Plan is on the
service planned for and its selection set is servable by it on the object planned,
and every Plan, the entries reachable through `After` included, is for an object of
the schema, named by its `Type`, with a selection set servable by its service on that
object: at every depth, fragments included, a selection is `__typename` selected as a
leaf, or the synthetic `__federation` key, or names a field of the very object it is
selected on whose eligible services include the service of the Plan, nested selection
sets being typed by the field they sit under and fragments by a member of the
union. -/
theorem plans_ask_servable_fields (e : Executor) (fuel : Nat) (typ : Ref)
    (selectionSet : RawSelectionSet) (service : String) (p : Plan)
    (hleaf : LeafTypename selectionSet)
    (h : plan e fuel (.Object typ) selectionSet service = .ok p) :
    (p.Service = service ∧ Servable e service (.Object typ) p.SelectionSet) ∧
    ∀ n ∈ p.nodes, ∃ r obj, e.objects r = some obj ∧ obj.Name = n.TypeName ∧
      Servable e n.Service (.Object r) n.SelectionSet := by
  obtain ⟨h1, h2⟩ := plan_servable e fuel _ _ _ p h hleaf
  obtain ⟨hs, obj, ho, htn⟩ := (plan_good e fuel _ _ _ p h).2.1 typ rfl
  refine ⟨⟨hs, h1⟩, ?_⟩
  intro n hn
  rw [Plan.nodes_eq] at hn
  rcases List.mem_cons.1 hn with rfl | hn
  · refine ⟨typ, obj, ho, htn.symm, ?_⟩
    rw [hs]
    exact h1
  · obtain ⟨c, hc, hn1⟩ := (Plan.mem_nodesAll _ _).1 hn
    exact h2 c hc n hn1

/-- The Plan on service `s` in the tree planned for `{a{x}, b{y}}` on `fanShop`, through
`plans_ask_servable_fields`: its selections `a` and `b` name fields of `Query`
eligible on `s`, each carrying the key of the object it leads to. -/
theorem plans_ask_servable_fields_witness :
    plan fanShop 4 (.Object 0) fanSelections sentinel = .ok fanPlanRoot ∧
    ∃ r obj, fanShop.objects r = some obj ∧ obj.Name = fanPlanS.TypeName ∧
      Servable fanShop fanPlanS.Service (.Object r) fanPlanS.SelectionSet :=
  ⟨rfl, (plans_ask_servable_fields fanShop 4 0 fanSelections sentinel fanPlanRoot
    (by
      intro sel hsel hn
      simp [fanSelections, RawSelectionSet.all, RawSelection.allOfList, RawSelection.all,
        RawFragment.allOfList, node, leaf] at hsel
      rcases hsel with rfl | rfl | rfl | rfl <;> exact absurd hn (by decide))
    rfl).2 fanPlanS (Plan.child_mem_nodes fanPlanRoot fanPlanS (by simp [fanPlanRoot]))⟩
/-! ### Conservation of selections -/

theorem countLabel_append (l : Label) (a b : List RawSelection) :
    countLabel l (a ++ b) = countLabel l a + countLabel l b := by
  simp [countLabel, List.countP_append]

theorem Plan.labelTotal_eq (l : Label) (p : Plan) :
    p.labelTotal l = p.SelectionSet.labelCount l + Plan.labelTotalAll l p.After := by
  simp [Plan.labelTotal, Plan.labelTotalAll, Plan.nodes_eq]

theorem Plan.labelTotalAll_cons (l : Label) (c : Plan)
    (ps : List Plan) :
    Plan.labelTotalAll l (c :: ps) = c.labelTotal l + Plan.labelTotalAll l ps := by
  simp [Plan.labelTotal, Plan.labelTotalAll, Plan.nodesAll]

theorem Plan.labelTotalAll_append (l : Label) (a b : List Plan) :
    Plan.labelTotalAll l (a ++ b) = Plan.labelTotalAll l a + Plan.labelTotalAll l b := by
  induction a with
  | nil => simp [Plan.labelTotalAll, Plan.nodesAll]
  | cons c rest ih =>
    rw [List.cons_append, Plan.labelTotalAll_cons, Plan.labelTotalAll_cons, ih, Nat.add_assoc]

theorem Plan.labelTotal_appendStep (l : Label) (step : PathStep)
    (c : Plan) : (Plan.appendStep step c).labelTotal l = c.labelTotal l := by
  rw [Plan.labelTotal_eq, Plan.labelTotal_eq]
  rfl

theorem Plan.labelTotalAll_map_appendStep (l : Label)
    (step : PathStep) (ps : List Plan) :
    Plan.labelTotalAll l (ps.map (Plan.appendStep step)) = Plan.labelTotalAll l ps := by
  induction ps with
  | nil => rfl
  | cons c rest ih =>
    rw [List.map_cons, Plan.labelTotalAll_cons, Plan.labelTotalAll_cons, ih,
      Plan.labelTotal_appendStep]

theorem Buckets.labelWeight_add (l : Label) (b : Buckets)
    (k : String) (sel : RawSelection) :
    (b.add k sel).labelWeight l = b.labelWeight l + countLabel l sel.all := by
  induction b with
  | nil => simp [Buckets.add, Buckets.labelWeight, RawSelection.allOfList]
  | cons kv rest ih =>
    obtain ⟨k1, v1⟩ := kv
    by_cases h : k1 = k
    · simp only [Buckets.add, h, if_true, Buckets.labelWeight, List.map_cons, List.sum_cons,
        allOfList_append, countLabel_append, RawSelection.allOfList, List.append_nil]
      omega
    · simp only [Buckets.labelWeight] at ih
      simp only [Buckets.add, h, if_false, Buckets.labelWeight, List.map_cons, List.sum_cons,
        ih]
      omega

theorem partitionSelections_labelWeight (l : Label) (e : Executor)
    (typ : Object) (service : String) :
    ∀ (sels loc : List RawSelection) (b : Buckets) (loc1 : List RawSelection) (b1 : Buckets),
      partitionSelections e typ service sels loc b = .ok (loc1, b1) →
      countLabel l (RawSelection.allOfList loc1) + b1.labelWeight l =
        countLabel l (RawSelection.allOfList loc) + b.labelWeight l +
          countLabel l (RawSelection.allOfList sels) := by
  intro sels
  induction sels with
  | nil =>
    intro loc b loc1 b1 h
    simp [partitionSelections] at h
    obtain ⟨rfl, rfl⟩ := h
    simp [RawSelection.allOfList, countLabel]
  | cons sel rest ih =>
    intro loc b loc1 b1 h
    simp only [partitionSelections] at h
    have hcons : countLabel l (RawSelection.allOfList (sel :: rest)) =
        countLabel l sel.all + countLabel l (RawSelection.allOfList rest) := by
      simp [RawSelection.allOfList, countLabel_append]
    have hsnoc : countLabel l (RawSelection.allOfList (loc ++ [sel])) =
        countLabel l (RawSelection.allOfList loc) + countLabel l sel.all := by
      simp [allOfList_append, RawSelection.allOfList, countLabel_append]
    split at h
    · have := ih _ _ _ _ h
      rw [hcons]
      rw [hsnoc] at this
      omega
    · split at h
      · simp at h
      · split at h
        · simp at h
        · split at h
          · have := ih _ _ _ _ h
            rw [hcons]
            rw [hsnoc] at this
            omega
          · have := ih _ _ _ _ h
            rw [hcons]
            rw [Buckets.labelWeight_add] at this
            omega

theorem Buckets.sum_get_label (l : Label) (b : Buckets)
    (h : b.keys.Nodup) :
    (b.keys.map (fun k => countLabel l (RawSelection.allOfList (b.get k)))).sum =
      b.labelWeight l := by
  induction b with
  | nil => rfl
  | cons kv rest ih =>
    obtain ⟨k, v⟩ := kv
    simp only [Buckets.keys, List.map_cons, List.nodup_cons] at h
    have ih1 := ih h.2
    simp only [Buckets.keys] at ih1
    simp only [Buckets.keys, List.map_cons, List.sum_cons, Buckets.labelWeight, Buckets.get,
      if_true]
    simp only [Buckets.labelWeight] at ih1
    rw [← ih1]
    congr 1
    apply congrArg
    apply List.map_congr_left
    intro x hx
    have hne : k ≠ x := by
      intro hkx
      rw [hkx] at h
      exact h.1 hx
    simp [hne]

theorem planLocalSelections_conserves (l : Label) (e : Executor)
    (rec : Typ → RawSelectionSet → String → Except Err Plan) (typ : Object) (service : String)
    (hrec : ∀ t ss s p, rec t ss s = .ok p → ObjectsOnly e t ss →
      p.labelTotal l = ss.labelCount l) :
    ∀ (loc sels : List RawSelection) (after : List Plan) (sels1 : List RawSelection)
      (after1 : List Plan),
      (∀ sel ∈ loc, ∀ field nested, typ.Fields sel.Name = some field →
        sel.SelectionSet = some nested → ObjectsOnly e field.Typ nested) →
      planLocalSelections rec typ service loc sels after = .ok (sels1, after1) →
      countLabel l (RawSelection.allOfList sels1) + Plan.labelTotalAll l after1 =
        countLabel l (RawSelection.allOfList sels) + Plan.labelTotalAll l after +
          countLabel l (RawSelection.allOfList loc) := by
  intro loc
  induction loc with
  | nil =>
    intro sels after sels1 after1 _ h
    simp [planLocalSelections] at h
    obtain ⟨rfl, rfl⟩ := h
    simp [RawSelection.allOfList, countLabel]
  | cons sel rest ih =>
    intro sels after sels1 after1 hobj h
    have hobj1 := fun x hx => hobj x (List.mem_cons_of_mem _ hx)
    cases sel with
    | mk n a args o =>
      have hcons : countLabel l (RawSelection.allOfList (RawSelection.mk n a args o :: rest)) =
          countLabel l (RawSelection.mk n a args o).all +
            countLabel l (RawSelection.allOfList rest) := by
        simp [RawSelection.allOfList, countLabel_append]
      cases o with
      | none =>
        simp only [planLocalSelections, selection_selectionSet_mk, selection_name_mk,
          selection_alias_mk, selection_args_mk] at h
        have := ih _ _ _ _ hobj1 h
        rw [allOfList_append, countLabel_append] at this
        rw [hcons]
        simp only [RawSelection.allOfList, List.append_nil] at this
        omega
      | some ss =>
        simp only [planLocalSelections, selection_selectionSet_mk, selection_name_mk,
          selection_alias_mk, selection_args_mk] at h
        cases hf : typ.Fields n with
        | none => simp [hf] at h
        | some field =>
          simp only [hf] at h
          cases hp : rec field.Typ ss service with
          | error err => simp [hp] at h
          | ok child =>
            simp only [hp] at h
            have := ih _ _ _ _ hobj1 h
            have hchild := hrec _ _ _ _ hp
              (hobj _ (List.mem_cons_self _ _) field ss (by simpa using hf) (by simp))
            rw [Plan.labelTotal_eq] at hchild
            rw [allOfList_append, countLabel_append, Plan.labelTotalAll_append,
              Plan.labelTotalAll_map_appendStep] at this
            rw [hcons]
            have h1 : countLabel l (RawSelection.allOfList
                [RawSelection.mk n a args (some child.SelectionSet)]) =
                countLabel l [RawSelection.mk n a args (some child.SelectionSet)] +
                  child.SelectionSet.labelCount l := by
              simp [RawSelection.allOfList, RawSelection.all, countLabel,
                RawSelectionSet.labelCount, List.countP_cons]
              omega
            have h2 : countLabel l (RawSelection.mk n a args (some ss)).all =
                countLabel l [RawSelection.mk n a args (some ss)] + ss.labelCount l := by
              simp [RawSelection.all, countLabel, RawSelectionSet.labelCount, List.countP_cons]
              omega
            have h3 : countLabel l [RawSelection.mk n a args (some child.SelectionSet)] =
                countLabel l [RawSelection.mk n a args (some ss)] := by
              simp [countLabel, List.countP_cons, isFederationKey, RawSelection.label]
            rw [h1] at this
            rw [h2]
            omega

theorem planBuckets_conserves (l : Label) (e : Executor)
    (rec : Typ → RawSelectionSet → String → Except Err Plan) (typ : Ref) (b : Buckets)
    (hrec : ∀ t ss s p, rec t ss s = .ok p → ObjectsOnly e t ss →
      p.labelTotal l = ss.labelCount l)
    (hobj : ∀ k, ObjectsOnly e (.Object typ) (RawSelectionSet.mk (b.get k) [])) :
    ∀ (others : List String) (after after1 : List Plan),
      planBuckets rec typ b others after = .ok after1 →
      Plan.labelTotalAll l after1 = Plan.labelTotalAll l after +
        (others.map (fun k => countLabel l (RawSelection.allOfList (b.get k)))).sum := by
  intro others
  induction others with
  | nil =>
    intro after after1 h
    simp [planBuckets] at h
    simp [h]
  | cons other rest ih =>
    intro after after1 h
    simp only [planBuckets] at h
    cases hp : rec (.Object typ) (RawSelectionSet.mk (b.get other) []) other with
    | error err => simp [hp] at h
    | ok sub =>
      simp only [hp] at h
      have := ih _ _ h
      have hsub := hrec _ _ _ _ hp (hobj other)
      have hcount : (RawSelectionSet.mk (b.get other) []).labelCount l =
          countLabel l (RawSelection.allOfList (b.get other)) := by
        simp [RawSelectionSet.labelCount, RawSelectionSet.all, RawFragment.allOfList]
      rw [Plan.labelTotalAll_append, Plan.labelTotalAll_cons] at this
      simp only [List.map_cons, List.sum_cons]
      have h0 : Plan.labelTotalAll l [] = 0 := rfl
      rw [h0] at this
      omega

theorem planObjectWith_conserves (l : Label) (e : Executor)
    (rec : Typ → RawSelectionSet → String → Except Err Plan) (typ : Ref)
    (selectionSet : RawSelectionSet) (service : String) (p : Plan)
    (hobj : ObjectsOnly e (.Object typ) selectionSet)
    (hrec : ∀ t ss s p, rec t ss s = .ok p → ObjectsOnly e t ss →
      p.labelTotal l = ss.labelCount l)
    (h : planObjectWith e rec typ selectionSet service = .ok p) :
    p.labelTotal l = selectionSet.labelCount l := by
  obtain ⟨obj, loc, b, sels, promoted, after, ho, hfr, hpart, hloc, hb, rfl⟩ :=
    planObjectWith_ok e rec typ selectionSet service p h
  obtain ⟨hlocal, hnodup, -, hget⟩ := partitionSelections_spec e obj service _ _ _ _ _ hpart
  have hnested : ∀ sel ∈ selectionSet.Selections, ∀ field nested,
      obj.Fields sel.Name = some field → sel.SelectionSet = some nested →
      ObjectsOnly e field.Typ nested := by
    cases hobj with
    | object hsel =>
      intro sel hsel1 field nested hf hn
      have := hsel sel hsel1 nested hn
      simpa [fieldType, ho, hf] using this
  have h1 := partitionSelections_labelWeight l e obj service _ _ _ _ _ hpart
  have h2 := planLocalSelections_conserves l e rec obj service hrec _ _ _ _ _ (by
    intro sel hsel
    rw [hlocal] at hsel
    simp only [List.nil_append, List.mem_filter] at hsel
    exact hnested sel hsel.1) hloc
  have h3 := planBuckets_conserves l e rec typ b hrec (by
    intro k
    refine ObjectsOnly.object ?_
    intro sel hsel nested hn
    rw [hget k] at hsel
    simp only [Buckets.get, List.nil_append, List.mem_filter] at hsel
    cases hf : obj.Fields sel.Name with
    | none =>
      simp only [fieldType, ho, hf]
      exact ObjectsOnly.other
    | some field =>
      simp only [fieldType, ho, hf]
      exact hnested sel hsel.1 field nested hf hn) _ _ _ hb
  have h4 : ((sortStrings b.keys).map
      (fun k => countLabel l (RawSelection.allOfList (b.get k)))).sum = b.labelWeight l := by
    rw [← Buckets.sum_get_label l b (hnodup (by simp [Buckets.keys]))]
    exact ((sortStrings_perm b.keys).map _).sum_eq
  have h5 : selectionSet.labelCount l =
      countLabel l (RawSelection.allOfList selectionSet.Selections) := by
    cases selectionSet with
    | mk sels0 frags0 =>
      simp only [RawSelectionSet.Fragments] at hfr
      subst hfr
      simp [RawSelectionSet.labelCount, RawSelectionSet.all, RawFragment.allOfList,
        RawSelectionSet.Selections]
  have h6 : (RawSelectionSet.mk
      (if (!(sortStrings b.keys).isEmpty && !sels.any isFederationKey) = true
        then sels ++ [federationKey] else sels) []).labelCount l =
      countLabel l (RawSelection.allOfList sels) := by
    simp only [RawSelectionSet.labelCount, RawSelectionSet.all, RawFragment.allOfList,
      List.append_nil]
    split
    · rw [allOfList_append, countLabel_append]
      have : countLabel l (RawSelection.allOfList [federationKey]) = 0 := by
        simp [countLabel, RawSelection.allOfList, RawSelection.all, federationKey,
          isFederationKey]
      rw [this]
      rfl
    · rfl
  rw [Plan.labelTotal_eq]
  simp only [h6, h5]
  rw [h3, h4]
  have h0 : Plan.labelTotalAll l [] = 0 := rfl
  have hw0 : Buckets.labelWeight l [] = 0 := rfl
  have hc0 : countLabel l (RawSelection.allOfList []) = 0 := rfl
  rw [h0, hc0] at h2
  rw [hw0, hc0] at h1
  omega

theorem plan_conserves (l : Label) (e : Executor) :
    ∀ (fuel : Nat) (t : Typ) (ss : RawSelectionSet) (s : String) (p : Plan),
      plan e fuel t ss s = .ok p → ObjectsOnly e t ss →
      p.labelTotal l = ss.labelCount l := by
  intro fuel
  induction fuel with
  | zero =>
    intro t ss s p h
    simp [plan] at h
  | succ fuel ih =>
    intro t ss s p h ht
    cases t with
    | NonNull inner =>
      cases ht with
      | nonNull ht => exact ih _ _ _ _ (by simpa [plan] using h) ht
    | List inner =>
      cases ht with
      | list ht => exact ih _ _ _ _ (by simpa [plan] using h) ht
    | Object r =>
      simp only [plan] at h
      exact planObjectWith_conserves l e _ r ss s p ht ih h
    | Union r => cases ht
    | Other => simp [plan] at h

theorem count_label_filter (l : Label) (xs : List RawSelection) :
    List.count l ((xs.filter (fun sel => !isFederationKey sel)).map RawSelection.label) =
      countLabel l xs := by
  induction xs with
  | nil => rfl
  | cons x rest ih =>
    simp only [countLabel] at ih
    by_cases hk : isFederationKey x = true
    · simp [List.filter_cons, hk, countLabel, List.countP_cons, ih]
    · by_cases hl : x.label = l
      · simp [List.filter_cons, hk, countLabel, List.countP_cons, ih, hl]
      · have hl2 : ¬ (l = x.label) := fun h => hl h.symm
        simp [List.filter_cons, hk, countLabel, List.countP_cons, ih, hl,
          List.count_cons, hl2]

theorem countLabel_flatMap (l : Label) (ns : List Plan) :
    countLabel l (ns.flatMap (fun n => n.SelectionSet.all)) =
      (ns.map (fun n => n.SelectionSet.labelCount l)).sum := by
  induction ns with
  | nil => rfl
  | cons n rest ih =>
    simp only [List.flatMap_cons, countLabel_append, ih, List.map_cons, List.sum_cons,
      RawSelectionSet.labelCount]

theorem count_userSelections (l : Label) (p : Plan) :
    List.count l (p.userSelections.map RawSelection.label) = p.labelTotal l := by
  rw [Plan.userSelections, count_label_filter, countLabel_flatMap]
  rfl

theorem length_userSelections (p : Plan) : p.userSelections.length = p.userTotal := by
  have : ∀ ns : List Plan,
      ((ns.flatMap (fun n => n.SelectionSet.all)).filter
        (fun sel => !isFederationKey sel)).length =
      (ns.map (fun n => n.SelectionSet.userCount)).sum := by
    intro ns
    induction ns with
    | nil => rfl
    | cons n rest ih =>
      simp only [List.flatMap_cons, List.filter_append, List.length_append, ih, List.map_cons,
        List.sum_cons, RawSelectionSet.userCount, countUser, List.countP_eq_length_filter]
  exact this p.nodes

theorem filter_user_all (ss : RawSelectionSet)
    (h : ∀ sel ∈ ss.all, sel.Name ≠ "__federation") :
    ss.all.filter (fun sel => !isFederationKey sel) = ss.all := by
  rw [List.filter_eq_self]
  intro sel hsel
  have := h sel hsel
  simp [isFederationKey, this]

theorem plan_conserves_perm (e : Executor) (fuel : Nat) (t : Typ)
    (selectionSet : RawSelectionSet) (service : String) (p : Plan)
    (hobj : ObjectsOnly e t selectionSet)
    (huser : ∀ sel ∈ selectionSet.all, sel.Name ≠ "__federation")
    (h : plan e fuel t selectionSet service = .ok p) :
    (p.userSelections.map RawSelection.label).Perm
      (selectionSet.all.map RawSelection.label) := by
  rw [List.perm_iff_count]
  intro l
  rw [count_userSelections, plan_conserves l e fuel t selectionSet service p h hobj,
    RawSelectionSet.labelCount, ← count_label_filter, filter_user_all selectionSet huser]

theorem userSelections_congr (p q : Plan)
    (h : p.nodes.map Plan.SelectionSet = q.nodes.map Plan.SelectionSet) :
    p.userSelections = q.userSelections := by
  have key : ∀ ns : List Plan, ns.flatMap (fun n => n.SelectionSet.all) =
      (ns.map Plan.SelectionSet).flatMap RawSelectionSet.all := by
    intro ns
    induction ns with
    | nil => rfl
    | cons n rest ih => simp [List.flatMap_cons, ih]
  unfold Plan.userSelections
  rw [key, key, h]

theorem userTotal_congr (p q : Plan)
    (h : p.nodes.map Plan.SelectionSet = q.nodes.map Plan.SelectionSet) :
    p.userTotal = q.userTotal := by
  rw [← length_userSelections, ← length_userSelections, userSelections_congr p q h]

theorem selectionSets_reversePaths (p : Plan) :
    (reversePaths p).nodes.map Plan.SelectionSet = p.nodes.map Plan.SelectionSet := by
  rw [nodes_reversePaths, List.map_map]
  apply List.map_congr_left
  intro n _
  exact reversePaths_selectionSet n

theorem selectionSets_setMutation (p : Plan) :
    ({ p with After := p.After.map Plan.setMutation } : Plan).nodes.map Plan.SelectionSet =
      p.nodes.map Plan.SelectionSet := by
  have key : ∀ l : List Plan, (Plan.nodesAll (l.map Plan.setMutation)).map Plan.SelectionSet =
      (Plan.nodesAll l).map Plan.SelectionSet := by
    intro l
    induction l with
    | nil => rfl
    | cons c rest ih =>
      simp only [List.map_cons, Plan.nodesAll, List.map_append, ih]
      congr 1
      rw [Plan.nodes_eq, Plan.nodes_eq c]
      rfl
  rw [Plan.nodes_eq, Plan.nodes_eq p]
  simp only [List.map_cons, key]

theorem planRoot_selectionSets (e : Executor) (fuel : Nat) (query : Query) (root : Typ)
    (flattened : RawSelectionSet) (r : Plan)
    (hroot : (query.Kind = "query" ∧ root = e.schema.Schema.Query) ∨
      (query.Kind = "mutation" ∧ root = e.schema.Schema.Mutation))
    (hflat : e.flatten query.SelectionSet root = .ok flattened)
    (h : planRoot e fuel query = .ok r) :
    ∃ p, plan e fuel root flattened sentinel = .ok p ∧
      r.nodes.map Plan.SelectionSet = p.nodes.map Plan.SelectionSet := by
  obtain ⟨root1, flattened1, p, hroot1, hflat1, hp, hr⟩ := planRoot_ok e fuel query r h
  have hr1 : root1 = root := by
    rcases hroot with ⟨hk, rfl⟩ | ⟨hk, rfl⟩ <;> rcases hroot1 with ⟨hk1, rfl⟩ | ⟨hk1, rfl⟩
    · rfl
    · rw [hk] at hk1
      exact absurd hk1 (by decide)
    · rw [hk] at hk1
      exact absurd hk1 (by decide)
    · rfl
  subst hr1
  rw [hflat] at hflat1
  injection hflat1 with hflat1
  subst hflat1
  refine ⟨p, hp, ?_⟩
  rcases hr with ⟨-, -, rfl⟩ | ⟨-, rfl⟩
  · rw [selectionSets_reversePaths, selectionSets_setMutation]
  · rw [selectionSets_reversePaths]

/-- C20: a successful plan of a flattened query that involves only object types and
has no selection named `__federation` emits every input selection exactly once, from
`plan` and from `planRoot`: the selection nodes, at every depth, of the selection
sets of all Plans of the tree, `__federation` keys left out, are the selection nodes,
at every depth, of the input, each as many times as there, as far as name, alias,
arguments and the presence of a nested selection set go; in particular their number
is the number of selection nodes of the input. -/
theorem selections_conserved (e : Executor) :
    (∀ fuel t selectionSet service p,
      ObjectsOnly e t selectionSet →
      (∀ sel ∈ selectionSet.all, sel.Name ≠ "__federation") →
      plan e fuel t selectionSet service = .ok p →
      (p.userSelections.map RawSelection.label).Perm
        (selectionSet.all.map RawSelection.label) ∧
      p.userTotal = selectionSet.all.length) ∧
    (∀ fuel query root flattened r,
      ((query.Kind = "query" ∧ root = e.schema.Schema.Query) ∨
        (query.Kind = "mutation" ∧ root = e.schema.Schema.Mutation)) →
      e.flatten query.SelectionSet root = .ok flattened →
      ObjectsOnly e root flattened →
      (∀ sel ∈ flattened.all, sel.Name ≠ "__federation") →
      planRoot e fuel query = .ok r →
      (r.userSelections.map RawSelection.label).Perm
        (flattened.all.map RawSelection.label) ∧
      r.userTotal = flattened.all.length) := by
  have main : ∀ fuel t selectionSet service p,
      ObjectsOnly e t selectionSet →
      (∀ sel ∈ selectionSet.all, sel.Name ≠ "__federation") →
      plan e fuel t selectionSet service = .ok p →
      (p.userSelections.map RawSelection.label).Perm
        (selectionSet.all.map RawSelection.label) ∧
      p.userTotal = selectionSet.all.length := by
    intro fuel t selectionSet service p hobj huser h
    have hperm := plan_conserves_perm e fuel t selectionSet service p hobj huser h
    refine ⟨hperm, ?_⟩
    rw [← length_userSelections]
    simpa using hperm.length_eq
  refine ⟨main, ?_⟩
  intro fuel query root flattened r hroot hflat hobj huser h
  obtain ⟨p, hp, hsets⟩ := planRoot_selectionSets e fuel query root flattened r hroot hflat h
  rw [userSelections_congr r p hsets, userTotal_congr r p hsets]
  exact main fuel root flattened sentinel p hobj huser hp

theorem fanSelections_objectsOnly : ObjectsOnly fanShop (.Object 0) fanSelections := by
  refine ObjectsOnly.object ?_
  intro sel hsel nested hn
  simp only [List.mem_cons, List.mem_singleton, List.not_mem_nil, or_false] at hsel
  rcases hsel with rfl | rfl
  · simp only [node, selection_selectionSet_mk, Option.some.injEq] at hn
    subst hn
    refine ObjectsOnly.object ?_
    intro sel hsel nested hn
    simp only [List.mem_singleton] at hsel
    subst hsel
    cases hn
  · simp only [node, selection_selectionSet_mk, Option.some.injEq] at hn
    subst hn
    refine ObjectsOnly.object ?_
    intro sel hsel nested hn
    simp only [List.mem_singleton] at hsel
    subst hsel
    cases hn

/-- The Plan of `{name}` for the object `Cat` of `petShop`, a schema with a union,
planned from the sentinel, and the tree `planRoot` returns for `{a{x}, b{y}}` on
`fanShop`, whose three Plans carry the four input selections and two keys, both
through `selections_conserved`. -/
theorem selections_conserved_witness :
    ((catNamePlan.userSelections.map RawSelection.label).Perm
        ((RawSelectionSet.mk [leaf "name"] []).all.map RawSelection.label) ∧
      catNamePlan.userTotal = (RawSelectionSet.mk [leaf "name"] []).all.length) ∧
    ((fanPlanRoot.userSelections.map RawSelection.label).Perm
        (fanSelections.all.map RawSelection.label) ∧
      fanPlanRoot.userTotal = fanSelections.all.length) ∧
    fanSelections.all.length = 4 :=
  ⟨(selections_conserved petShop).1 2 (.Object 1) (RawSelectionSet.mk [leaf "name"] [])
      sentinel catNamePlan
      (ObjectsOnly.object (by
        intro sel hsel nested hn
        simp at hsel
        subst hsel
        cases hn))
      (by
        intro sel hsel
        simp [RawSelectionSet.all, RawSelection.allOfList, RawSelection.all,
          RawFragment.allOfList, leaf] at hsel
        subst hsel
        decide)
      rfl,
    (selections_conserved fanShop).2 4 ⟨"query", fanSelections⟩ (.Object 0) fanSelections
      fanPlanRoot (Or.inl ⟨rfl, rfl⟩) rfl fanSelections_objectsOnly
      (by
        intro sel hsel
        simp [fanSelections, RawSelectionSet.all, RawSelection.allOfList, RawSelection.all,
          RawFragment.allOfList, node, leaf] at hsel
        rcases hsel with rfl | rfl | rfl | rfl <;> decide)
      rfl,
    rfl⟩

/-! ### Termination -/

theorem sizeOf_nested_lt (ss nested : RawSelectionSet) (sel : RawSelection)
    (h : sel ∈ ss.Selections) (hn : sel.SelectionSet = some nested) :
    sizeOf nested < sizeOf ss := by
  cases ss with
  | mk sels frags =>
    cases sel with
    | mk n a args o =>
      simp only [RawSelection.SelectionSet] at hn
      subst hn
      have h1 := List.sizeOf_lt_of_mem h
      simp only [RawSelectionSet.Selections] at h1
      simp only [RawSelectionSet.mk.sizeOf_spec]
      simp only [RawSelection.mk.sizeOf_spec, Option.some.sizeOf_spec] at h1
      omega

theorem sizeOf_fragment_lt (ss : RawSelectionSet) (f : RawFragment)
    (h : f ∈ ss.Fragments) : sizeOf f.SelectionSet < sizeOf ss := by
  cases ss with
  | mk sels frags =>
    cases f with
    | mk target fss =>
      have h1 := List.sizeOf_lt_of_mem h
      simp only [RawSelectionSet.Fragments] at h1
      simp only [RawSelectionSet.mk.sizeOf_spec, RawFragment.SelectionSet]
      simp only [RawFragment.mk.sizeOf_spec] at h1
      omega

theorem wrapPlanningFor_ne (name : String) (err : Err) (h : err ≠ .outOfFuel) :
    wrapPlanningFor name err ≠ .outOfFuel := by
  cases err <;> simp [wrapPlanningFor] at h ⊢

theorem error_ne_of_error_ne {α β : Type} (err : Err)
    (h : (Except.error err : Except Err α) ≠ .error .outOfFuel) :
    (Except.error err : Except Err β) ≠ .error .outOfFuel := by
  intro hb
  injection hb with hb
  exact h (by rw [hb])

theorem partitionSelections_terminates (e : Executor) (typ : Object) (service : String) :
    ∀ (sels loc : List RawSelection) (b : Buckets),
      partitionSelections e typ service sels loc b ≠ .error .outOfFuel := by
  intro sels
  induction sels with
  | nil => intro loc b; simp [partitionSelections]
  | cons sel rest ih =>
    intro loc b
    simp only [partitionSelections]
    split
    · exact ih _ _
    · split
      · simp
      · split
        · simp
        · split
          · exact ih _ _
          · exact ih _ _

theorem unionSelections_terminates :
    ∀ (sels acc : List RawSelection), unionSelections sels acc ≠ .error .outOfFuel := by
  intro sels
  induction sels with
  | nil => intro acc; simp [unionSelections]
  | cons sel rest ih =>
    intro acc
    simp only [unionSelections]
    split
    · simp
    · exact ih _

theorem planLocalSelections_terminates
    (rec : Typ → RawSelectionSet → String → Except Err Plan) (typ : Object) (service : String) :
    ∀ (loc sels : List RawSelection) (after : List Plan),
      (∀ sel ∈ loc, ∀ field nested, typ.Fields sel.Name = some field →
        sel.SelectionSet = some nested →
        rec field.Typ nested service ≠ .error .outOfFuel) →
      planLocalSelections rec typ service loc sels after ≠ .error .outOfFuel := by
  intro loc
  induction loc with
  | nil => intro sels after _; simp [planLocalSelections]
  | cons sel rest ih =>
    intro sels after h
    have hrest := fun s hs => h s (List.mem_cons_of_mem _ hs)
    simp only [planLocalSelections]
    cases hss : sel.SelectionSet with
    | none => exact ih _ _ hrest
    | some nested =>
      simp only []
      cases hf : typ.Fields sel.Name with
      | none => simp
      | some field =>
        simp only []
        have hcall := h sel (by simp) field nested hf hss
        cases hp : rec field.Typ nested service with
        | error err =>
          simp only []
          rw [hp] at hcall
          intro hbad
          injection hbad with hbad
          exact wrapPlanningFor_ne sel.Name err (fun h0 => hcall (by rw [h0])) hbad
        | ok child => exact ih _ _ hrest

theorem planBuckets_terminates
    (rec : Typ → RawSelectionSet → String → Except Err Plan) (typ : Ref) (b : Buckets) :
    ∀ (others : List String) (after : List Plan),
      (∀ other ∈ others,
        rec (.Object typ) (RawSelectionSet.mk (b.get other) []) other ≠ .error .outOfFuel) →
      planBuckets rec typ b others after ≠ .error .outOfFuel := by
  intro others
  induction others with
  | nil => intro after _; simp [planBuckets]
  | cons other rest ih =>
    intro after h
    have hrest := fun o ho => h o (List.mem_cons_of_mem _ ho)
    have hcall := h other (by simp)
    simp only [planBuckets]
    cases hp : rec (.Object typ) (RawSelectionSet.mk (b.get other) []) other with
    | error err =>
      simp only []
      rw [hp] at hcall
      intro hbad
      injection hbad with hbad
      exact wrapPlanningFor_ne other err (fun h0 => hcall (by rw [h0])) hbad
    | ok sub => exact ih _ hrest

theorem planFragments_terminates (e : Executor)
    (rec : Typ → RawSelectionSet → String → Except Err Plan) (typ : Ref) (service : String) :
    ∀ (fragments : List RawFragment) (seen : List String) (frags : List RawFragment)
      (after : List Plan),
      (∀ f ∈ fragments, ∀ u objRef, e.unions typ = some u → u.Types f.On = some objRef →
        rec (.Object objRef) f.SelectionSet service ≠ .error .outOfFuel) →
      planFragments e rec typ service fragments seen frags after ≠ .error .outOfFuel := by
  intro fragments
  induction fragments with
  | nil => intro seen frags after _; simp [planFragments]
  | cons f rest ih =>
    intro seen frags after h
    have hrest := fun g hg => h g (List.mem_cons_of_mem _ hg)
    simp only [planFragments]
    split
    · simp
    · cases hu : e.unions typ with
      | none => simp
      | some u =>
        simp only []
        cases hT : u.Types f.On with
        | none => simp
        | some objRef =>
          simp only []
          have hcall := h f (by simp) u objRef hu hT
          cases hp : rec (.Object objRef) f.SelectionSet service with
          | error err =>
            simp only []
            rw [hp] at hcall
            intro hbad
            injection hbad with hbad
            exact hcall (by rw [hbad])
          | ok child =>
            simp only []
            cases ho : e.objects objRef with
            | none => simp
            | some obj => exact ih _ _ _ hrest

theorem planObjectWith_terminates (e : Executor)
    (rec : Typ → RawSelectionSet → String → Except Err Plan) (typ : Ref)
    (selectionSet : RawSelectionSet) (service : String)
    (hnested : ∀ obj, e.objects typ = some obj →
      ∀ sel ∈ selectionSet.Selections, ∀ field nested, obj.Fields sel.Name = some field →
        sel.SelectionSet = some nested →
        rec field.Typ nested service ≠ .error .outOfFuel)
    (hbucket : ∀ obj, e.objects typ = some obj → ∀ other,
      selectionSet.Selections.filter (fun sel => !isLocal e obj service sel &&
        decide (homeService e obj sel = some other)) ≠ [] →
      rec (.Object typ) (RawSelectionSet.mk (selectionSet.Selections.filter
        (fun sel => !isLocal e obj service sel &&
          decide (homeService e obj sel = some other))) []) other ≠ .error .outOfFuel) :
    planObjectWith e rec typ selectionSet service ≠ .error .outOfFuel := by
  unfold planObjectWith
  cases ho : e.objects typ with
  | none => simp
  | some obj =>
    simp only []
    split
    · simp
    · cases hpart : partitionSelections e obj service selectionSet.Selections [] [] with
      | error err =>
        simp only []
        have := partitionSelections_terminates e obj service selectionSet.Selections [] []
        rw [hpart] at this
        exact error_ne_of_error_ne err this
      | ok lb =>
        obtain ⟨loc, b⟩ := lb
        simp only []
        obtain ⟨hlocEq, -, hkeys, hget⟩ :=
          partitionSelections_spec e obj service _ _ _ _ _ hpart
        have hloc := planLocalSelections_terminates rec obj service loc [] [] (by
          intro sel hsel field nested hf hss
          rw [hlocEq] at hsel
          simp only [List.nil_append, List.mem_filter] at hsel
          exact hnested obj ho sel hsel.1 field nested hf hss)
        cases hl : planLocalSelections rec obj service loc [] [] with
        | error err =>
          simp only []
          rw [hl] at hloc
          exact error_ne_of_error_ne err hloc
        | ok sp =>
          obtain ⟨sels, promoted⟩ := sp
          simp only []
          have hb := planBuckets_terminates rec typ b (sortStrings b.keys) promoted (by
            intro other hother
            have hk : other ∈ b.keys := (mem_sortStrings _ _).1 hother
            rw [hget other]
            simp only [Buckets.get, List.nil_append]
            apply hbucket obj ho other
            rw [hkeys other] at hk
            rcases hk with hk | hk
            · simp [Buckets.keys] at hk
            · simp only [remoteServices, homeServices, List.mem_filterMap,
                List.mem_filter] at hk
              obtain ⟨sel, ⟨hsel, hl⟩, hh⟩ := hk
              intro hnil
              have : sel ∈ selectionSet.Selections.filter (fun sel =>
                  !isLocal e obj service sel &&
                  decide (homeService e obj sel = some other)) := by
                rw [List.mem_filter]
                exact ⟨hsel, by simp [hh] at hl ⊢; exact hl⟩
              rw [hnil] at this
              cases this)
          cases hbb : planBuckets rec typ b (sortStrings b.keys) promoted with
          | error err =>
            simp only []
            rw [hbb] at hb
            exact error_ne_of_error_ne err hb
          | ok after => simp

theorem planUnionWith_terminates (e : Executor)
    (rec : Typ → RawSelectionSet → String → Except Err Plan) (typ : Ref)
    (selectionSet : RawSelectionSet) (service : String)
    (hfrag : ∀ f ∈ selectionSet.Fragments, ∀ u objRef, e.unions typ = some u →
      u.Types f.On = some objRef →
      rec (.Object objRef) f.SelectionSet service ≠ .error .outOfFuel) :
    planUnionWith e rec typ selectionSet service ≠ .error .outOfFuel := by
  unfold planUnionWith
  cases hs : unionSelections selectionSet.Selections [typenameSelection] with
  | error err =>
    simp only []
    have := unionSelections_terminates selectionSet.Selections [typenameSelection]
    rw [hs] at this
    exact error_ne_of_error_ne err this
  | ok sels =>
    simp only []
    have hf := planFragments_terminates e rec typ service selectionSet.Fragments [] [] [] hfrag
    cases hfr : planFragments e rec typ service selectionSet.Fragments [] [] [] with
    | error err =>
      simp only []
      rw [hfr] at hf
      exact error_ne_of_error_ne err hf
    | ok fa => simp

theorem bucket_all_local (e : Executor) (hhome : HomeEligible e) (obj : Object)
    (service other : String) (sels : List RawSelection) :
    ∀ sel ∈ sels.filter (fun sel => !isLocal e obj service sel &&
        decide (homeService e obj sel = some other)),
      isLocal e obj other sel = true := by
  intro sel hsel
  simp only [List.mem_filter, Bool.and_eq_true, decide_eq_true_eq] at hsel
  exact isLocal_home e obj sel other hhome hsel.2.2

theorem plan_terminates_sized (e : Executor) (hhome : HomeEligible e) :
    ∀ (n : Nat) (ss : RawSelectionSet), sizeOf ss ≤ n →
      ∀ t : Typ, ∃ N, ∀ fuel, N ≤ fuel → ∀ s, plan e fuel t ss s ≠ .error .outOfFuel := by
  intro n
  induction n with
  | zero =>
    intro ss hsize
    cases ss with
    | mk sels frags =>
      simp only [RawSelectionSet.mk.sizeOf_spec] at hsize
      omega
  | succ n ih =>
    intro ss hsize t
    induction t with
    | NonNull inner iht =>
      obtain ⟨N, hN⟩ := iht
      refine ⟨N + 1, fun fuel hfuel s => ?_⟩
      obtain ⟨k, rfl⟩ : ∃ k, fuel = k + 1 := ⟨fuel - 1, by omega⟩
      simp only [plan]
      exact hN k (by omega) s
    | List inner iht =>
      obtain ⟨N, hN⟩ := iht
      refine ⟨N + 1, fun fuel hfuel s => ?_⟩
      obtain ⟨k, rfl⟩ : ∃ k, fuel = k + 1 := ⟨fuel - 1, by omega⟩
      simp only [plan]
      exact hN k (by omega) s
    | Other =>
      refine ⟨1, fun fuel hfuel s => ?_⟩
      obtain ⟨k, rfl⟩ : ∃ k, fuel = k + 1 := ⟨fuel - 1, by omega⟩
      simp [plan]
    | Union r =>
      obtain ⟨N, hN⟩ := exists_common_bound ss.Fragments
        (fun f m => ∀ u objRef, e.unions r = some u → u.Types f.On = some objRef →
          ∀ s, plan e m (.Object objRef) f.SelectionSet s ≠ .error .outOfFuel)
        (by
          intro f hf
          have hlt := sizeOf_fragment_lt ss f hf
          cases hu : e.unions r with
          | none => exact ⟨0, fun m _ u objRef hu1 _ => by cases hu1⟩
          | some u =>
            cases hT : u.Types f.On with
            | none =>
              exact ⟨0, fun m _ u1 objRef hu1 hT1 => by
                injection hu1 with hu1
                subst hu1
                rw [hT] at hT1
                cases hT1⟩
            | some objRef =>
              obtain ⟨N, hN⟩ := ih f.SelectionSet (by omega) (.Object objRef)
              exact ⟨N, fun m hm u1 objRef1 hu1 hT1 => by
                injection hu1 with hu1
                subst hu1
                rw [hT] at hT1
                injection hT1 with hT1
                subst hT1
                exact hN m hm⟩)
      refine ⟨N + 1, fun fuel hfuel s => ?_⟩
      obtain ⟨k, rfl⟩ : ∃ k, fuel = k + 1 := ⟨fuel - 1, by omega⟩
      simp only [plan]
      apply planUnionWith_terminates
      intro f hf u objRef hu hT
      exact hN k (by omega) f hf u objRef hu hT s
    | Object r =>
      obtain ⟨N, hN⟩ := exists_common_bound ss.Selections
        (fun sel m => ∀ obj field nested, e.objects r = some obj →
          obj.Fields sel.Name = some field → sel.SelectionSet = some nested →
          ∀ s, plan e m field.Typ nested s ≠ .error .outOfFuel)
        (by
          intro sel hsel
          cases ho : e.objects r with
          | none => exact ⟨0, fun m _ obj field nested ho1 _ _ => by cases ho1⟩
          | some obj =>
            cases hf : obj.Fields sel.Name with
            | none =>
              exact ⟨0, fun m _ obj1 field nested ho1 hf1 _ => by
                injection ho1 with ho1
                subst ho1
                rw [hf] at hf1
                cases hf1⟩
            | some field =>
              cases hss : sel.SelectionSet with
              | none =>
                exact ⟨0, fun m _ obj1 field1 nested _ _ hss1 => by
                  rw [hss] at hss1
                  cases hss1⟩
              | some nested =>
                have hlt := sizeOf_nested_lt ss nested sel hsel hss
                obtain ⟨N, hN⟩ := ih nested (by omega) field.Typ
                exact ⟨N, fun m hm obj1 field1 nested1 ho1 hf1 hss1 => by
                  injection ho1 with ho1
                  subst ho1
                  rw [hf] at hf1
                  injection hf1 with hf1
                  subst hf1
                  rw [hss] at hss1
                  injection hss1 with hss1
                  subst hss1
                  exact hN m hm⟩)
      refine ⟨N + 2, fun fuel hfuel s => ?_⟩
      obtain ⟨k, rfl⟩ : ∃ k, fuel = k + 2 := ⟨fuel - 2, by omega⟩
      simp only [plan]
      apply planObjectWith_terminates
      · intro obj ho sel hsel field nested hf hss
        exact hN (k + 1) (by omega) sel hsel obj field nested ho hf hss s
      · intro obj ho other _
        simp only [plan]
        apply planObjectWith_terminates
        · intro obj1 ho1 sel hsel field nested hf hss
          simp only [RawSelectionSet.Selections, List.mem_filter] at hsel
          exact hN k (by omega) sel hsel.1 obj1 field nested ho1 hf hss other
        · intro obj1 ho1 other1 hne
          exfalso
          apply hne
          rw [ho] at ho1
          injection ho1 with ho1
          subst ho1
          rw [List.filter_eq_nil_iff]
          intro sel hsel
          have := bucket_all_local e hhome obj s other ss.Selections sel hsel
          simp [this]

/-! ### The result does not depend on the recursion budget -/

theorem planLocalSelections_mono
    (rec rec1 : Typ → RawSelectionSet → String → Except Err Plan) (typ : Object)
    (service : String)
    (hext : ∀ t ss s, rec t ss s ≠ .error .outOfFuel → rec1 t ss s = rec t ss s) :
    ∀ (loc sels : List RawSelection) (after : List Plan),
      planLocalSelections rec typ service loc sels after ≠ .error .outOfFuel →
      planLocalSelections rec1 typ service loc sels after =
        planLocalSelections rec typ service loc sels after := by
  intro loc
  induction loc with
  | nil => intro sels after _; rfl
  | cons sel rest ih =>
    intro sels after h
    simp only [planLocalSelections] at h ⊢
    cases hss : sel.SelectionSet with
    | none =>
      simp only [hss] at h ⊢
      exact ih _ _ h
    | some nested =>
      simp only [hss] at h ⊢
      cases hf : typ.Fields sel.Name with
      | none => rfl
      | some field =>
        simp only [hf] at h ⊢
        cases hp : rec field.Typ nested service with
        | error err =>
          simp only [hp] at h
          have hne : err ≠ .outOfFuel := by
            intro h0
            subst h0
            exact h rfl
          have := hext field.Typ nested service (by rw [hp]; intro hb; injection hb with hb; exact hne hb)
          rw [this, hp]
        | ok child =>
          simp only [hp] at h
          have := hext field.Typ nested service (by rw [hp]; simp)
          rw [this, hp]
          exact ih _ _ h

theorem planBuckets_mono
    (rec rec1 : Typ → RawSelectionSet → String → Except Err Plan) (typ : Ref) (b : Buckets)
    (hext : ∀ t ss s, rec t ss s ≠ .error .outOfFuel → rec1 t ss s = rec t ss s) :
    ∀ (others : List String) (after : List Plan),
      planBuckets rec typ b others after ≠ .error .outOfFuel →
      planBuckets rec1 typ b others after = planBuckets rec typ b others after := by
  intro others
  induction others with
  | nil => intro after _; rfl
  | cons other rest ih =>
    intro after h
    simp only [planBuckets] at h ⊢
    cases hp : rec (.Object typ) (RawSelectionSet.mk (b.get other) []) other with
    | error err =>
      simp only [hp] at h
      have hne : err ≠ .outOfFuel := by
        intro h0
        subst h0
        exact h rfl
      have := hext _ _ _ (by rw [hp]; intro hb; injection hb with hb; exact hne hb)
      rw [this, hp]
    | ok sub =>
      simp only [hp] at h
      have := hext (.Object typ) (RawSelectionSet.mk (b.get other) []) other (by rw [hp]; simp)
      rw [this, hp]
      exact ih _ h

theorem planFragments_mono (e : Executor)
    (rec rec1 : Typ → RawSelectionSet → String → Except Err Plan) (typ : Ref)
    (service : String)
    (hext : ∀ t ss s, rec t ss s ≠ .error .outOfFuel → rec1 t ss s = rec t ss s) :
    ∀ (fragments : List RawFragment) (seen : List String) (frags : List RawFragment)
      (after : List Plan),
      planFragments e rec typ service fragments seen frags after ≠ .error .outOfFuel →
      planFragments e rec1 typ service fragments seen frags after =
        planFragments e rec typ service fragments seen frags after := by
  intro fragments
  induction fragments with
  | nil => intro seen frags after _; rfl
  | cons f rest ih =>
    intro seen frags after h
    simp only [planFragments] at h ⊢
    split
    · rfl
    · rename_i hseen
      simp only [hseen, if_false] at h
      cases hu : e.unions typ with
      | none => rfl
      | some u =>
        simp only [hu] at h ⊢
        cases hT : u.Types f.On with
        | none => rfl
        | some objRef =>
          simp only [hT] at h ⊢
          cases hp : rec (.Object objRef) f.SelectionSet service with
          | error err =>
            simp only [hp] at h
            have := hext (.Object objRef) f.SelectionSet service
              (by rw [hp]; exact error_ne_of_error_ne err h)
            rw [this, hp]
          | ok child =>
            simp only [hp] at h
            have := hext (.Object objRef) f.SelectionSet service (by rw [hp]; simp)
            rw [this, hp]
            cases ho : e.objects objRef with
            | none => rfl
            | some obj =>
              simp only [ho] at h ⊢
              exact ih _ _ _ h

theorem planObjectWith_mono (e : Executor)
    (rec rec1 : Typ → RawSelectionSet → String → Except Err Plan) (typ : Ref)
    (selectionSet : RawSelectionSet) (service : String)
    (hext : ∀ t ss s, rec t ss s ≠ .error .outOfFuel → rec1 t ss s = rec t ss s)
    (h : planObjectWith e rec typ selectionSet service ≠ .error .outOfFuel) :
    planObjectWith e rec1 typ selectionSet service =
      planObjectWith e rec typ selectionSet service := by
  unfold planObjectWith at h ⊢
  cases ho : e.objects typ with
  | none => rfl
  | some obj =>
    simp only [ho] at h ⊢
    split
    · rfl
    · rename_i hfr
      simp only [hfr, if_false] at h
      cases hpart : partitionSelections e obj service selectionSet.Selections [] [] with
      | error err => rfl
      | ok lb =>
        obtain ⟨loc, b⟩ := lb
        simp only [hpart] at h ⊢
        have hloc := planLocalSelections_mono rec rec1 obj service hext loc [] []
        cases hl : planLocalSelections rec obj service loc [] [] with
        | error err =>
          rw [hl] at hloc
          simp only [hl] at h
          rw [hloc (fun hb => h (by injection hb with hb; rw [hb]))]
        | ok sp =>
          obtain ⟨sels, promoted⟩ := sp
          rw [hl] at hloc
          simp only [hl] at h
          rw [hloc (by simp)]
          simp only []
          have hb := planBuckets_mono rec rec1 typ b hext (sortStrings b.keys) promoted
          cases hbb : planBuckets rec typ b (sortStrings b.keys) promoted with
          | error err =>
            rw [hbb] at hb
            simp only [hbb] at h
            rw [hb (fun hx => h (by injection hx with hx; rw [hx]))]
          | ok after =>
            rw [hbb] at hb
            rw [hb (by simp)]

theorem planUnionWith_mono (e : Executor)
    (rec rec1 : Typ → RawSelectionSet → String → Except Err Plan) (typ : Ref)
    (selectionSet : RawSelectionSet) (service : String)
    (hext : ∀ t ss s, rec t ss s ≠ .error .outOfFuel → rec1 t ss s = rec t ss s)
    (h : planUnionWith e rec typ selectionSet service ≠ .error .outOfFuel) :
    planUnionWith e rec1 typ selectionSet service =
      planUnionWith e rec typ selectionSet service := by
  unfold planUnionWith at h ⊢
  cases hs : unionSelections selectionSet.Selections [typenameSelection] with
  | error err => rfl
  | ok sels =>
    simp only [hs] at h ⊢
    have hf := planFragments_mono e rec rec1 typ service hext selectionSet.Fragments [] [] []
    cases hfr : planFragments e rec typ service selectionSet.Fragments [] [] [] with
    | error err =>
      rw [hfr] at hf
      simp only [hfr] at h
      rw [hf (fun hx => h (by injection hx with hx; rw [hx]))]
    | ok fa =>
      rw [hfr] at hf
      rw [hf (by simp)]

theorem plan_mono (e : Executor) :
    ∀ (fuel : Nat) (t : Typ) (ss : RawSelectionSet) (s : String),
      plan e fuel t ss s ≠ .error .outOfFuel →
      plan e (fuel + 1) t ss s = plan e fuel t ss s := by
  intro fuel
  induction fuel with
  | zero =>
    intro t ss s h
    exact absurd rfl h
  | succ fuel ih =>
    intro t ss s h
    cases t with
    | NonNull inner =>
      simp only [plan] at h ⊢
      exact ih _ _ _ h
    | List inner =>
      simp only [plan] at h ⊢
      exact ih _ _ _ h
    | Object r =>
      simp only [plan] at h ⊢
      exact planObjectWith_mono e _ _ r ss s ih h
    | Union r =>
      simp only [plan] at h ⊢
      exact planUnionWith_mono e _ _ r ss s ih h
    | Other => rfl

/-- Once the recursion budget suffices, more budget gives the same result. -/
theorem plan_stable (e : Executor) (fuel : Nat) (t : Typ) (ss : RawSelectionSet) (s : String)
    (h : plan e fuel t ss s ≠ .error .outOfFuel) :
    ∀ more, plan e (fuel + more) t ss s = plan e fuel t ss s := by
  intro more
  induction more with
  | zero => rfl
  | succ k ih =>
    rw [← Nat.add_assoc, plan_mono e (fuel + k) t ss s (by rw [ih]; exact h), ih]

/-- When the home service of every field is among its eligible services,
the mutually recursive `plan`, `planObject` and `planUnion` terminate on every type,
selection set and service: every large enough recursion budget is left unexhausted,
the run ending with a Plan, a returned error or a nil-dereference panic, the same
for every such budget. The
re-planning of an object for a remote bucket is well-founded because every selection
of a bucket is local on the home service of the bucket, so that the partition made
there creates no bucket. -/
theorem planner_terminates (e : Executor) (hhome : HomeEligible e) :
    (∀ t selectionSet, ∃ N, ∀ fuel, N ≤ fuel → ∀ service,
      plan e fuel t selectionSet service ≠ .error .outOfFuel ∧
      plan e fuel t selectionSet service = plan e N t selectionSet service) ∧
    (∀ typ selectionSet, ∃ N, ∀ fuel, N ≤ fuel → ∀ service,
      planObject e fuel typ selectionSet service ≠ .error .outOfFuel ∧
      planUnion e fuel typ selectionSet service ≠ .error .outOfFuel) ∧
    (∀ obj service selections loc b,
      partitionSelections e obj service selections [] [] = .ok (loc, b) →
      ∀ other, partitionSelections e obj other (b.get other) [] [] =
        .ok (b.get other, [])) := by
  refine ⟨?_, ?_, ?_⟩
  · intro t ss
    obtain ⟨N, hN⟩ := plan_terminates_sized e hhome (sizeOf ss) ss (le_refl _) t
    refine ⟨N, fun fuel hfuel s => ⟨hN fuel hfuel s, ?_⟩⟩
    obtain ⟨more, rfl⟩ : ∃ more, fuel = N + more := ⟨fuel - N, by omega⟩
    exact plan_stable e N t ss s (hN N (le_refl _) s) more
  · intro typ ss
    obtain ⟨N1, h1⟩ := plan_terminates_sized e hhome (sizeOf ss) ss (le_refl _) (.Object typ)
    obtain ⟨N2, h2⟩ := plan_terminates_sized e hhome (sizeOf ss) ss (le_refl _) (.Union typ)
    refine ⟨max N1 N2, fun fuel hfuel s => ⟨?_, ?_⟩⟩
    · exact h1 (fuel + 1) (by have := le_max_left N1 N2; omega) s
    · exact h2 (fuel + 1) (by have := le_max_right N1 N2; omega) s
  · intro obj service sels loc b hpart other
    obtain ⟨-, -, -, hget⟩ := partitionSelections_spec e obj service _ _ _ _ _ hpart
    have := partitionSelections_all_local e obj other (b.get other) [] [] (by
      intro sel hsel
      rw [hget other] at hsel
      simp only [Buckets.get, List.nil_append] at hsel
      exact bucket_all_local e hhome obj service other sels sel hsel)
    simpa using this

theorem orderShop_homeEligible : HomeEligible orderShop := by
  intro field info h
  simp only [orderShop] at h
  split at h
  · injection h with h
    subst h
    decide
  · split at h
    · injection h with h
      subst h
      decide
    · cases h

/-- The schema `orderShop`, where every field is owned by an eligible service, and
the query `{id, total, customer{name}}` planned from the sentinel, through
`planner_terminates`. -/
theorem planner_terminates_witness :
    ∃ N, ∀ fuel, N ≤ fuel → ∀ service,
      plan orderShop fuel (.Object 0) orderQuery service ≠ .error .outOfFuel ∧
      plan orderShop fuel (.Object 0) orderQuery service =
        plan orderShop N (.Object 0) orderQuery service :=
  (planner_terminates orderShop orderShop_homeEligible).1 (.Object 0) orderQuery

theorem petShop_homeEligible : HomeEligible petShop := by
  intro field info h
  simp only [petShop] at h
  injection h with h
  subst h
  simp [ownedBy]

theorem birdQuery_eval (service : String) :
    plan petShop 4 (.Object 3) birdQuery service = .error .nilDereference := by
  by_cases hs : service = "pets"
  · subst hs
    rfl
  · simp [plan, planObjectWith, petShop, birdQuery, partitionSelections, mapOf, ownedBy, hs,
      RawSelectionSet.Fragments, RawSelectionSet.Selections, planLocalSelections, Buckets.add,
      Buckets.keys, sortStrings, planBuckets, Buckets.get, wrapPlanningFor, planUnionWith,
      unionSelections, planFragments, RawSelection.Name, RawSelection.SelectionSet,
      RawFragment.On, RawFragment.SelectionSet, RawSelection.Alias, RawSelection.Args]

/-- C18 (code): on `petShop`, where the home service of every field is among its
eligible services, the finite selection set `{pets{... on Bird{name}}}` makes `plan`
and `planObject` end in a nil-dereference panic, on every service and for every
recursion budget that is large enough: the run terminates, but neither a Plan nor
an error value is returned. -/
theorem planner_panics_when_home_eligible :
    HomeEligible petShop ∧
    ∀ fuel service,
      plan petShop (4 + fuel) (.Object 3) birdQuery service = .error .nilDereference ∧
      planObject petShop (3 + fuel) 3 birdQuery service = .error .nilDereference := by
  refine ⟨petShop_homeEligible, fun fuel service => ?_⟩
  have h4 := birdQuery_eval service
  have hstable := plan_stable petShop 4 (.Object 3) birdQuery service
    (by rw [h4]; simp) fuel
  refine ⟨hstable.trans h4, ?_⟩
  have h3 : 3 + fuel + 1 = 4 + fuel := by omega
  show plan petShop (3 + fuel + 1) (.Object 3) birdQuery service = _
  rw [h3]
  exact hstable.trans h4

/-! ### Where the key is when `After` is filled -/

theorem route_target_all (ss target : RawSelectionSet) (path : List PathStep)
    (h : Route ss path target) : ∀ x ∈ target.all, x ∈ ss.all := by
  induction h with
  | done ss => exact fun x hx => hx
  | field hsel hnested _ ih =>
    intro x hx
    exact mem_all_of_nested _ _ _ x hsel hnested (ih x hx)
  | type hfrag _ ih =>
    intro x hx
    exact mem_all_of_fragment _ _ x hfrag (ih x hx)

theorem key_of_route (ss : RawSelectionSet) (path : List PathStep) (h : RouteToKey ss path) :
    ∃ sel ∈ ss.all, sel.Name = "__federation" ∧ sel.Alias = "__federation" := by
  obtain ⟨target, hroute, sel, hsel, hkey⟩ := h
  exact ⟨sel, route_target_all ss target path hroute sel (mem_all_of_selection target sel hsel),
    hkey⟩

theorem key_of_routed (n : Plan) (h : n.Routed) (hne : n.After ≠ []) :
    ∃ sel ∈ n.SelectionSet.all, sel.Name = "__federation" ∧ sel.Alias = "__federation" := by
  cases hA : n.After with
  | nil => exact absurd hA hne
  | cons c rest => exact key_of_route _ _ (h c (by rw [hA]; simp))

theorem planRoot_routes (e : Executor) (fuel : Nat) (query : Query) (r : Plan)
    (h : planRoot e fuel query = .ok r) :
    ∀ n ∈ r.nodes, ∀ c ∈ n.After, RouteToKey n.SelectionSet c.Path := by
  obtain ⟨root, flattened, p, -, -, hp, hr⟩ := planRoot_ok e fuel query r h
  have hrouted := plan_routed e fuel root flattened sentinel p hp
  rcases hr with ⟨-, -, rfl⟩ | ⟨-, rfl⟩
  · exact routes_reversePaths _ (allRouted_setMutation p hrouted)
  · exact routes_reversePaths _ hrouted

/-- C6 (amended): at every node of a tree returned by `planRoot`, `plan`,
`planObject` or `planUnion`, a Plan with a non-empty `After` has in its selection
set, at some depth, a selection with name and alias `__federation`. For a Plan
returned by `planObject` for an input with at least one selection that is not local,
such a selection is among the top-level selections; when no local input selection
has that name and alias, exactly one top-level selection has them, the synthetic key
without arguments, in last position. -/
theorem key_where_after_is_filled (e : Executor) :
    (∀ fuel query r, planRoot e fuel query = .ok r →
      ∀ n ∈ r.nodes, n.After ≠ [] →
        ∃ sel ∈ n.SelectionSet.all, sel.Name = "__federation" ∧ sel.Alias = "__federation") ∧
    (∀ fuel t ss s p, plan e fuel t ss s = .ok p →
      ∀ n ∈ p.nodes, n.After ≠ [] →
        ∃ sel ∈ n.SelectionSet.all, sel.Name = "__federation" ∧ sel.Alias = "__federation") ∧
    (∀ fuel typ ss s p,
      (planObject e fuel typ ss s = .ok p ∨ planUnion e fuel typ ss s = .ok p) →
      ∀ n ∈ p.nodes, n.After ≠ [] →
        ∃ sel ∈ n.SelectionSet.all, sel.Name = "__federation" ∧ sel.Alias = "__federation") ∧
    (∀ fuel typ obj selectionSet service p, e.objects typ = some obj →
      planObject e fuel typ selectionSet service = .ok p →
      (∃ sel ∈ selectionSet.Selections, isLocal e obj service sel = false) →
      p.After ≠ [] ∧
      (∃ sel ∈ p.SelectionSet.Selections,
        sel.Name = "__federation" ∧ sel.Alias = "__federation") ∧
      ((∀ sel ∈ selectionSet.Selections, isLocal e obj service sel = true →
          ¬ (sel.Name = "__federation" ∧ sel.Alias = "__federation")) →
        p.SelectionSet.Selections.countP isFederationKey = 1 ∧
        p.SelectionSet.Selections.getLast? =
          some (RawSelection.mk "__federation" "__federation" [] none))) := by
  refine ⟨?_, ?_, ?_, ?_⟩
  · intro fuel query r h n hn hne
    cases hA : n.After with
    | nil => exact absurd hA hne
    | cons c rest =>
      exact key_of_route _ _ (planRoot_routes e fuel query r h n hn c (by rw [hA]; simp))
  · intro fuel t ss s p h n hn hne
    exact key_of_routed n (plan_routed e fuel t ss s p h n hn) hne
  · intro fuel typ ss s p h n hn hne
    rcases h with h | h
    · exact key_of_routed n (plan_routed e (fuel + 1) (.Object typ) ss s p h n hn) hne
    · exact key_of_routed n (plan_routed e (fuel + 1) (.Union typ) ss s p h n hn) hne
  · intro fuel typ obj selectionSet service p ho h hremote
    exact planObject_key_top_level e fuel typ obj selectionSet service p ho h hremote

/-- The Plan on service `s` in the tree planned for `{a{x}, b{y}}` on `fanShop`, whose
`After` is filled by promotion only, through `key_where_after_is_filled`: its keys
lie at depth. -/
theorem key_where_after_is_filled_witness :
    planRoot fanShop 4 ⟨"query", fanSelections⟩ = .ok fanPlanRoot ∧
    ∃ sel ∈ fanPlanS.SelectionSet.all,
      sel.Name = "__federation" ∧ sel.Alias = "__federation" :=
  ⟨rfl, (key_where_after_is_filled fanShop).1 4 ⟨"query", fanSelections⟩ fanPlanRoot rfl
    fanPlanS (Plan.child_mem_nodes fanPlanRoot fanPlanS (by simp [fanPlanRoot]))
    (by simp [fanPlanS])⟩

/-- C6 (as stated) fails: on `fanShop`, `planObject` of `{a{x}, b{y}}` on service
`s` returns a Plan with two `After` entries whose own top-level selections contain
no `__federation` selection, and whose selection set contains two of them at depth. -/
theorem key_not_exactly_one :
    ∃ p, planObject fanShop 3 0 fanSelections "s" = .ok p ∧ p.After ≠ [] ∧
      p.SelectionSet.Selections.countP isFederationKey = 0 ∧
      p.SelectionSet.all.countP isFederationKey = 2 :=
  ⟨fanPlanS, rfl, by simp [fanPlanS], by decide, by decide⟩
theorem bogusQuery_eval : plan petShop 4 (.Object 3) bogusQuery "pets" = .ok bogusPlan := rfl

/-- C19 (as stated) fails: on `petShop`, the query `{pets{__typename{bogus}}}` is
planned on service `pets` with success, for every large enough recursion budget,
and the selection set of the Plan holds, under the `__typename` selection that
`planUnion` carries over as it is, the selection `bogus`: it is not `__typename`,
it is not the key, and no object of the schema has a field of that name. -/
theorem typename_subselection_unchecked :
    (∀ fuel, plan petShop (4 + fuel) (.Object 3) bogusQuery "pets" = .ok bogusPlan) ∧
    ¬ (∀ n ∈ bogusPlan.nodes, ∀ sel ∈ n.SelectionSet.all,
        sel.Name = "__typename" ∨
        sel = RawSelection.mk "__federation" "__federation" [] none ∨
        ∃ r obj field info, petShop.objects r = some obj ∧
          obj.Fields sel.Name = some field ∧
          petShop.schema.Fields field = some info ∧ info.Services n.Service = true) := by
  constructor
  · intro fuel
    rw [plan_stable petShop 4 _ _ _ (by rw [bogusQuery_eval]; simp) fuel]
    exact bogusQuery_eval
  · intro hall
    have := hall bogusPlan (Plan.self_mem_nodes bogusPlan) (leaf "bogus") (by
      simp [bogusPlan, RawSelectionSet.all, RawSelection.allOfList, RawSelection.all,
        RawFragment.allOfList, leaf, typenameSelection])
    rcases this with h | h | ⟨r, obj, field, info, ho, hf, -, -⟩
    · exact absurd h (by decide)
    · simp [leaf] at h
    · simp only [petShop] at ho
      split at ho
      · injection ho with ho
        subst ho
        simp [mapOf, leaf] at hf
      · split at ho
        · injection ho with ho
          subst ho
          simp [mapOf, leaf] at hf
        · split at ho
          · injection ho with ho
            subst ho
            simp [mapOf, leaf] at hf
          · cases ho

end Federation
